import Mathlib

/-!
Offerwall competitors analysis: discovery merge, relevance filter, review pagination and
theme aggregation.

A shallow embedding of `index.js`.  Pure functions of the source are Lean functions with the
source's names.  The Google Play scraper is an external service: its calls are explicit
arguments (an answer per request, `none` when the call throws).  JavaScript objects and `Map`s
are association lists in insertion order.
-/

namespace Offerwall

/-! ## Strings -/

/-- A JavaScript string: the sequence of its UTF-16 code units. -/
abbrev Str := List Nat

/-- The code units of a string literal of the source (every literal there is ASCII). -/
def lit (s : String) : Str := s.toList.map Char.toNat

/-- This is `String.prototype.includes`: `w` occurs in `t` as a contiguous substring. -/
def includes (t w : Str) : Bool := t.tails.any (fun s => w.isPrefixOf s)

/-- The code units matched by `\s` and stripped by `trim` (ECMAScript WhiteSpace and
LineTerminator): TAB..CR, SP, NBSP, U+1680, U+2000..U+200A, LS, PS, U+202F, U+205F, U+3000,
U+FEFF. -/
def isWhiteSpace (c : Nat) : Bool :=
  (9 ≤ c && c ≤ 13) || c == 32 || c == 160 || c == 5760 || (8192 ≤ c && c ≤ 8202) ||
  c == 8232 || c == 8233 || c == 8239 || c == 8287 || c == 12288 || c == 65279

/-- Modelled from the spec: the built-in `String.prototype.toLowerCase` is not part of the
repository, and the spec only asks for lower-casing.  The model lower-cases the ASCII letters
`A`..`Z` and leaves every other code unit as it is. -/
def toLowerCase (s : Str) : Str := s.map (fun c => if 65 ≤ c ∧ c ≤ 90 then c + 32 else c)

/-- The step `replace(/\s+/g, " ")`: every maximal run of white space becomes one space.
`inRun` tells that the code unit before the list was white space. -/
def replaceWhiteSpace (inRun : Bool) : Str → Str
  | [] => []
  | c :: cs =>
    if isWhiteSpace c then
      if inRun then replaceWhiteSpace true cs else 32 :: replaceWhiteSpace true cs
    else c :: replaceWhiteSpace false cs

/-- This is `String.prototype.trim`. -/
def trim (s : Str) : Str := (s.dropWhile isWhiteSpace).rdropWhile isWhiteSpace

/-- `normalize(s)`: `(s || "").toLowerCase().replace(/\s+/g, " ").trim()`. -/
def normalize (s : Str) : Str := trim (replaceWhiteSpace false (toLowerCase s))

/-! ## Objects and maps -/

/-- A JavaScript object with string keys, or a `Map` keyed by strings: the entries in
insertion order. -/
abbrev Dict (α : Type) := List (Str × α)

/-- Reading `obj[k]` (`none` for `undefined`). -/
def Dict.get {α : Type} (d : Dict α) (k : Str) : Option α := d.lookup k

/-- Test `k in obj`, `map.has(k)`. -/
def Dict.has {α : Type} (d : Dict α) (k : Str) : Bool := d.any (fun p => p.1 == k)

/-- Assignment `obj[k] = v`, `map.set(k, v)`: an existing key keeps its place, a new key goes
last. -/
def Dict.set {α : Type} (d : Dict α) (k : Str) (v : α) : Dict α :=
  if d.has k then d.map (fun p => if p.1 == k then (p.1, v) else p) else d ++ [(k, v)]

/-- The keys of a dictionary, in insertion order. -/
def Dict.keys {α : Type} (d : Dict α) : List Str := d.map Prod.fst

/-- The update that `Dict.set` on a present key and `pushFrom` share. -/
def Dict.update {α : Type} (d : Dict α) (k : Str) (f : α → α) : Dict α :=
  d.map (fun p => if p.1 == k then (p.1, f p.2) else p)

/-! ## Configuration -/

def CONFIG.appsPerKeyword : Nat := 20
def CONFIG.similarAppsPerApp : Nat := 5
def CONFIG.maxReviewsPerApp : Nat := 3000
def CONFIG.minTotalReviewsToInclude : Nat := 500
def CONFIG.minReviewLength : Nat := 100
def CONFIG.examplesPerCategory : Nat := 15

def CONFIG.seededAppIds : List Str := [
  lit "com.prodege.swagbucksmobile", lit "com.mentormate.android.inboxdollars",
  lit "com.mistplay.mistplay", lit "com.tapgen.featurepoints", lit "com.requapp.requ",
  lit "com.survjun", lit "com.freecash.app2", lit "com.google.android.apps.paidtasks",
  lit "com.eureka.android", lit "de.empfohlen", lit "com.kashkick.kashkickapp",
  lit "us.current.android", lit "com.earnstar.games.earn.money",
  lit "com.apphype.surveystreak", lit "com.bestplay.app", lit "in.sweatco.app",
  lit "com.fetchrewards.fetchrewards.hop", lit "com.weward", lit "com.justdice",
  lit "app.justplay.de", lit "com.wombat.money", lit "money.cash.giraffe",
  lit "com.scrambly.app", lit "com.snakzy.app", lit "com.copper.app", lit "com.ember.app",
  lit "com.qmee.app", lit "com.surveymonkey.rewards", lit "com.lifepoints.lps",
  lit "com.toluna.androidapp", lit "com.yougov.participate", lit "com.surveytime.app",
  lit "com.primeresearch.primeopinion", lit "com.ibotta.android", lit "com.shopkick.app",
  lit "com.infoscout.receipthog", lit "com.checkout51.android", lit "com.appcard.dosh"]

def CONFIG.keywords : List Str := [
  lit "offerwall app", lit "GPT app earn", lit "get paid to app", lit "reward app offerwall",
  lit "earn money playing games", lit "paid surveys app", lit "survey rewards app",
  lit "complete tasks earn money", lit "watch videos earn money", lit "install apps earn cash",
  lit "cashback rewards app", lit "earn gift cards app", lit "play to earn rewards",
  lit "money making app legit", lit "earn paypal cash", lit "referral bonus app",
  lit "daily rewards app", lit "spin wheel earn money", lit "scratch cards earn money",
  lit "trivia game earn money", lit "swagbucks alternative", lit "mistplay alternative",
  lit "freecash alternative"]

def EXCLUDED_APP_IDS : List Str := [
  lit "com.android.chrome", lit "com.chrome.beta", lit "com.chrome.dev",
  lit "org.mozilla.firefox", lit "com.opera.browser", lit "com.opera.mini.native",
  lit "com.microsoft.emmx", lit "com.brave.browser", lit "com.duckduckgo.mobile.android",
  lit "com.twitter.android", lit "com.instagram.android", lit "com.facebook.katana",
  lit "com.facebook.lite", lit "com.whatsapp", lit "com.snapchat.android",
  lit "com.zhiliaoapp.musically", lit "com.ss.android.ugc.trill", lit "com.pinterest",
  lit "com.linkedin.android", lit "com.reddit.frontpage", lit "com.tumblr", lit "com.discord",
  lit "org.telegram.messenger", lit "com.google.android.youtube",
  lit "com.google.android.apps.youtube.music", lit "com.google.android.gm",
  lit "com.google.android.apps.docs", lit "com.google.android.apps.maps",
  lit "com.google.android.apps.photos", lit "com.microsoft.office.outlook",
  lit "com.microsoft.teams", lit "com.amazon.mShop.android.shopping", lit "com.amazon.kindle",
  lit "com.ebay.mobile", lit "com.alibaba.aliexpresshd", lit "com.walmart.android",
  lit "com.netflix.mediaclient", lit "com.spotify.music", lit "com.hulu.plus",
  lit "com.disney.disneyplus", lit "com.amazon.avod.thirdpartyclient",
  lit "com.paypal.android.p2pmobile", lit "com.venmo", lit "com.squareup.cash",
  lit "com.zellepay.zelle", lit "com.supercell.clashofclans", lit "com.supercell.clashroyale",
  lit "com.king.candycrushsaga", lit "com.rovio.angrybirds", lit "com.mojang.minecraftpe",
  lit "com.activision.callofduty.shooter", lit "com.pubg.krmobile", lit "com.binance.dev",
  lit "com.coinbase.android", lit "com.kraken.trade"]

def NEGATIVE_KEYWORDS : List Str := [
  lit "vpn", lit "antivirus", lit "cleaner", lit "booster", lit "battery", lit "wifi",
  lit "wallpaper", lit "launcher", lit "keyboard", lit "translator", lit "calculator",
  lit "weather", lit "flashlight", lit "camera", lit "photo editor", lit "video editor",
  lit "music player", lit "file manager", lit "browser", lit "pdf", lit "qr code",
  lit "dating", lit "social network", lit "messaging", lit "news", lit "podcast",
  lit "fitness tracker", lit "meditation", lit "sleep", lit "diet", lit "workout",
  lit "language learning", lit "education", lit "kids", lit "parental control",
  lit "remote control", lit "screen mirror", lit "recording", lit "notes", lit "calendar",
  lit "alarm", lit "timer", lit "compass", lit "speedometer", lit "scanner"]

def POSITIVE_KEYWORDS : List Str := [
  lit "earn", lit "reward", lit "cash", lit "money", lit "paid", lit "survey", lit "offerwall",
  lit "gift card", lit "paypal", lit "redeem", lit "points", lit "coins", lit "credits",
  lit "tasks", lit "offers", lit "watch videos", lit "install apps", lit "play games",
  lit "spin", lit "scratch", lit "trivia", lit "quiz", lit "lucky", lit "win", lit "prize",
  lit "cashback", lit "receipt", lit "shopping rewards", lit "referral", lit "bonus",
  lit "gpt", lit "get-paid-to", lit "make money", lit "side hustle", lit "passive income"]

def FIXED_WORDS : List Str := [
  lit "fixed", lit "resolved", lit "after update", lit "now works", lit "they fixed",
  lit "issue fixed", lit "problem solved", lit "working now"]

def PRAISE : Dict (List Str) := [
  (lit "pays_reliably", [
    lit "pays", lit "paid", lit "payment", lit "withdraw", lit "cashout", lit "redeem",
    lit "received", lit "legit", lit "legitimate", lit "real money"]),
  (lit "easy_to_use", [
    lit "easy", lit "simple", lit "straightforward", lit "intuitive", lit "user friendly",
    lit "clean interface"]),
  (lit "fun_engaging", [
    lit "fun", lit "enjoy", lit "addictive", lit "entertaining", lit "love it", lit "great app"]),
  (lit "good_variety", [
    lit "variety", lit "options", lit "many offers", lit "lots of games", lit "many surveys",
    lit "different tasks"]),
  (lit "fast_payout", [
    lit "fast payout", lit "quick payout", lit "instant", lit "same day", lit "within minutes",
    lit "quick cash", lit "fast redemption"]),
  (lit "good_rates", [
    lit "good rates", lit "pays well", lit "high paying", lit "worth it", lit "good value",
    lit "pays more than"]),
  (lit "low_minimum", [
    lit "low minimum", lit "low threshold", lit "easy to reach", lit "quick to redeem"]),
  (lit "reliable_tracking", [
    lit "tracks well", lit "always credits", lit "tracking works", lit "never missed"])
]

def COMPLAINT : Dict (List Str) := [
  (lit "not_credited", [
    lit "not credited", lit "didn't credit", lit "no credit", lit "missing points",
    lit "missing credits", lit "not tracking", lit "stopped tracking", lit "progress not",
    lit "doesn't track", lit "lost my points", lit "offer didn't credit",
    lit "never got credited", lit "pending forever"]),
  (lit "withdrawal_issues", [
    lit "can't withdraw", lit "withdrawal failed", lit "cashout failed", lit "can't cash out",
    lit "pending", lit "never received", lit "won't pay", lit "waiting for payment",
    lit "payout pending", lit "minimum too high", lit "threshold too high", lit "can't redeem"]),
  (lit "scam_suspicion", [
    lit "scam", lit "fraud", lit "fake", lit "ripoff", lit "rip off", lit "waste of time",
    lit "don't trust", lit "stealing", lit "never pays", lit "total scam", lit "complete scam",
    lit "avoid this"]),
  (lit "too_many_ads", [
    lit "too many ads", lit "constant ads", lit "ads everywhere", lit "annoying ads",
    lit "ad after ad", lit "more ads than", lit "forced ads", lit "unskippable ads",
    lit "ads every second"]),
  (lit "poor_support", [
    lit "no support", lit "customer service", lit "no response", lit "ignored",
    lit "bot reply", lit "no help", lit "useless support", lit "never replied",
    lit "automated response", lit "can't contact"]),
  (lit "account_banned", [
    lit "banned", lit "blocked", lit "suspended", lit "account disabled", lit "terminated",
    lit "kicked out", lit "banned for no reason", lit "false ban", lit "wrongly banned"]),
  (lit "bugs_crashes", [
    lit "bug", lit "glitch", lit "crash", lit "freeze", lit "broken", lit "not working",
    lit "doesn't work", lit "keeps crashing", lit "error", lit "laggy", lit "slow",
    lit "won't load", lit "black screen"]),
  (lit "low_earnings", [
    lit "pays too little", lit "not worth", lit "waste of time", lit "barely earn",
    lit "takes forever", lit "low pay", lit "pennies", lit "cents per hour",
    lit "impossible to earn"]),
  (lit "no_offers", [
    lit "no offers", lit "no surveys", lit "nothing available", lit "empty",
    lit "surveys always full", lit "never qualify", lit "disqualified", lit "no tasks",
    lit "dried up"])
]

/-! ## Relevance classifier -/

/-- `isRelevantApp(appId, title, description)`. -/
def isRelevantApp (appId title description : Str) : Bool :=
  if EXCLUDED_APP_IDS.contains appId then false
  else
    let text := normalize (title ++ lit " " ++ description)
    if NEGATIVE_KEYWORDS.any (fun neg =>
        includes text neg && !POSITIVE_KEYWORDS.any (fun pos => includes text pos)) then false
    else
      let positiveScore :=
        POSITIVE_KEYWORDS.foldl (fun score pos => if includes text pos then score + 1 else score) 0
      decide (positiveScore ≥ 2)

/-! ## Theme aggregation -/

/-- `hitThemes(text, dict)`: per label of `dict`, 1 when some word of the label occurs in the
normalized text and 0 otherwise.  The labels of `dict` are the keys of an object literal, so
they are distinct and every label gets its own entry. -/
def hitThemes (text : Str) (dict : Dict (List Str)) : Dict Nat :=
  let t := normalize text
  dict.map (fun p => (p.1, if p.2.any (fun w => includes t w) then 1 else 0))

/-- A review as the scraper returns it; only the fields that `countThemes` reads. -/
structure Review where
  text : Option Str
  content : Option Str
  score : Option Nat
  rating : Option Nat
deriving DecidableEq

/-- The expression `a || b` for a string `a` that may be missing: the empty string is falsy. -/
def strOr (a : Option Str) (b : Str) : Str :=
  match a with
  | some s => if s = [] then b else s
  | none => b

/-- The expression `a || null` for a string `a` that may be missing: the empty string is
falsy. -/
def strOrNull (a : Option Str) : Option Str :=
  match a with
  | some s => if s = [] then none else some s
  | none => none

/-- The expression `a || b` for a number `a` that may be missing: zero is falsy. -/
def numOr (a : Option Nat) (b : Nat) : Nat :=
  match a with
  | some n => if n = 0 then b else n
  | none => b

/-- `r.text || r.content || ""`. -/
def Review.body (r : Review) : Str := strOr r.text (strOr r.content [])

/-- `r.score || r.rating || 0`. -/
def Review.stars (r : Review) : Nat := numOr r.score (numOr r.rating 0)

/-- An entry of an example list inside `countThemes`. -/
structure Example where
  text : Str
  length : Nat
  score : Nat
deriving DecidableEq

/-- `arr.sort((a, b) => b.length - a.length)`: the stable sort by descending `length`. -/
def sortExamples (l : List Example) : List Example :=
  l.insertionSort (fun a b => a.length ≥ b.length)

/-- `pushExample(key, text, score)` on the `examples` object of `countThemes`. -/
def pushExample (examples : Dict (List Example)) (key text : Str) (score : Nat) :
    Dict (List Example) :=
  let examples := if examples.has key then examples else examples.set key []
  if text.length < CONFIG.minReviewLength then examples
  else
    let entry : Example := { text := text.take 500, length := text.length, score := score }
    let cur := (examples.get key).getD []
    if cur.length < CONFIG.examplesPerCategory then
      examples.set key (sortExamples (cur ++ [entry]))
    else
      match cur.getLast? with
      | some shortest =>
        if text.length > shortest.length then
          examples.set key (sortExamples (cur.dropLast ++ [entry]))
        else examples
      | none => examples

/-- The variables that the review loop of `countThemes` updates. -/
structure ThemeState where
  praiseCounts : Dict Nat
  complaintCounts : Dict Nat
  examples : Dict (List Example)
  fixedMentions : Nat
deriving DecidableEq

/-- The state before the first review: every label of both dictionaries has count 0. -/
def ThemeState.init : ThemeState :=
  { praiseCounts := PRAISE.foldl (fun o p => o.set p.1 0) [],
    complaintCounts := COMPLAINT.foldl (fun o p => o.set p.1 0) [],
    examples := [],
    fixedMentions := 0 }

/-- The body of `for (const [k, v] of Object.entries(p))`: count the praise hit `kv` and keep
the review as an example when it hit. -/
def praiseStep (text : Str) (score : Nat) (st : ThemeState) (kv : Str × Nat) : ThemeState :=
  { st with
    praiseCounts := st.praiseCounts.set kv.1 ((st.praiseCounts.get kv.1).getD 0 + kv.2),
    examples :=
      if kv.2 ≠ 0 then pushExample st.examples (lit "praise:" ++ kv.1) text score
      else st.examples }

/-- The body of `for (const [k, v] of Object.entries(c))`, for the complaint hits. -/
def complaintStep (text : Str) (score : Nat) (st : ThemeState) (kv : Str × Nat) : ThemeState :=
  { st with
    complaintCounts := st.complaintCounts.set kv.1 ((st.complaintCounts.get kv.1).getD 0 + kv.2),
    examples :=
      if kv.2 ≠ 0 then pushExample st.examples (lit "complaint:" ++ kv.1) text score
      else st.examples }

/-- One iteration of `for (const r of reviews)` in `countThemes`. -/
def ThemeState.step (st : ThemeState) (r : Review) : ThemeState :=
  let text := r.body
  let score := r.stars
  let t := normalize text
  let p := hitThemes t PRAISE
  let c := hitThemes t COMPLAINT
  let st := p.foldl (praiseStep text score) st
  let st := c.foldl (complaintStep text score) st
  if FIXED_WORDS.any (fun w => includes t w) then
    { st with
      fixedMentions := st.fixedMentions + 1,
      examples := pushExample st.examples (lit "fixed") text score }
  else st

/-- The state after the review loop of `countThemes`. -/
def themeLoop (reviews : List Review) : ThemeState := reviews.foldl ThemeState.step ThemeState.init

/-- `top(obj, n)`: the entries by descending count (stable sort), cut to the first `n`. -/
def top (obj : Dict Nat) (n : Nat) : List (Str × Nat) :=
  (obj.insertionSort (fun a b => a.2 ≥ b.2)).take n

/-- The value `countThemes` returns. -/
structure ThemeSummary where
  reviewCountUsed : Nat
  topPraises : List (Str × Nat)
  topComplaints : List (Str × Nat)
  fixedMentions : Nat
  examples : Dict (List Str)
deriving DecidableEq

/-- `countThemes(reviews)`. -/
def countThemes (reviews : List Review) : ThemeSummary :=
  let st := themeLoop reviews
  { reviewCountUsed := reviews.length,
    topPraises := top st.praiseCounts 10,
    topComplaints := top st.complaintCounts 10,
    fixedMentions := st.fixedMentions,
    examples := st.examples.map (fun p => (p.1, p.2.map (fun e => e.text))) }

/-! ## Review pagination -/

/-- The arguments of one `gplay.reviews` call that change from page to page. -/
structure ReviewsRequest where
  num : Nat
  nextPaginationToken : Option Str
deriving DecidableEq

/-- The value one `gplay.reviews` call resolves to. -/
structure ReviewsResponse where
  data : Option (List Review)
  nextPaginationToken : Option Str
deriving DecidableEq

/-- The reviews endpoint for one app: the answer to a request, given the requests made before
it (oldest first); `none` when the call throws. -/
abbrev ReviewSource := List ReviewsRequest → ReviewsRequest → Option ReviewsResponse

/-- Truthiness of a continuation token: `null`, `undefined` and `""` are falsy. -/
def tokenTruthy (t : Option Str) : Bool :=
  match t with
  | some s => !s.isEmpty
  | none => false

/-- The `while (all.length < max)` loop of `fetchReviews`, from the state `all`, `nextToken`;
`made` lists the requests sent so far.  Every iteration uses one unit of `fuel`; the result is
`none` only when the fuel runs out. -/
def fetchLoop (src : ReviewSource) (max : Nat) :
    Nat → List Review → Option Str → List ReviewsRequest →
      Option (List Review × List ReviewsRequest)
  | 0, all, _, made => if all.length < max then none else some (all, made)
  | fuel + 1, all, nextToken, made =>
    if all.length < max then
      let req : ReviewsRequest :=
        { num := min 200 (max - all.length), nextPaginationToken := nextToken }
      match src made req with
      | none => some (all, made ++ [req])
      | some res =>
        let all := all ++ res.data.getD []
        if !tokenTruthy res.nextPaginationToken || (res.data.getD []).length == 0 then
          some (all, made ++ [req])
        else fetchLoop src max fuel all res.nextPaginationToken (made ++ [req])
    else some (all, made)

/-- A run of `fetchReviews`: the list it returns and the requests it sent, in order. -/
def fetchReviewsRun (src : ReviewSource) (max : Nat) :
    Option (List Review × List ReviewsRequest) :=
  fetchLoop src max max [] none []

/-- `fetchReviews(appId, { max })` against the reviews endpoint `src` of the app. -/
def fetchReviews (src : ReviewSource) (max : Nat) : Option (List Review) :=
  (fetchReviewsRun src max).map Prod.fst

/-! ## Discovery merge -/

/-- An element of a search or similar-apps result. -/
structure Item where
  appId : Option Str
deriving DecidableEq

/-- A value of the `found` map; `from_` is the field `from` of the source. -/
structure Entity where
  appId : Str
  from_ : List Str
  verified : Bool
deriving DecidableEq

/-- The update `found.get(k).from.push(tag)`. -/
def pushFrom (found : Dict Entity) (k tag : Str) : Dict Entity :=
  found.map (fun p => if p.1 == k then (p.1, { p.2 with from_ := p.2.from_ ++ [tag] }) else p)

/-- The loop `for (const item of results)` of both discovery phases, with provenance `tag`. -/
def mergeResults (tag : Str) (found : Dict Entity) (results : List Item) : Dict Entity :=
  results.foldl (fun found item =>
    match item.appId with
    | none => found
    | some id =>
      if id = [] then found
      else
        let found :=
          if found.has id then found
          else found.set id { appId := id, from_ := [], verified := false }
        pushFrom found id tag) found

/-- `appId.split('.').pop()`: what follows the last dot. -/
def lastSegment (appId : Str) : Str := (appId.reverse.takeWhile (fun c => c != 46)).reverse

/-- Part 1 of `main`: the `found` map after the seeded, keyword and similar-apps phases.
`searchAppsByKeyword i kw` is what the `i`-th search call (for keyword `kw`) returns and
`fetchSimilarApps i appId` what the `i`-th similar-apps call returns; both wrappers turn an
error into the empty list. -/
def discover (seededAppIds keywords : List Str)
    (searchAppsByKeyword fetchSimilarApps : Nat → Str → List Item) : Dict Entity :=
  let found : Dict Entity := seededAppIds.foldl (fun found appId =>
    found.set appId { appId := appId, from_ := [lit "seeded_competitor"], verified := true }) []
  let found := keywords.enum.foldl (fun found kw =>
    mergeResults (lit "kw:" ++ kw.2) found (searchAppsByKeyword kw.1 kw.2)) found
  let seededApps := seededAppIds.take 15
  seededApps.enum.foldl (fun found app =>
    mergeResults (lit "similar:" ++ lastSegment app.2) found
      ((fetchSimilarApps app.1 app.2).take CONFIG.similarAppsPerApp)) found

/-! ## Per-entity task of the fetch phase -/

/-- What `gplay.app` resolves to; only the fields the gates and the claims read. -/
structure AppDetails where
  title : Option Str
  description : Option Str
  reviews : Option Nat
deriving DecidableEq

/-- An element of `appsOutput`. -/
structure AppRecord where
  appId : Str
  sources : List Str
  verified : Bool
  title : Option Str
  reviewsTotal : Option Nat
  description : Option Str
  summary : ThemeSummary
deriving DecidableEq

/-- How the task of one entity ends. -/
inductive TaskResult where
  | failed
  | tooFewReviews
  | filtered
  | record (r : AppRecord)
deriving DecidableEq

/-- The body of the task `LIMIT(async () => ...)` for the entity `appData`.  `details` is the
outcome of `fetchAppDetails` (`none` when it throws) and `src` the reviews endpoint of the app.
The file writes between `countThemes` and `appsOutput.push` are taken to succeed. -/
def entityTask (appData : Entity) (details : Option AppDetails) (src : ReviewSource) :
    TaskResult :=
  match details with
  | none => .failed
  | some meta =>
    if numOr meta.reviews 0 < CONFIG.minTotalReviewsToInclude then .tooFewReviews
    else if !appData.verified &&
        !isRelevantApp appData.appId (strOr meta.title []) (strOr meta.description []) then
      .filtered
    else
      match fetchReviews src CONFIG.maxReviewsPerApp with
      | none => .failed
      | some reviews =>
        .record
          { appId := appData.appId,
            sources := appData.from_,
            verified := appData.verified,
            title := meta.title,
            reviewsTotal := meta.reviews,
            description := strOrNull meta.description,
            summary := countThemes reviews }

/-! ## Fetch phase and output order -/

/-- The outside world of the fetch phase, per app id: what `fetchAppDetails` resolves to
(`none` when it throws), the reviews endpoint of the app, and whether the file writes of the
task (`ensureDir`, `writeJSON`) succeed. -/
structure Services where
  fetchAppDetails : Str → Option AppDetails
  reviews : Str → ReviewSource
  writesOk : Str → Bool

/-- The task `LIMIT(async () => { try { ... } catch (err) { } })` of the key `appId`, run to
its end: what it leaves in `appsOutput`.  The task reads `from` and `verified` of
`found.get(appId)` and uses the key itself as the id; any exception inside the `try` before
`appsOutput.push` ends the task without a push.  The log line after the push is left out. -/
def runTask (found : Dict Entity) (io : Services) (appsOutput : List AppRecord) (appId : Str) :
    List AppRecord :=
  match found.get appId with
  | none => appsOutput
  | some appData =>
    match entityTask { appData with appId := appId } (io.fetchAppDetails appId)
        (io.reviews appId) with
    | .record r => if io.writesOk appId then appsOutput ++ [r] else appsOutput
    | _ => appsOutput

/-- The array `appsOutput` after `Promise.all`, when the tasks reach their `appsOutput.push`
in the order `order` (the scheduler of `LIMIT` decides that order). -/
def fetchPhase (found : Dict Entity) (io : Services) (order : List Str) : List AppRecord :=
  order.foldl (runTask found io) []

/-- `appsOutput.sort((a, b) => (b.app.reviewsTotal || 0) - (a.app.reviewsTotal || 0))`. -/
def sortOutput (appsOutput : List AppRecord) : List AppRecord :=
  appsOutput.insertionSort (fun a b => numOr a.reviewsTotal 0 ≥ numOr b.reviewsTotal 0)

/-! ## Vocabulary of the classifier and normalization claims -/

/-- The text that `isRelevantApp` matches against. -/
def relevanceText (title description : Str) : Str := normalize (title ++ lit " " ++ description)

/-- The number of entries of `POSITIVE_KEYWORDS` that occur in a text. -/
def positiveHits (text : Str) : Nat := POSITIVE_KEYWORDS.countP (fun pos => decide (pos <:+: text))

/-- A text in which white space occurs only as single spaces. -/
def Collapsed (v : Str) : Prop :=
  (∀ c ∈ v, isWhiteSpace c = true → c = 32) ∧
  List.Chain' (fun a b => ¬ (isWhiteSpace a = true ∧ isWhiteSpace b = true)) v

/-! ## Vocabulary of the discovery claims -/

/-- How many items of a result list the merge loop takes for identifier `id`: the items whose
`appId` is `id`; items with a missing or empty `appId` are skipped by the loop. -/
def sightings (id : Str) (results : List Item) : Nat :=
  if id = [] then 0 else results.countP (fun item => item.appId == some id)

/-- Sightings of `id` over all keyword searches. -/
def keywordSightings (id : Str) (keywords : List Str)
    (searchAppsByKeyword : Nat → Str → List Item) : Nat :=
  (keywords.enum.map (fun kw => sightings id (searchAppsByKeyword kw.1 kw.2))).sum

/-- Sightings of `id` over the used prefix of every similar-apps result. -/
def similarSightings (id : Str) (seededAppIds : List Str)
    (fetchSimilarApps : Nat → Str → List Item) : Nat :=
  (((seededAppIds.take 15).enum.map (fun app =>
    sightings id ((fetchSimilarApps app.1 app.2).take CONFIG.similarAppsPerApp)))).sum

/-- The number of times `id` appears across the seed list, the keyword results and the used
prefixes of the similar-apps results. -/
def appearances (id : Str) (seededAppIds keywords : List Str)
    (searchAppsByKeyword fetchSimilarApps : Nat → Str → List Item) : Nat :=
  seededAppIds.count id + keywordSightings id keywords searchAppsByKeyword +
    similarSightings id seededAppIds fetchSimilarApps

/-- As `appearances`, with a seeded identifier counted once however often the seed list
repeats it. -/
def provenanceCount (id : Str) (seededAppIds keywords : List Str)
    (searchAppsByKeyword fetchSimilarApps : Nat → Str → List Item) : Nat :=
  (if id ∈ seededAppIds then 1 else 0) + keywordSightings id keywords searchAppsByKeyword +
    similarSightings id seededAppIds fetchSimilarApps

/-- The entries of `found` under the key `id`, each as identifier and number of provenance
tags. -/
def entriesFor (found : Dict Entity) (id : Str) : List (Str × Nat) :=
  (found.filter (fun p => p.1 == id)).map (fun p => (p.2.appId, p.2.from_.length))

/-- Every key occurs once and `c id` is the number of provenance tags of `id` (0: absent). -/
def Counted (found : Dict Entity) (c : Str → Nat) : Prop :=
  found.keys.Nodup ∧
  ∀ id, (found.get id).map (fun e => (e.appId, e.from_.length)) =
    if c id = 0 then none else some (id, c id)

/-! ## Vocabulary of the pagination claims -/

/-- The requests `rest`, sent after the requests `made`, follow the token order: the first
carries `tok`, each later one carries the token of the answer to the request before it, and
none asks for more than 200 items. -/
def TokenChain (src : ReviewSource) :
    List ReviewsRequest → Option Str → List ReviewsRequest → Prop
  | _, _, [] => True
  | made, tok, r :: rest =>
    r.nextPaginationToken = tok ∧ r.num ≤ 200 ∧
      (rest = [] ∨
        ∃ res, src made r = some res ∧ TokenChain src (made ++ [r]) res.nextPaginationToken rest)

/-- The source `src` serves the fixed list `L`; `pos` reads the offset a token stands for
(`null` stands for the start).  Every request is answered with the next `min(num, remaining)`
items, with a token for the new offset while items remain after them and with no usable token
otherwise. -/
def ServesList (src : ReviewSource) (L : List Review) (pos : Option Str → Nat) : Prop :=
  pos none = 0 ∧
  ∀ made req, ∃ res, src made req = some res ∧
    res.data.getD [] = (L.drop (pos req.nextPaginationToken)).take req.num ∧
    (pos req.nextPaginationToken + req.num < L.length →
      tokenTruthy res.nextPaginationToken = true ∧
      pos res.nextPaginationToken = pos req.nextPaginationToken + req.num) ∧
    (L.length ≤ pos req.nextPaginationToken + req.num →
      tokenTruthy res.nextPaginationToken = false)

/-- The offset that a token of `listSource` stands for. -/
def tokenPos (t : Option Str) : Nat :=
  match t with
  | none => 0
  | some s => s.length - 1

/-- A mock source over the list `L`: the token for offset `p` is the letter `t` repeated
`p + 1` times. -/
def listSource (L : List Review) : ReviewSource := fun _ req =>
  let start := tokenPos req.nextPaginationToken
  some
    { data := some ((L.drop start).take req.num),
      nextPaginationToken :=
        if start + req.num < L.length then some (List.replicate (start + req.num + 1) 116)
        else none }

/-- The items of a sequence of pages, in order. -/
def pageItems (pages : List ReviewsResponse) : List Review :=
  pages.flatMap (fun p => p.data.getD [])

/-- The request `fetchReviews` sends once the pages `pages` have come in. -/
def requestAfter (max : Nat) (pages : List ReviewsResponse) : ReviewsRequest :=
  { num := min 200 (max - (pageItems pages).length),
    nextPaginationToken := pages.getLast?.bind (fun p => p.nextPaginationToken) }

/-- The requests that brought the pages `pages`, in order. -/
def requestsFor (max : Nat) (pages : List ReviewsResponse) : List ReviewsRequest :=
  (List.range pages.length).map (fun i => requestAfter max (pages.take i))

/-- A source that answers its first request with one review and the token `t`, and throws
on every later request. -/
def flakySource : ReviewSource := fun made _ =>
  if made = [] then
    some { data := some [⟨some (lit "nice"), none, some 5, none⟩],
           nextPaginationToken := some (lit "t") }
  else none

/-! ## Vocabulary of the theme claims -/

/-- The review hits a word list: some word occurs in its normalized text. -/
def hitsWords (words : List Str) (r : Review) : Bool :=
  words.any (fun w => includes (normalize r.body) w)

/-- The example keys `praise:<label>`, `complaint:<label>` and `fixed`, each with the words
that make a review hit it. -/
def exampleSlots : Dict (List Str) :=
  PRAISE.map (fun p => (lit "praise:" ++ p.1, p.2)) ++
    COMPLAINT.map (fun p => (lit "complaint:" ++ p.1, p.2)) ++ [(lit "fixed", FIXED_WORDS)]

/-- The review hits the example key `key`. -/
def hitsKey (key : Str) (r : Review) : Bool :=
  match exampleSlots.get key with
  | some words => hitsWords words r
  | none => false

/-- The counts of a dictionary of themes over a review list: per label, the number of reviews
that hit the words of the label. -/
def themeCounts (dict : Dict (List Str)) (reviews : List Review) : Dict Nat :=
  dict.map (fun p => (p.1, reviews.countP (hitsWords p.2)))

/-- The effect of the inner loops on a count object: add each hit to the count of its label. -/
def addHits (counts hits : Dict Nat) : Dict Nat :=
  hits.foldl (fun o kv => o.set kv.1 ((o.get kv.1).getD 0 + kv.2)) counts

/-- What one call `pushExample(key, text, score)` does to the example list of `key`. -/
def pushList (cur : List Example) (text : Str) (score : Nat) : List Example :=
  if text.length < CONFIG.minReviewLength then cur
  else if cur.length < CONFIG.examplesPerCategory then
    sortExamples (cur ++ [{ text := text.take 500, length := text.length, score := score }])
  else
    match cur.getLast? with
    | some shortest =>
      if text.length > shortest.length then
        sortExamples
          (cur.dropLast ++ [{ text := text.take 500, length := text.length, score := score }])
      else cur
    | none => cur

/-- The calls of `pushExample` that one review causes, in order, as the keys pushed to. -/
def pushedKeys (r : Review) : List Str :=
  (exampleSlots.filter (fun s => hitsWords s.2 r)).map Prod.fst

/-- The reviews that are eligible as examples of `key`: they hit the key and their original
text has at least `minReviewLength` code units. -/
def eligible (key : Str) (reviews : List Review) : List Review :=
  reviews.filter (fun r => hitsKey key r && decide (CONFIG.minReviewLength ≤ r.body.length))

/-- The entries that `countThemes` holds for `key` when the review loop ends (none when the key
is absent). -/
def storedExamples (reviews : List Review) (key : Str) : List Example :=
  ((themeLoop reviews).examples.get key).getD []

/-- Position of a label in the declaration order of a theme dictionary. -/
def labelIndex (dict : Dict (List Str)) (label : Str) : Nat :=
  dict.keys.findIdx (fun k => decide (k = label))

/-- Ranking order of two entries: a larger count first, and for equal counts the label that
the dictionary declares first. -/
def RankedBefore (dict : Dict (List Str)) (a b : Str × Nat) : Prop :=
  a.2 > b.2 ∨ (a.2 = b.2 ∧ labelIndex dict a.1 < labelIndex dict b.1)

/-- The stable sort of a list of lengths into non-increasing order. -/
def sortDesc (l : List Nat) : List Nat := l.insertionSort (fun a b => a ≥ b)

instance sortDesc_total : IsTotal Nat (fun a b => a ≥ b) := ⟨fun a b => Nat.le_total b a⟩

instance sortDesc_trans : IsTrans Nat (fun a b => a ≥ b) :=
  ⟨fun _ _ _ hab hbc => Nat.le_trans hbc hab⟩

instance sortDesc_antisymm : IsAntisymm Nat (fun a b => a ≥ b) :=
  ⟨fun _ _ hab hba => Nat.le_antisymm hba hab⟩

/-- The entry `e` was made from the review `r`: it holds the first 500 code units of the
original text and the original length. -/
def MadeFrom (e : Example) (r : Review) : Prop :=
  e.text = r.body.take 500 ∧ e.length = r.body.length

/-- The entry that `countThemes` pushes for a review: `pushExample(key, text, score)` is called
with `text = r.text || r.content || ""` and `score = r.score || r.rating || 0` and builds
`{ text: text.slice(0, 500), length: text.length, score }`. -/
def entryOf (r : Review) : Example :=
  { text := r.body.take 500, length := r.body.length, score := r.stars }

/-- A review of 120 code units that contains "withdrawal failed". -/
def sampleComplaint : Review :=
  ⟨some (lit "withdrawal failed " ++ List.replicate 102 120), none, some 1, none⟩

/-- A review with the text "ok". -/
def sampleShort : Review := ⟨some (lit "ok"), none, some 5, none⟩

/-! ## Vocabulary of the fetch-phase claims -/

/-- A service set in which every metadata fetch succeeds with 1000 reviews except the one of
`bad`, which throws; reviews endpoints throw and file writes succeed. -/
def sampleServices (bad : Str) : Services :=
  { fetchAppDetails := fun id =>
      if id = bad then none else some ⟨some (lit "Earn cash rewards"), none, some 1000⟩,
    reviews := fun _ _ _ => none,
    writesOk := fun _ => true }

/-- A discovery map with two seeded entities. -/
def sampleFound : Dict Entity :=
  [(lit "a", ⟨lit "a", [lit "seeded_competitor"], true⟩),
   (lit "b", ⟨lit "b", [lit "seeded_competitor"], true⟩)]

/-! ## Vocabulary of the provenance claims -/

/-- What sightings with the tags `tags` make of the entity of `id` (`none`: no entity yet): an
existing entity gets the tags appended, a missing one is created unverified when there is a
tag. -/
def extend (o : Option Entity) (id : Str) (tags : List Str) : Option Entity :=
  match o with
  | some e => some { e with from_ := e.from_ ++ tags }
  | none => if tags = [] then none else some { appId := id, from_ := tags, verified := false }

/-- The tags that the keyword phase appends for `id`: per keyword, in keyword order, the tag
`kw:<keyword>` once per sighting of `id` in the result of that keyword. -/
def keywordTags (id : Str) (keywords : List Str)
    (searchAppsByKeyword : Nat → Str → List Item) : List Str :=
  keywords.enum.flatMap (fun kw =>
    List.replicate (sightings id (searchAppsByKeyword kw.1 kw.2)) (lit "kw:" ++ kw.2))

/-- The tags that the similar-apps phase appends for `id`: per queried seed, in seed order,
the tag `similar:<last segment of the seed id>` once per sighting of `id` in the used prefix
of the similar-apps result of that seed. -/
def similarTags (id : Str) (seededAppIds : List Str)
    (fetchSimilarApps : Nat → Str → List Item) : List Str :=
  (seededAppIds.take 15).enum.flatMap (fun app =>
    List.replicate
      (sightings id ((fetchSimilarApps app.1 app.2).take CONFIG.similarAppsPerApp))
      (lit "similar:" ++ lastSegment app.2))

/-- The provenance list of `id` in channel processing order, with the tags of the source. -/
def expectedSources (id : Str) (seededAppIds keywords : List Str)
    (searchAppsByKeyword fetchSimilarApps : Nat → Str → List Item) : List Str :=
  (if id ∈ seededAppIds then [lit "seeded_competitor"] else []) ++
    keywordTags id keywords searchAppsByKeyword ++
    similarTags id seededAppIds fetchSimilarApps

/-- The total number of provenance tags in a discovery map. -/
def tagTotal (found : Dict Entity) : Nat := (found.map (fun p => p.2.from_.length)).sum

/-- The merge loop takes the item: its `appId` is present and not empty. -/
def mergeable (item : Item) : Bool :=
  match item.appId with
  | some k => k != []
  | none => false

/-! ## Vocabulary of the matching claims -/

/-- The white-space flag after reading a text: whether its last code unit is white space
(`f` for the empty text). -/
def wsEnd (f : Bool) : Str → Bool
  | [] => f
  | c :: cs => wsEnd (isWhiteSpace c) cs

/-- A text made of white space only. -/
def AllWhite (w : Str) : Prop := ∀ c ∈ w, isWhiteSpace c = true

/-- Two code units that are equal or are the two cases of one ASCII letter. -/
def caseVariant (c d : Nat) : Prop :=
  c = d ∨ (65 ≤ c ∧ c ≤ 90 ∧ d = c + 32) ∨ (65 ≤ d ∧ d ≤ 90 ∧ c = d + 32)

/-- The second text is the first one respelled: ASCII letters may have changed case and runs
of white space may have been replaced by other non-empty runs of white space, any number of
times. -/
inductive Respelled : Str → Str → Prop where
  | same (t : Str) : Respelled t t
  | letter (a b : Str) (c d : Nat) : caseVariant c d → Respelled (a ++ c :: b) (a ++ d :: b)
  | space (a w v b : Str) : AllWhite w → AllWhite v → w ≠ [] → v ≠ [] →
      Respelled (a ++ w ++ b) (a ++ v ++ b)
  | step {t u v : Str} : Respelled t u → Respelled u v → Respelled t v

/-- Every matching word of the source: the positive and negative keywords, the words of the
praise and complaint labels and the fixed words. -/
def matchWords : List Str :=
  POSITIVE_KEYWORDS ++ NEGATIVE_KEYWORDS ++ PRAISE.flatMap (fun p => p.2) ++
    COMPLAINT.flatMap (fun p => p.2) ++ FIXED_WORDS

/-- Some split of `p` after one of its white-space code units leaves a non-empty rest that
starts the word `n`: `p` can lie across the join of a text ending in white space and `n`. -/
def straddles (p n : Str) : Bool :=
  (List.range p.length).any (fun i =>
    isWhiteSpace (p.getD i 0) && decide (p.drop (i + 1) ≠ []) && (p.drop (i + 1)).isPrefixOf n)

/-- The words of the complaint label `withdrawal_issues`. -/
def withdrawalWords : List Str := (COMPLAINT.get (lit "withdrawal_issues")).getD []

/-! ## Vocabulary of the last pagination and overlap claims -/

/-- The source never answers with more items than the request asked for. -/
def HonoursNum (src : ReviewSource) : Prop :=
  ∀ made req res, src made req = some res → (res.data.getD []).length ≤ req.num

/-- A source that answers every request with the same two reviews and no token, whatever
`num` says. -/
def greedySource : ReviewSource := fun _ _ =>
  some { data := some [⟨some (lit "nice"), none, some 5, none⟩,
                       ⟨some (lit "great"), none, some 4, none⟩],
         nextPaginationToken := none }

/-- The words of the praise label `pays_reliably`. -/
def paysWords : List Str := (PRAISE.get (lit "pays_reliably")).getD []

/-- The complaint phrases of `withdrawal_issues` that contain a word of `pays_reliably`. -/
def overlapPhrases : List Str :=
  [lit "withdrawal failed", lit "can't withdraw", lit "can't redeem", lit "waiting for payment"]

/-- The review contains one of the phrases of `overlapPhrases` in its normalized text. -/
def hasOverlapPhrase (r : Review) : Bool :=
  overlapPhrases.any (fun ph => includes (normalize r.body) ph)

/-! ## Strings: facts -/

theorem includes_iff_substring (t w : Str) : includes t w = true ↔ w <:+: t := by
  unfold includes
  rw [List.any_eq_true]
  constructor
  · rintro ⟨s, hs, hp⟩
    have h1 : w <+: s := List.isPrefixOf_iff_prefix.mp hp
    have h2 : s <:+ t := (List.mem_tails s t).mp hs
    exact h1.isInfix.trans h2.isInfix
  · rintro ⟨a, b, h⟩
    refine ⟨w ++ b, (List.mem_tails _ _).mpr ⟨a, by simpa using h⟩, ?_⟩
    exact List.isPrefixOf_iff_prefix.mpr (List.prefix_append w b)

theorem foldl_count_eq {α : Type} (c : α → Bool) (l : List α) (n : Nat) :
    l.foldl (fun score x => if c x then score + 1 else score) n = n + l.countP c := by
  induction l generalizing n with
  | nil => simp
  | cons x xs ih =>
    simp only [List.foldl_cons, List.countP_cons]
    rw [ih]
    by_cases hx : c x = true <;> simp [hx]; omega

theorem isRelevantApp_eq (appId title description : Str) :
    isRelevantApp appId title description =
      (!EXCLUDED_APP_IDS.contains appId &&
        decide (2 ≤ positiveHits (relevanceText title description))) := by
  have hcount : POSITIVE_KEYWORDS.countP (fun pos => includes (relevanceText title description) pos)
      = positiveHits (relevanceText title description) := by
    unfold positiveHits
    apply List.countP_congr
    intro pos _
    simp [includes_iff_substring]
  unfold isRelevantApp
  by_cases hex : EXCLUDED_APP_IDS.contains appId = true
  · rw [if_pos hex, hex]; rfl
  · rw [if_neg hex]
    simp only [Bool.not_eq_true] at hex
    rw [hex]
    show (if (NEGATIVE_KEYWORDS.any fun neg => includes (relevanceText title description) neg &&
        !POSITIVE_KEYWORDS.any fun pos => includes (relevanceText title description) pos) = true
      then false else decide (POSITIVE_KEYWORDS.foldl (fun score pos =>
        if includes (relevanceText title description) pos then score + 1 else score) 0 ≥ 2)) = _
    simp only [foldl_count_eq, hcount, Nat.zero_add, ge_iff_le, Bool.not_false, Bool.true_and]
    split
    · rename_i hneg
      rw [List.any_eq_true] at hneg
      obtain ⟨neg, -, h⟩ := hneg
      simp only [Bool.and_eq_true, Bool.not_eq_true'] at h
      have h0 : positiveHits (relevanceText title description) = 0 := by
        rw [← hcount, List.countP_eq_zero]
        intro pos hpos hp
        have h2 := h.2
        rw [List.any_eq_false] at h2
        exact h2 pos hpos hp
      simp [h0]
    · rfl

/-- C2. `isRelevantApp(id, title, description)` is true exactly when `id` is not in
`EXCLUDED_APP_IDS` and at least two entries of `POSITIVE_KEYWORDS` occur as substrings of
`normalize(title + " " + description)`.  Hence an excluded id is rejected whatever the text,
and two texts with the same positive matches get the same answer, whichever negative keywords
they contain. -/
theorem isRelevantApp_closed_form (appId title description : Str) :
    (isRelevantApp appId title description = true ↔
      appId ∉ EXCLUDED_APP_IDS ∧ 2 ≤ positiveHits (relevanceText title description)) ∧
    (appId ∈ EXCLUDED_APP_IDS → isRelevantApp appId title description = false) ∧
    (∀ title2 description2 : Str,
      (∀ pos ∈ POSITIVE_KEYWORDS, pos <:+: relevanceText title description ↔
        pos <:+: relevanceText title2 description2) →
      isRelevantApp appId title2 description2 = isRelevantApp appId title description) := by
  refine ⟨?_, ?_, ?_⟩
  · rw [isRelevantApp_eq]; simp
  · intro h; rw [isRelevantApp_eq]; simp [h]
  · intro t2 d2 h
    rw [isRelevantApp_eq, isRelevantApp_eq]
    have : positiveHits (relevanceText t2 d2) = positiveHits (relevanceText title description) := by
      unfold positiveHits
      apply List.countP_congr
      intro pos hpos
      simp [h pos hpos]
    rw [this]

theorem isRelevantApp_closed_form_witness :
    lit "com.whatsapp" ∈ EXCLUDED_APP_IDS ∧
    isRelevantApp (lit "com.whatsapp") (lit "Earn cash rewards") (lit "paid surveys") = false :=
  ⟨by decide, (isRelevantApp_closed_form (lit "com.whatsapp") (lit "Earn cash rewards")
    (lit "paid surveys")).2.1 (by decide)⟩
/-! ## Pagination: the loop always returns -/

theorem fetchLoop_isSome (src : ReviewSource) (max : Nat) :
    ∀ (fuel : Nat) (all : List Review) (tok : Option Str) (made : List ReviewsRequest),
      max - all.length ≤ fuel → ∃ r, fetchLoop src max fuel all tok made = some r := by
  intro fuel
  induction fuel with
  | zero =>
    intro all tok made h
    have hlt : ¬ all.length < max := by omega
    exact ⟨(all, made), by simp [fetchLoop, hlt]⟩
  | succ fuel ih =>
    intro all tok made h
    unfold fetchLoop
    by_cases hlt : all.length < max
    · simp only [hlt, if_true]
      cases hsrc : src made { num := min 200 (max - all.length), nextPaginationToken := tok } with
      | none => exact ⟨_, rfl⟩
      | some res =>
        simp only
        split
        · exact ⟨_, rfl⟩
        · rename_i hcont
          simp only [Bool.or_eq_true, Bool.not_eq_true', beq_iff_eq, not_or] at hcont
          apply ih
          rw [List.length_append]
          have := hcont.2
          omega
    · simp only [hlt, if_false]
      exact ⟨_, rfl⟩

theorem fetchReviews_isSome (src : ReviewSource) (max : Nat) :
    ∃ reviews, fetchReviews src max = some reviews := by
  obtain ⟨r, hr⟩ := fetchLoop_isSome src max max [] none [] (by simp)
  exact ⟨r.1, by simp [fetchReviews, fetchReviewsRun, hr]⟩

/-- C3. When the metadata fetch of an entity succeeded, its task produces a record exactly when
the review count of the metadata (missing counted as 0) is at least
`minTotalReviewsToInclude` = 500 and the entity is verified or `isRelevantApp` accepts its id,
title and description.  So a verified entity is never filtered by the classifier, whatever
its id and text, and a non-verified entity titled "VPN Booster Cleaner" whose text holds no
positive keyword gets no record whatever its review count. -/
theorem entityTask_gate (appData : Entity) (meta : AppDetails) (src : ReviewSource) :
    ((∃ r, entityTask appData (some meta) src = TaskResult.record r) ↔
      500 ≤ numOr meta.reviews 0 ∧
      (appData.verified = true ∨
        isRelevantApp appData.appId (strOr meta.title []) (strOr meta.description []) = true)) ∧
    (appData.verified = true → entityTask appData (some meta) src ≠ TaskResult.filtered) ∧
    (appData.verified = false → meta.title = some (lit "VPN Booster Cleaner") →
      positiveHits (relevanceText (lit "VPN Booster Cleaner") (strOr meta.description [])) = 0 →
      ∀ r, entityTask appData (some meta) src ≠ TaskResult.record r) := by
  obtain ⟨reviews, hrev⟩ := fetchReviews_isSome src CONFIG.maxReviewsPerApp
  have key : (∃ r, entityTask appData (some meta) src = TaskResult.record r) ↔
      500 ≤ numOr meta.reviews 0 ∧
      (appData.verified = true ∨
        isRelevantApp appData.appId (strOr meta.title []) (strOr meta.description []) = true) := by
    unfold entityTask
    simp only [CONFIG.minTotalReviewsToInclude, hrev]
    by_cases h1 : numOr meta.reviews 0 < 500
    · simp only [h1, if_true]
      constructor
      · rintro ⟨r, hr⟩; cases hr
      · rintro ⟨h, -⟩; omega
    · simp only [h1, if_false]
      cases hv : appData.verified <;>
        cases hr : isRelevantApp appData.appId (strOr meta.title []) (strOr meta.description []) <;>
        simp <;> omega
  refine ⟨key, ?_, ?_⟩
  · intro hv
    unfold entityTask
    simp only [hv, hrev]
    split
    · simp
    · simp
  · intro hv ht h0 r hr
    have h := key.mp ⟨r, hr⟩
    rcases h.2 with h2 | h2
    · rw [hv] at h2; cases h2
    · have e : strOr (some (lit "VPN Booster Cleaner")) [] = lit "VPN Booster Cleaner" := by decide
      rw [isRelevantApp_eq, ht, e, h0] at h2
      simp at h2
/-! ## Dictionaries: facts -/

theorem Dict.update_nil {α : Type} (k : Str) (f : α → α) :
    Dict.update ([] : Dict α) k f = [] := rfl

theorem Dict.update_cons {α : Type} (a : Str) (b : α) (d : Dict α) (k : Str) (f : α → α) :
    Dict.update ((a, b) :: d) k f = (if a = k then (a, f b) else (a, b)) :: Dict.update d k f := by
  unfold Dict.update
  by_cases h : a = k <;> simp [h]

theorem Dict.get_nil {α : Type} (k : Str) : Dict.get ([] : Dict α) k = none := rfl

theorem Dict.get_cons {α : Type} (a : Str) (b : α) (d : Dict α) (k : Str) :
    Dict.get ((a, b) :: d) k = if k = a then some b else Dict.get d k := by
  unfold Dict.get
  by_cases h : k = a
  · subst h; simp [List.lookup]
  · have : (k == a) = false := by simpa using h
    simp [List.lookup, this, h]

theorem Dict.keys_cons {α : Type} (a : Str) (b : α) (d : Dict α) :
    Dict.keys ((a, b) :: d) = a :: Dict.keys d := rfl

theorem Dict.keys_update {α : Type} (d : Dict α) (k : Str) (f : α → α) :
    (d.update k f).keys = d.keys := by
  induction d with
  | nil => rfl
  | cons p d ih =>
    obtain ⟨a, b⟩ := p
    rw [Dict.update_cons]
    by_cases h : a = k
    · rw [if_pos h, Dict.keys_cons, Dict.keys_cons, ih]
    · rw [if_neg h, Dict.keys_cons, Dict.keys_cons, ih]

theorem Dict.get_update {α : Type} (d : Dict α) (k k2 : Str) (f : α → α) :
    (d.update k f).get k2 = if k2 = k then (d.get k).map f else d.get k2 := by
  induction d with
  | nil => simp [Dict.update_nil, Dict.get_nil]
  | cons p d ih =>
    obtain ⟨a, b⟩ := p
    rw [Dict.update_cons]
    by_cases h : a = k
    · subst h
      rw [if_pos rfl, Dict.get_cons, Dict.get_cons, Dict.get_cons, ih]
      by_cases h2 : k2 = a
      · subst h2; simp
      · simp [h2]
    · rw [if_neg h, Dict.get_cons, Dict.get_cons, Dict.get_cons, ih]
      by_cases h2 : k2 = a
      · have h3 : ¬ k2 = k := fun e => h (h2 ▸ e)
        have h4 : ¬ k = a := fun e => h e.symm
        subst h2
        simp [h]
      · by_cases h3 : k2 = k
        · have h4 : ¬ k = a := fun e => h e.symm
          simp [h2, h3, h4]
        · simp [h2, h3]

theorem Dict.has_iff_mem_keys {α : Type} (d : Dict α) (k : Str) :
    d.has k = true ↔ k ∈ d.keys := by
  unfold Dict.has Dict.keys
  simp only [List.any_eq_true, beq_iff_eq, List.mem_map]

theorem Dict.get_eq_none_iff {α : Type} (d : Dict α) (k : Str) :
    d.get k = none ↔ k ∉ d.keys := by
  induction d with
  | nil => simp [Dict.get_nil, Dict.keys]
  | cons p d ih =>
    obtain ⟨a, b⟩ := p
    rw [Dict.get_cons, Dict.keys_cons]
    by_cases ha : k = a
    · simp [ha]
    · simp [ha, ih]

theorem Dict.set_eq_update {α : Type} (d : Dict α) (k : Str) (v : α) (h : d.has k = true) :
    d.set k v = d.update k (fun _ => v) := by
  unfold Dict.set Dict.update
  rw [if_pos h]

theorem Dict.set_eq_append {α : Type} (d : Dict α) (k : Str) (v : α) (h : d.has k = false) :
    d.set k v = d ++ [(k, v)] := by
  unfold Dict.set
  rw [h]; rfl

theorem Dict.get_append_single {α : Type} (d : Dict α) (k k2 : Str) (v : α) :
    Dict.get (d ++ [(k, v)]) k2 =
      if k2 ∈ d.keys then d.get k2 else if k2 = k then some v else none := by
  induction d with
  | nil => simp [Dict.get_cons, Dict.get_nil, Dict.keys]
  | cons p d ih =>
    obtain ⟨a, b⟩ := p
    rw [List.cons_append, Dict.get_cons, Dict.get_cons, Dict.keys_cons, ih]
    by_cases ha : k2 = a
    · simp [ha]
    · simp [ha]

theorem Dict.get_set {α : Type} (d : Dict α) (k k2 : Str) (v : α) :
    (d.set k v).get k2 = if k2 = k then some v else d.get k2 := by
  cases h : d.has k with
  | true =>
    rw [Dict.set_eq_update d k v h, Dict.get_update]
    by_cases hk : k2 = k
    · simp only [hk, if_true]
      have : d.get k ≠ none := by
        rw [Ne, Dict.get_eq_none_iff, not_not, ← Dict.has_iff_mem_keys]; exact h
      cases hg : d.get k with
      | none => exact absurd hg this
      | some x => rfl
    · simp [hk]
  | false =>
    rw [Dict.set_eq_append d k v h, Dict.get_append_single]
    have hnk : k ∉ d.keys := by
      rw [← Dict.has_iff_mem_keys, h]; simp
    by_cases hk : k2 = k
    · subst hk; simp [hnk]
    · simp only [hk, if_false]
      split
      · rfl
      · rename_i hn
        exact ((Dict.get_eq_none_iff d k2).mpr hn).symm

theorem Dict.keys_set {α : Type} (d : Dict α) (k : Str) (v : α) :
    (d.set k v).keys = if k ∈ d.keys then d.keys else d.keys ++ [k] := by
  cases h : d.has k with
  | true =>
    rw [Dict.set_eq_update d k v h, Dict.keys_update, if_pos ((Dict.has_iff_mem_keys d k).mp h)]
  | false =>
    have hnk : k ∉ d.keys := by
      rw [← Dict.has_iff_mem_keys, h]; simp
    rw [Dict.set_eq_append d k v h, if_neg hnk]
    simp [Dict.keys]

theorem Dict.nodup_keys_set {α : Type} (d : Dict α) (k : Str) (v : α) (h : d.keys.Nodup) :
    (d.set k v).keys.Nodup := by
  rw [Dict.keys_set]
  split
  · exact h
  · rename_i hn
    exact List.Nodup.append h (List.nodup_singleton k) (by simpa using hn)

theorem pushFrom_eq_update (found : Dict Entity) (k tag : Str) :
    pushFrom found k tag = found.update k (fun e => { e with from_ := e.from_ ++ [tag] }) := rfl
/-! ## Discovery merge: facts -/

theorem Dict.filter_key_of_nodup {α : Type} (d : Dict α) (k : Str) (h : d.keys.Nodup) :
    d.filter (fun p => p.1 == k) = (d.get k).toList.map (fun v => (k, v)) := by
  induction d with
  | nil => rfl
  | cons p d ih =>
    obtain ⟨a, b⟩ := p
    rw [Dict.keys_cons, List.nodup_cons] at h
    rw [Dict.get_cons]
    by_cases ha : k = a
    · subst ha
      have hnone : Dict.get d k = none := (Dict.get_eq_none_iff d k).mpr h.1
      have := ih h.2
      rw [hnone] at this
      simp [List.filter_cons, this]
    · have hb : (a == k) = false := by simpa using fun e => ha e.symm
      simp only [List.filter_cons, hb, Bool.false_eq_true, if_false, ha]
      exact ih h.2

theorem counted_seed (found : Dict Entity) (c : Str → Nat) (h : Counted found c) (appId : Str) :
    Counted (found.set appId { appId := appId, from_ := [lit "seeded_competitor"], verified := true })
      (fun id => if id = appId then 1 else c id) := by
  refine ⟨Dict.nodup_keys_set _ _ _ h.1, ?_⟩
  intro id
  rw [Dict.get_set]
  by_cases hid : id = appId
  · subst hid; simp
  · simp only [hid, if_false]; exact h.2 id

theorem counted_seeds (seeds : List Str) :
    ∀ (found : Dict Entity) (c : Str → Nat), Counted found c →
      Counted (seeds.foldl (fun found appId =>
          found.set appId { appId := appId, from_ := [lit "seeded_competitor"], verified := true })
          found)
        (fun id => if id ∈ seeds then 1 else c id) := by
  induction seeds with
  | nil => intro found c h; simpa using h
  | cons s seeds ih =>
    intro found c h
    have h2 := ih _ _ (counted_seed found c h s)
    rw [List.foldl_cons]
    have hc : (fun id => if id ∈ s :: seeds then 1 else c id) =
        (fun id => if id ∈ seeds then 1 else if id = s then 1 else c id) := by
      funext id
      by_cases h1 : id ∈ seeds <;> by_cases h3 : id = s <;> simp [h1, h3]
    rw [hc]; exact h2

theorem counted_item (tag : Str) (found : Dict Entity) (c : Str → Nat) (h : Counted found c)
    (k : Str) (hk : k ≠ []) :
    Counted (pushFrom (if found.has k then found
        else found.set k { appId := k, from_ := [], verified := false }) k tag)
      (fun id => c id + if id = k then 1 else 0) := by
  rw [pushFrom_eq_update]
  constructor
  · rw [Dict.keys_update]
    split
    · exact h.1
    · exact Dict.nodup_keys_set _ _ _ h.1
  · intro id
    rw [Dict.get_update]
    by_cases hid : id = k
    · subst hid
      simp only [if_true]
      have hc := h.2 id
      cases hhas : found.has id with
      | true =>
        simp only [if_true]
        have hne : Dict.get found id ≠ none := by
          rw [Ne, Dict.get_eq_none_iff, not_not, ← Dict.has_iff_mem_keys]; exact hhas
        cases hg : Dict.get found id with
        | none => exact absurd hg hne
        | some e =>
          rw [hg] at hc
          by_cases hz : c id = 0
          · simp [hz] at hc
          · simp only [hz, if_false, Option.map_some', Option.some.injEq, Prod.mk.injEq] at hc
            simp [hc.1, hc.2]
      | false =>
        have hnone : Dict.get found id = none := by
          rw [Dict.get_eq_none_iff, ← Dict.has_iff_mem_keys, hhas]; simp
        rw [hnone] at hc
        have hz : c id = 0 := by
          by_contra hz
          simp [hz] at hc
        simp [Dict.get_set, hz]
    · simp only [hid, if_false, Nat.add_zero]
      split
      · exact h.2 id
      · rw [Dict.get_set, if_neg hid]; exact h.2 id

theorem sightings_cons (id : Str) (item : Item) (results : List Item) :
    sightings id (item :: results) =
      (if item.appId = some id ∧ id ≠ [] then 1 else 0) + sightings id results := by
  unfold sightings
  by_cases h : id = []
  · simp [h]
  · by_cases h2 : item.appId = some id
    · simp [h, h2, List.countP_cons]; omega
    · simp [h, h2, List.countP_cons]

theorem counted_mergeResults (tag : Str) (results : List Item) :
    ∀ (found : Dict Entity) (c : Str → Nat), Counted found c →
      Counted (mergeResults tag found results) (fun id => c id + sightings id results) := by
  induction results with
  | nil =>
    intro found c h
    have : (fun id => c id + sightings id []) = c := by
      funext id; simp [sightings]
    rw [this]; exact h
  | cons item results ih =>
    intro found c h
    unfold mergeResults
    rw [List.foldl_cons]
    have hfun : (fun id => c id + sightings id (item :: results)) =
        (fun id => (c id + if item.appId = some id ∧ id ≠ [] then 1 else 0) +
          sightings id results) := by
      funext id; rw [sightings_cons]; omega
    rw [hfun]
    apply ih
    cases hitem : item.appId with
    | none =>
      simp only
      have : (fun id => c id + if none = some id ∧ id ≠ [] then 1 else 0) = c := by
        funext id; simp
      rw [this]; exact h
    | some k =>
      simp only
      by_cases hk : k = []
      · simp only [hk, if_true]
        have : (fun id => c id + if some ([] : Str) = some id ∧ id ≠ [] then 1 else 0) = c := by
          funext id
          by_cases hid : id = [] <;> simp [hid]
        rw [this]; exact h
      · simp only [hk, if_false]
        have : (fun id => c id + if some k = some id ∧ id ≠ [] then 1 else 0) =
            (fun id => c id + if id = k then 1 else 0) := by
          funext id
          by_cases hid : id = k
          · subst hid; simp [hk]
          · have : ¬ k = id := fun e => hid e.symm
            simp [hid, this]
        rw [this]
        exact counted_item tag found c h k hk

theorem counted_phase {β : Type} (steps : List β) (tag : β → Str) (res : β → List Item) :
    ∀ (found : Dict Entity) (c : Str → Nat), Counted found c →
      Counted (steps.foldl (fun found s => mergeResults (tag s) found (res s)) found)
        (fun id => c id + (steps.map (fun s => sightings id (res s))).sum) := by
  induction steps with
  | nil => intro found c h; simpa using h
  | cons s steps ih =>
    intro found c h
    rw [List.foldl_cons]
    have h2 := ih _ _ (counted_mergeResults (tag s) (res s) found c h)
    have : (fun id => c id + (List.map (fun s => sightings id (res s)) (s :: steps)).sum) =
        (fun id => c id + sightings id (res s) +
          (List.map (fun s => sightings id (res s)) steps).sum) := by
      funext id; simp [Nat.add_assoc]
    rw [this]; exact h2

theorem counted_discover (seeds keywords : List Str) (search similar : Nat → Str → List Item) :
    Counted (discover seeds keywords search similar)
      (fun id => provenanceCount id seeds keywords search similar) := by
  have h0 : Counted ([] : Dict Entity) (fun _ => 0) := by
    refine ⟨by simp [Dict.keys], ?_⟩
    intro id; simp [Dict.get_nil]
  have h1 := counted_seeds seeds _ _ h0
  have h2 := counted_phase keywords.enum (fun kw => lit "kw:" ++ kw.2)
    (fun kw => search kw.1 kw.2) _ _ h1
  have h3 := counted_phase (seeds.take 15).enum (fun app => lit "similar:" ++ lastSegment app.2)
    (fun app => (similar app.1 app.2).take CONFIG.similarAppsPerApp) _ _ h2
  exact h3

/-- C1 (as amended). The map built by the discovery phases of `main` holds every identifier
under one key only, and the entity of an identifier has as many provenance tags as the
identifier has sightings in the keyword results and in the used prefixes of the similar-apps
results, plus one when it is in the seed list (a seed that the list repeats counts once);
an identifier with no sighting has no entity. -/
theorem discover_dedup (seededAppIds keywords : List Str)
    (searchAppsByKeyword fetchSimilarApps : Nat → Str → List Item) (id : Str) :
    (discover seededAppIds keywords searchAppsByKeyword fetchSimilarApps).keys.Nodup ∧
    entriesFor (discover seededAppIds keywords searchAppsByKeyword fetchSimilarApps) id =
      if provenanceCount id seededAppIds keywords searchAppsByKeyword fetchSimilarApps = 0
      then []
      else [(id, provenanceCount id seededAppIds keywords searchAppsByKeyword fetchSimilarApps)] := by
  have h := counted_discover seededAppIds keywords searchAppsByKeyword fetchSimilarApps
  refine ⟨h.1, ?_⟩
  have hget := h.2 id
  unfold entriesFor
  rw [Dict.filter_key_of_nodup _ _ h.1]
  cases hg : Dict.get (discover seededAppIds keywords searchAppsByKeyword fetchSimilarApps) id with
  | none =>
    rw [hg] at hget
    split
    · rfl
    · rename_i hz; simp [hz] at hget
  | some e =>
    rw [hg] at hget
    split
    · rename_i hz; simp [hz] at hget
    · rename_i hz
      simp only [hz, if_false, Option.map_some', Option.some.injEq] at hget
      simp [hget]

/-- C1, the claim as stated fails: with the seed list `["a", "a"]` and no search results the
identifier `a` appears twice, and its only entity carries one provenance tag, not two. -/
theorem discover_dedup_counterexample :
    appearances (lit "a") [lit "a", lit "a"] [] (fun _ _ => []) (fun _ _ => []) = 2 ∧
    entriesFor (discover [lit "a", lit "a"] [] (fun _ _ => []) (fun _ _ => [])) (lit "a") =
      [(lit "a", 1)] ∧
    entriesFor (discover [lit "a", lit "a"] [] (fun _ _ => []) (fun _ _ => [])) (lit "a") ≠
      [(lit "a",
        appearances (lit "a") [lit "a", lit "a"] [] (fun _ _ => []) (fun _ _ => []))] := by
  decide
/-! ## Pagination against a source that serves a list -/

theorem fetchLoop_servesList (src : ReviewSource) (L : List Review) (pos : Option Str → Nat)
    (max : Nat) (h : ServesList src L pos) :
    ∀ (fuel k : Nat) (tok : Option Str) (made : List ReviewsRequest),
      k ≤ max → k ≤ L.length → pos tok = k → max - k ≤ fuel →
      ∃ rest, fetchLoop src max fuel (L.take k) tok made = some (L.take max, made ++ rest) ∧
        TokenChain src made tok rest := by
  intro fuel
  induction fuel with
  | zero =>
    intro k tok made hk hkL _ hfuel
    have hkm : k = max := by omega
    have hlen : (L.take k).length = k := by rw [List.length_take]; omega
    refine ⟨[], ?_, trivial⟩
    unfold fetchLoop
    rw [hlen, if_neg (by omega), hkm]; simp
  | succ fuel ih =>
    intro k tok made hk hkL hpos hfuel
    have hlen : (L.take k).length = k := by rw [List.length_take]; omega
    unfold fetchLoop
    rw [hlen]
    by_cases hlt : k < max
    · rw [if_pos hlt]
      obtain ⟨res, hsrc, hdata, hmore, hdone⟩ :=
        h.2 made { num := min 200 (max - k), nextPaginationToken := tok }
      simp only [hsrc]
      simp only [hpos] at hdata hmore hdone
      have hall : L.take k ++ res.data.getD [] = L.take (k + min 200 (max - k)) := by
        rw [hdata, List.take_add]
      rw [hall]
      by_cases hrem : k + min 200 (max - k) < L.length
      · obtain ⟨htok, hpos2⟩ := hmore hrem
        have hdl : (res.data.getD []).length = min 200 (max - k) := by
          rw [hdata, List.length_take, List.length_drop]; omega
        have hcont : (!tokenTruthy res.nextPaginationToken ||
            (res.data.getD []).length == 0) = false := by
          rw [htok, hdl]
          simp only [Bool.not_true, Bool.false_or, beq_eq_false_iff_ne, ne_eq]
          omega
        rw [hcont]
        simp only [Bool.false_eq_true, if_false]
        obtain ⟨rest, hrun, hchain⟩ := ih (k + min 200 (max - k)) res.nextPaginationToken
          (made ++ [{ num := min 200 (max - k), nextPaginationToken := tok }])
          (by omega) (by omega) hpos2 (by omega)
        refine ⟨{ num := min 200 (max - k), nextPaginationToken := tok } :: rest, ?_, ?_⟩
        · rw [hrun]; simp
        · exact ⟨rfl, by simp, Or.inr ⟨res, hsrc, hchain⟩⟩
      · have htok := hdone (by omega)
        rw [htok]
        simp only [Bool.not_false, Bool.true_or, if_true]
        refine ⟨[{ num := min 200 (max - k), nextPaginationToken := tok }], ?_, ?_⟩
        · rw [List.take_of_length_le (by omega : L.length ≤ k + min 200 (max - k)),
            List.take_of_length_le (by omega : L.length ≤ max)]
        · exact ⟨rfl, by simp, Or.inl rfl⟩
    · rw [if_neg hlt]
      have hkm : k = max := by omega
      exact ⟨[], by rw [hkm]; simp, trivial⟩

theorem listSource_servesList (L : List Review) : ServesList (listSource L) L tokenPos := by
  refine ⟨rfl, ?_⟩
  intro made req
  refine ⟨_, rfl, rfl, ?_, ?_⟩
  · intro h
    simp only [if_pos h]
    simp [tokenTruthy, tokenPos, List.replicate_succ]
  · intro h
    simp only [if_neg (by omega : ¬ tokenPos req.nextPaginationToken + req.num < L.length)]
    rfl

/-- C4. Against a source that serves a fixed list of `N` reviews (every request answered with
the next `min(num, remaining)` items and with a usable continuation token exactly while items
remain), `fetchReviews` returns the first `min(max, N)` reviews of the list in order; its
requests follow the token order (`null` first, then the token of the page before) and none
asks for more than 200 items. -/
theorem fetchReviews_servesList (src : ReviewSource) (L : List Review)
    (pos : Option Str → Nat) (max : Nat) (h : ServesList src L pos) :
    fetchReviews src max = some (L.take (min max L.length)) ∧
    ∃ reqs, fetchReviewsRun src max = some (L.take (min max L.length), reqs) ∧
      TokenChain src [] none reqs := by
  obtain ⟨rest, hrun, hchain⟩ :=
    fetchLoop_servesList src L pos max h max 0 none [] (by omega) (by omega) h.1 (by omega)
  have htake : L.take (min max L.length) = L.take max := by
    rw [← List.take_take, List.take_length]
  rw [List.take_zero, List.nil_append] at hrun
  refine ⟨?_, rest, ?_, hchain⟩
  · unfold fetchReviews fetchReviewsRun
    rw [hrun, htake]; rfl
  · unfold fetchReviewsRun
    rw [hrun, htake]

theorem fetchReviews_servesList_witness :
    fetchReviews
      (listSource [⟨some (lit "a"), none, none, none⟩, ⟨some (lit "b"), none, none, none⟩,
        ⟨some (lit "c"), none, none, none⟩]) 2 =
      some [⟨some (lit "a"), none, none, none⟩, ⟨some (lit "b"), none, none, none⟩] :=
  (fetchReviews_servesList _ _ tokenPos 2 (listSource_servesList _)).1

/-! ## Pagination cut short by a failing request -/

theorem pageItems_concat (done : List ReviewsResponse) (p : ReviewsResponse) :
    pageItems (done ++ [p]) = pageItems done ++ p.data.getD [] := by
  simp [pageItems, List.flatMap_append]

theorem requestsFor_concat (max : Nat) (done : List ReviewsResponse) (p : ReviewsResponse) :
    requestsFor max (done ++ [p]) = requestsFor max done ++ [requestAfter max done] := by
  unfold requestsFor
  rw [List.length_append, List.length_singleton, List.range_succ, List.map_append]
  congr 1
  · apply List.map_congr_left
    intro i hi
    rw [List.mem_range] at hi
    rw [List.take_append_of_le_length (by omega)]
  · simp

theorem fetchLoop_failing (src : ReviewSource) (max : Nat) (pages : List ReviewsResponse)
    (hserved : ∀ i, i < pages.length →
      src (requestsFor max (pages.take i)) (requestAfter max (pages.take i)) = pages[i]?)
    (hmore : ∀ p ∈ pages,
      tokenTruthy p.nextPaginationToken = true ∧ (p.data.getD []).length ≠ 0)
    (hroom : (pageItems pages).length < max)
    (hfail : src (requestsFor max pages) (requestAfter max pages) = none) :
    ∀ (todo done : List ReviewsResponse) (fuel : Nat), pages = done ++ todo →
      max - (pageItems done).length ≤ fuel →
      fetchLoop src max fuel (pageItems done) (done.getLast?.bind (fun p => p.nextPaginationToken))
        (requestsFor max done) =
        some (pageItems pages, requestsFor max pages ++ [requestAfter max pages]) := by
  intro todo
  induction todo with
  | nil =>
    intro done fuel hsplit hfuel
    rw [List.append_nil] at hsplit
    subst hsplit
    cases fuel with
    | zero => omega
    | succ fuel =>
      unfold fetchLoop
      rw [if_pos hroom]
      have hfail2 := hfail
      simp only [requestAfter] at hfail2
      simp only [hfail2]
      rfl
  | cons p todo ih =>
    intro done fuel hsplit hfuel
    have hlen : (pageItems pages).length =
        (pageItems done).length + (p.data.getD []).length + (pageItems todo).length := by
      rw [hsplit]; simp [pageItems, List.flatMap_append, List.flatMap_cons]; omega
    have hp := hmore p (by rw [hsplit]; simp)
    cases fuel with
    | zero => omega
    | succ fuel =>
      unfold fetchLoop
      rw [if_pos (by omega)]
      have hsrc : src (requestsFor max done) (requestAfter max done) = some p := by
        have h1 := hserved done.length (by rw [hsplit]; simp)
        have h2 : pages.take done.length = done := by rw [hsplit]; exact List.take_left _ _
        have h3 : pages[done.length]? = some p := by
          rw [hsplit, List.getElem?_append_right (Nat.le_refl _)]; simp
        rw [h2, h3] at h1
        exact h1
      simp only [requestAfter] at hsrc
      simp only [hsrc]
      have hcont : (!tokenTruthy p.nextPaginationToken || (p.data.getD []).length == 0) =
          false := by
        rw [hp.1]; simpa using hp.2
      rw [hcont]
      simp only [Bool.false_eq_true, if_false]
      have h4 := ih (done ++ [p]) fuel (by rw [hsplit]; simp)
        (by rw [pageItems_concat, List.length_append]; omega)
      rw [pageItems_concat, requestsFor_concat, List.getLast?_concat] at h4
      exact h4

/-- C10. When the first `k - 1` page requests of `fetchReviews` are answered with pages that do
not end the loop and the `k`-th request throws, `fetchReviews` still returns: its result is
the items of those `k - 1` pages in order, and the failed request is the last one it sends. -/
theorem fetchReviews_keeps_pages (src : ReviewSource) (max : Nat) (pages : List ReviewsResponse)
    (hserved : ∀ i, i < pages.length →
      src (requestsFor max (pages.take i)) (requestAfter max (pages.take i)) = pages[i]?)
    (hmore : ∀ p ∈ pages,
      tokenTruthy p.nextPaginationToken = true ∧ (p.data.getD []).length ≠ 0)
    (hroom : (pageItems pages).length < max)
    (hfail : src (requestsFor max pages) (requestAfter max pages) = none) :
    fetchReviews src max = some (pageItems pages) ∧
    fetchReviewsRun src max =
      some (pageItems pages, requestsFor max pages ++ [requestAfter max pages]) := by
  have h := fetchLoop_failing src max pages hserved hmore hroom hfail pages [] max
    (by simp) (by simp [pageItems])
  have hrun : fetchReviewsRun src max =
      some (pageItems pages, requestsFor max pages ++ [requestAfter max pages]) := h
  exact ⟨by simp [fetchReviews, hrun], hrun⟩
/-! ## Normalization is idempotent -/

theorem isWhiteSpace_lower (c : Nat) :
    isWhiteSpace (if 65 ≤ c ∧ c ≤ 90 then c + 32 else c) = isWhiteSpace c := by
  by_cases h : 65 ≤ c ∧ c ≤ 90
  · rw [if_pos h]
    have h1 : isWhiteSpace c = false := by
      unfold isWhiteSpace
      simp only [Bool.or_eq_false_iff, Bool.and_eq_false_iff, decide_eq_false_iff_not,
        beq_eq_false_iff_ne]
      omega
    have h2 : isWhiteSpace (c + 32) = false := by
      unfold isWhiteSpace
      simp only [Bool.or_eq_false_iff, Bool.and_eq_false_iff, decide_eq_false_iff_not,
        beq_eq_false_iff_ne]
      omega
    rw [h1, h2]
  · rw [if_neg h]

theorem toLowerCase_idem (s : Str) : toLowerCase (toLowerCase s) = toLowerCase s := by
  unfold toLowerCase
  rw [List.map_map]
  apply List.map_congr_left
  intro c _
  simp only [Function.comp]
  by_cases h : 65 ≤ c ∧ c ≤ 90
  · rw [if_pos h, if_neg (by omega)]
  · rw [if_neg h, if_neg h]

theorem toLowerCase_cons (c : Nat) (s : Str) :
    toLowerCase (c :: s) = (if 65 ≤ c ∧ c ≤ 90 then c + 32 else c) :: toLowerCase s := rfl

theorem toLowerCase_replaceWhiteSpace (s : Str) :
    ∀ b : Bool, toLowerCase (replaceWhiteSpace b s) = replaceWhiteSpace b (toLowerCase s) := by
  induction s with
  | nil => intro b; rfl
  | cons c cs ih =>
    intro b
    rw [toLowerCase_cons]
    unfold replaceWhiteSpace
    rw [isWhiteSpace_lower]
    by_cases hc : isWhiteSpace c = true
    · rw [if_pos hc, if_pos hc]
      cases b with
      | true => simpa using ih true
      | false =>
        simp only [Bool.false_eq_true, if_false]
        rw [toLowerCase_cons, ih true]; rfl
    · rw [if_neg hc, if_neg hc, toLowerCase_cons, ih false]

theorem toLowerCase_dropWhile (s : Str) :
    toLowerCase (s.dropWhile isWhiteSpace) = (toLowerCase s).dropWhile isWhiteSpace := by
  induction s with
  | nil => rfl
  | cons c cs ih =>
    rw [toLowerCase_cons, List.dropWhile_cons, List.dropWhile_cons, isWhiteSpace_lower]
    by_cases hc : isWhiteSpace c = true
    · rw [if_pos hc, if_pos hc, ih]
    · rw [if_neg hc, if_neg hc, toLowerCase_cons]

theorem toLowerCase_reverse (s : Str) : toLowerCase s.reverse = (toLowerCase s).reverse := by
  unfold toLowerCase; rw [List.map_reverse]

theorem toLowerCase_trim (s : Str) : toLowerCase (trim s) = trim (toLowerCase s) := by
  unfold trim List.rdropWhile
  rw [toLowerCase_reverse, toLowerCase_dropWhile, toLowerCase_reverse, toLowerCase_dropWhile]

theorem collapsed_replaceWhiteSpace (u : Str) :
    ∀ b : Bool, Collapsed (replaceWhiteSpace b u) ∧
      (b = true → ∀ c ∈ (replaceWhiteSpace b u).head?, isWhiteSpace c = false) := by
  induction u with
  | nil =>
    intro b
    exact ⟨⟨by simp [replaceWhiteSpace], by simp [replaceWhiteSpace]⟩, by simp [replaceWhiteSpace]⟩
  | cons c cs ih =>
    intro b
    unfold replaceWhiteSpace
    by_cases hc : isWhiteSpace c = true
    · rw [if_pos hc]
      cases b with
      | true => simpa using ih true
      | false =>
        simp only [Bool.false_eq_true, if_false]
        obtain ⟨⟨hm, hch⟩, hh⟩ := ih true
        refine ⟨⟨?_, ?_⟩, by simp⟩
        · intro x hx hw
          rcases List.mem_cons.mp hx with h | h
          · exact h
          · exact hm x h hw
        · rw [List.chain'_cons']
          refine ⟨?_, hch⟩
          intro y hy hand
          have := hh rfl y hy
          rw [this] at hand
          exact absurd hand.2 (by simp)
    · rw [if_neg hc]
      obtain ⟨⟨hm, hch⟩, _⟩ := ih false
      refine ⟨⟨?_, ?_⟩, ?_⟩
      · intro x hx hw
        rcases List.mem_cons.mp hx with h | h
        · rw [h] at hw; exact absurd hw hc
        · exact hm x h hw
      · rw [List.chain'_cons']
        exact ⟨fun y _ hand => hc hand.1, hch⟩
      · intro _ x hx
        simp only [List.head?_cons, Option.mem_def, Option.some.injEq] at hx
        rw [← hx]; simpa using hc

theorem Collapsed.of_contiguous {v w : Str} (h : Collapsed v) (hw : w <:+: v) : Collapsed w :=
  ⟨fun c hc => h.1 c (hw.subset hc), List.Chain'.infix h.2 hw⟩

theorem trim_contiguous (v : Str) : trim v <:+: v :=
  (List.rdropWhile_prefix isWhiteSpace _).isInfix.trans (List.dropWhile_suffix isWhiteSpace).isInfix

theorem replaceWhiteSpace_of_collapsed (w : Str) :
    Collapsed w → replaceWhiteSpace false w = w ∧
      ((∀ c ∈ w.head?, isWhiteSpace c = false) → replaceWhiteSpace true w = w) := by
  induction w with
  | nil => intro _; exact ⟨rfl, fun _ => rfl⟩
  | cons c cs ih =>
    intro h
    have htail : Collapsed cs := Collapsed.of_contiguous h ⟨[c], [], by simp⟩
    obtain ⟨ih1, ih2⟩ := ih htail
    have hch := (List.chain'_cons'.mp h.2).1
    by_cases hc : isWhiteSpace c = true
    · have hc32 : c = 32 := h.1 c (List.mem_cons_self _ _) hc
      have hnext : ∀ y ∈ cs.head?, isWhiteSpace y = false := by
        intro y hy
        have := hch y hy
        simpa [hc] using this
      constructor
      · unfold replaceWhiteSpace
        rw [if_pos hc]
        simp only [Bool.false_eq_true, if_false]
        rw [ih2 hnext, hc32]
      · intro hhead
        have := hhead c (by simp)
        rw [hc] at this; cases this
    · constructor
      · unfold replaceWhiteSpace
        rw [if_neg hc, ih1]
      · intro _
        unfold replaceWhiteSpace
        rw [if_neg hc, ih1]

theorem trim_idem (v : Str) : trim (trim v) = trim v := by
  unfold trim
  have h1 : List.dropWhile isWhiteSpace
      (List.rdropWhile isWhiteSpace (List.dropWhile isWhiteSpace v)) =
      List.rdropWhile isWhiteSpace (List.dropWhile isWhiteSpace v) := by
    rw [List.dropWhile_eq_self_iff]
    intro hl hp
    obtain ⟨t, ht⟩ := List.rdropWhile_prefix isWhiteSpace (List.dropWhile isWhiteSpace v)
    generalize hx : List.rdropWhile isWhiteSpace (List.dropWhile isWhiteSpace v) = x at *
    cases x with
    | nil => simp at hl
    | cons a x =>
      simp only [List.get_eq_getElem, List.getElem_cons_zero] at hp
      have hd : List.dropWhile isWhiteSpace (List.dropWhile isWhiteSpace v) =
          List.dropWhile isWhiteSpace v := List.dropWhile_idempotent _ _
      rw [← ht, List.cons_append, List.dropWhile_cons, if_pos hp] at hd
      have hlen := congrArg List.length hd
      have hsuf : (List.dropWhile isWhiteSpace (x ++ t)).length ≤ (x ++ t).length :=
        (List.dropWhile_suffix isWhiteSpace).length_le
      simp only [List.length_cons] at hlen
      omega
  rw [h1, List.rdropWhile_idempotent]

theorem normalize_idem (s : Str) : normalize (normalize s) = normalize s := by
  unfold normalize
  rw [toLowerCase_trim, toLowerCase_replaceWhiteSpace, toLowerCase_idem]
  have hc : Collapsed (trim (replaceWhiteSpace false (toLowerCase s))) :=
    Collapsed.of_contiguous (collapsed_replaceWhiteSpace (toLowerCase s) false).1
      (trim_contiguous _)
  rw [(replaceWhiteSpace_of_collapsed _ hc).1, trim_idem]
/-! ## Theme counts -/

theorem Dict.ext_of_keys {α : Type} :
    ∀ (d1 d2 : Dict α), d1.keys = d2.keys → d1.keys.Nodup →
      (∀ k, d1.get k = d2.get k) → d1 = d2 := by
  intro d1
  induction d1 with
  | nil =>
    intro d2 hk _ _
    cases d2 with
    | nil => rfl
    | cons q d2 => simp [Dict.keys] at hk
  | cons p d1 ih =>
    intro d2 hk hnd hget
    cases d2 with
    | nil => simp [Dict.keys] at hk
    | cons q d2 =>
      obtain ⟨a, b⟩ := p
      obtain ⟨a2, b2⟩ := q
      rw [Dict.keys_cons, Dict.keys_cons, List.cons.injEq] at hk
      obtain ⟨ha, hk⟩ := hk
      subst ha
      rw [Dict.keys_cons, List.nodup_cons] at hnd
      have hb : b = b2 := by
        have := hget a
        rw [Dict.get_cons, Dict.get_cons, if_pos rfl, if_pos rfl] at this
        exact Option.some.inj this
      subst hb
      congr 1
      apply ih d2 hk hnd.2
      intro k
      have := hget k
      rw [Dict.get_cons, Dict.get_cons] at this
      by_cases hka : k = a
      · subst hka
        rw [(Dict.get_eq_none_iff d1 k).mpr hnd.1, (Dict.get_eq_none_iff d2 k).mpr (hk ▸ hnd.1)]
      · rw [if_neg hka, if_neg hka] at this
        exact this

theorem Dict.keys_map_snd {α β : Type} (d : Dict α) (g : α → β) :
    Dict.keys (d.map (fun p => (p.1, g p.2))) = d.keys := by
  unfold Dict.keys
  rw [List.map_map]
  rfl

theorem Dict.get_map_snd {α β : Type} (d : Dict α) (g : α → β) (k : Str) :
    Dict.get (d.map (fun p => (p.1, g p.2))) k = (d.get k).map g := by
  induction d with
  | nil => rfl
  | cons p d ih =>
    obtain ⟨a, b⟩ := p
    rw [List.map_cons, Dict.get_cons, Dict.get_cons, ih]
    by_cases h : k = a
    · simp [h]
    · simp [h]

theorem addHits_nil (o : Dict Nat) : addHits o [] = o := rfl

theorem addHits_cons (o : Dict Nat) (kv : Str × Nat) (hits : Dict Nat) :
    addHits o (kv :: hits) = addHits (o.set kv.1 ((o.get kv.1).getD 0 + kv.2)) hits := rfl

theorem addHits_keys (hits : Dict Nat) :
    ∀ o : Dict Nat, (∀ k ∈ hits.keys, k ∈ o.keys) → (addHits o hits).keys = o.keys := by
  induction hits with
  | nil => intro o _; rfl
  | cons kv hits ih =>
    intro o h
    obtain ⟨a, b⟩ := kv
    have ha : a ∈ o.keys := h a (by simp [Dict.keys])
    have hk : (o.set a ((o.get a).getD 0 + b)).keys = o.keys := by
      rw [Dict.keys_set, if_pos ha]
    rw [addHits_cons, ih, hk]
    intro k hkm
    rw [hk]
    exact h k (by rw [Dict.keys_cons]; exact List.mem_cons_of_mem _ hkm)

theorem addHits_get (hits : Dict Nat) :
    ∀ (o : Dict Nat) (k : Str), hits.keys.Nodup →
      (addHits o hits).get k =
        match hits.get k with
        | some v => some ((o.get k).getD 0 + v)
        | none => o.get k := by
  induction hits with
  | nil => intro o k _; rfl
  | cons kv hits ih =>
    intro o k hnd
    obtain ⟨a, b⟩ := kv
    rw [Dict.keys_cons, List.nodup_cons] at hnd
    rw [addHits_cons, ih _ _ hnd.2, Dict.get_cons, Dict.get_set]
    by_cases hk : k = a
    · subst hk
      rw [(Dict.get_eq_none_iff hits k).mpr hnd.1]
      simp
    · simp only [hk, if_false]

theorem addHits_themes (dict : Dict (List Str)) (hnd : dict.keys.Nodup) (f h : List Str → Nat) :
    addHits (dict.map (fun p => (p.1, f p.2))) (dict.map (fun p => (p.1, h p.2))) =
      dict.map (fun p => (p.1, f p.2 + h p.2)) := by
  apply Dict.ext_of_keys
  · rw [addHits_keys, Dict.keys_map_snd, Dict.keys_map_snd dict (fun w => f w + h w)]
    intro k hk
    rw [Dict.keys_map_snd] at hk ⊢
    exact hk
  · rw [addHits_keys, Dict.keys_map_snd]
    · exact hnd
    · intro k hk
      rw [Dict.keys_map_snd] at hk ⊢
      exact hk
  · intro k
    rw [addHits_get _ _ _ (by rw [Dict.keys_map_snd]; exact hnd), Dict.get_map_snd,
      Dict.get_map_snd, Dict.get_map_snd dict (fun w => f w + h w)]
    cases Dict.get dict k <;> simp

theorem foldl_praiseStep (text : Str) (score : Nat) (l : Dict Nat) :
    ∀ st : ThemeState,
      (l.foldl (praiseStep text score) st).praiseCounts = addHits st.praiseCounts l ∧
      (l.foldl (praiseStep text score) st).complaintCounts = st.complaintCounts ∧
      (l.foldl (praiseStep text score) st).fixedMentions = st.fixedMentions ∧
      (l.foldl (praiseStep text score) st).examples =
        (l.filter (fun kv => kv.2 ≠ 0)).foldl
          (fun ex kv => pushExample ex (lit "praise:" ++ kv.1) text score) st.examples := by
  induction l with
  | nil => intro st; exact ⟨rfl, rfl, rfl, rfl⟩
  | cons kv l ih =>
    intro st
    obtain ⟨h1, h2, h3, h4⟩ := ih (praiseStep text score st kv)
    rw [List.foldl_cons, h1, h2, h3, h4]
    refine ⟨rfl, rfl, rfl, ?_⟩
    by_cases hv : kv.2 = 0
    · simp [List.filter_cons, hv, praiseStep]
    · simp [List.filter_cons, hv, praiseStep]

theorem foldl_complaintStep (text : Str) (score : Nat) (l : Dict Nat) :
    ∀ st : ThemeState,
      (l.foldl (complaintStep text score) st).praiseCounts = st.praiseCounts ∧
      (l.foldl (complaintStep text score) st).complaintCounts = addHits st.complaintCounts l ∧
      (l.foldl (complaintStep text score) st).fixedMentions = st.fixedMentions ∧
      (l.foldl (complaintStep text score) st).examples =
        (l.filter (fun kv => kv.2 ≠ 0)).foldl
          (fun ex kv => pushExample ex (lit "complaint:" ++ kv.1) text score) st.examples := by
  induction l with
  | nil => intro st; exact ⟨rfl, rfl, rfl, rfl⟩
  | cons kv l ih =>
    intro st
    obtain ⟨h1, h2, h3, h4⟩ := ih (complaintStep text score st kv)
    rw [List.foldl_cons, h1, h2, h3, h4]
    refine ⟨rfl, rfl, rfl, ?_⟩
    by_cases hv : kv.2 = 0
    · simp [List.filter_cons, hv, complaintStep]
    · simp [List.filter_cons, hv, complaintStep]

theorem hitThemes_normalize (r : Review) (dict : Dict (List Str)) :
    hitThemes (normalize r.body) dict =
      dict.map (fun p => (p.1, if hitsWords p.2 r then 1 else 0)) := by
  unfold hitThemes hitsWords
  simp only [normalize_idem]

theorem step_praiseCounts (st : ThemeState) (r : Review) :
    (st.step r).praiseCounts = addHits st.praiseCounts (hitThemes (normalize r.body) PRAISE) := by
  unfold ThemeState.step
  simp only
  split
  · simp only [(foldl_complaintStep _ _ _ _).1, (foldl_praiseStep _ _ _ _).1]
  · simp only [(foldl_complaintStep _ _ _ _).1, (foldl_praiseStep _ _ _ _).1]

theorem step_complaintCounts (st : ThemeState) (r : Review) :
    (st.step r).complaintCounts =
      addHits st.complaintCounts (hitThemes (normalize r.body) COMPLAINT) := by
  unfold ThemeState.step
  simp only
  split
  · simp only [(foldl_complaintStep _ _ _ _).2.1, (foldl_praiseStep _ _ _ _).2.1]
  · simp only [(foldl_complaintStep _ _ _ _).2.1, (foldl_praiseStep _ _ _ _).2.1]

theorem step_fixedMentions (st : ThemeState) (r : Review) :
    (st.step r).fixedMentions = st.fixedMentions + if hitsWords FIXED_WORDS r then 1 else 0 := by
  unfold ThemeState.step hitsWords
  simp only
  split
  · simp only [(foldl_complaintStep _ _ _ _).2.2.1, (foldl_praiseStep _ _ _ _).2.2.1]
  · simp only [(foldl_complaintStep _ _ _ _).2.2.1, (foldl_praiseStep _ _ _ _).2.2.1]
    simp

theorem PRAISE_keys_nodup : PRAISE.keys.Nodup := by decide

theorem COMPLAINT_keys_nodup : COMPLAINT.keys.Nodup := by decide

theorem foldl_step_counts (reviews : List Review) :
    ∀ (st : ThemeState) (f g : List Str → Nat) (n : Nat),
      st.praiseCounts = PRAISE.map (fun p => (p.1, f p.2)) →
      st.complaintCounts = COMPLAINT.map (fun p => (p.1, g p.2)) →
      st.fixedMentions = n →
      (reviews.foldl ThemeState.step st).praiseCounts =
        PRAISE.map (fun p => (p.1, f p.2 + reviews.countP (hitsWords p.2))) ∧
      (reviews.foldl ThemeState.step st).complaintCounts =
        COMPLAINT.map (fun p => (p.1, g p.2 + reviews.countP (hitsWords p.2))) ∧
      (reviews.foldl ThemeState.step st).fixedMentions =
        n + reviews.countP (hitsWords FIXED_WORDS) := by
  induction reviews with
  | nil => intro st f g n h1 h2 h3; simpa using ⟨h1, h2, h3⟩
  | cons r reviews ih =>
    intro st f g n h1 h2 h3
    rw [List.foldl_cons]
    have e1 : (st.step r).praiseCounts =
        PRAISE.map (fun p => (p.1, (fun w => f w + if hitsWords w r then 1 else 0) p.2)) := by
      rw [step_praiseCounts, hitThemes_normalize, h1]
      exact addHits_themes PRAISE PRAISE_keys_nodup f (fun w => if hitsWords w r then 1 else 0)
    have e2 : (st.step r).complaintCounts =
        COMPLAINT.map (fun p => (p.1, (fun w => g w + if hitsWords w r then 1 else 0) p.2)) := by
      rw [step_complaintCounts, hitThemes_normalize, h2]
      exact addHits_themes COMPLAINT COMPLAINT_keys_nodup g
        (fun w => if hitsWords w r then 1 else 0)
    have e3 : (st.step r).fixedMentions = n + if hitsWords FIXED_WORDS r then 1 else 0 := by
      rw [step_fixedMentions, h3]
    obtain ⟨r1, r2, r3⟩ := ih (st.step r) (fun w => f w + if hitsWords w r then 1 else 0)
      (fun w => g w + if hitsWords w r then 1 else 0) _ e1 e2 e3
    rw [r1, r2, r3]
    refine ⟨?_, ?_, ?_⟩
    · apply List.map_congr_left
      intro p _
      simp only [List.countP_cons]
      congr 1
      omega
    · apply List.map_congr_left
      intro p _
      simp only [List.countP_cons]
      congr 1
      omega
    · simp only [List.countP_cons]
      omega

theorem themeLoop_counts (reviews : List Review) :
    (themeLoop reviews).praiseCounts = themeCounts PRAISE reviews ∧
    (themeLoop reviews).complaintCounts = themeCounts COMPLAINT reviews ∧
    (themeLoop reviews).fixedMentions = reviews.countP (hitsWords FIXED_WORDS) := by
  have h := foldl_step_counts reviews ThemeState.init (fun _ => 0) (fun _ => 0) 0
    (by decide) (by decide) rfl
  simpa [themeLoop, themeCounts] using h
/-! ## Ranking -/

theorem top_perm (obj : Dict Nat) (n : Nat) (h : obj.length ≤ n) : (top obj n).Perm obj := by
  unfold top
  rw [List.take_of_length_le (by rw [List.length_insertionSort]; exact h)]
  exact List.perm_insertionSort _ _

theorem top_sorted (obj : Dict Nat) (n : Nat) :
    (top obj n).Sorted (fun a b => a.2 ≥ b.2) := by
  unfold top
  have h : (List.insertionSort (fun a b : Str × Nat => a.2 ≥ b.2) obj).Sorted
      (fun a b => a.2 ≥ b.2) := by
    haveI : IsTotal (Str × Nat) (fun a b => a.2 ≥ b.2) := ⟨fun a b => Nat.le_total b.2 a.2⟩
    haveI : IsTrans (Str × Nat) (fun a b => a.2 ≥ b.2) :=
      ⟨fun a b c hab hbc => Nat.le_trans hbc hab⟩
    exact List.sorted_insertionSort _ _
  exact List.Pairwise.sublist (List.take_sublist _ _) h

theorem ranked_orderedInsert (idx : Str → Nat) (a : Str × Nat) :
    ∀ S : List (Str × Nat),
      S.Pairwise (fun x y => x.2 > y.2 ∨ (x.2 = y.2 ∧ idx x.1 < idx y.1)) →
      (∀ x ∈ S, idx a.1 < idx x.1) →
      (List.orderedInsert (fun x y : Str × Nat => x.2 ≥ y.2) a S).Pairwise
        (fun x y => x.2 > y.2 ∨ (x.2 = y.2 ∧ idx x.1 < idx y.1)) := by
  intro S
  induction S with
  | nil => intro _ _; simp
  | cons b S ih =>
    intro hS hidx
    rw [List.pairwise_cons] at hS
    rw [List.orderedInsert]
    by_cases hab : a.2 ≥ b.2
    · rw [if_pos hab, List.pairwise_cons]
      refine ⟨?_, List.pairwise_cons.mpr hS⟩
      intro x hx
      have hix := hidx x hx
      rcases List.mem_cons.mp hx with h | h
      · subst h
        rcases Nat.lt_or_ge x.2 a.2 with h1 | h1
        · exact Or.inl h1
        · exact Or.inr ⟨Nat.le_antisymm h1 hab, hix⟩
      · have hbx := hS.1 x h
        have hle : x.2 ≤ b.2 := by
          rcases hbx with h1 | h1
          · exact Nat.le_of_lt h1
          · exact Nat.le_of_eq h1.1.symm
        rcases Nat.lt_or_ge x.2 a.2 with h1 | h1
        · exact Or.inl h1
        · exact Or.inr ⟨by omega, hix⟩
    · rw [if_neg hab, List.pairwise_cons]
      refine ⟨?_, ih hS.2 (fun x hx => hidx x (List.mem_cons_of_mem _ hx))⟩
      intro x hx
      rcases (List.mem_orderedInsert _).mp hx with h | h
      · subst h; exact Or.inl (by omega)
      · exact hS.1 x h

theorem ranked_insertionSort (idx : Str → Nat) :
    ∀ l : List (Str × Nat), l.Pairwise (fun x y => idx x.1 < idx y.1) →
      (List.insertionSort (fun x y : Str × Nat => x.2 ≥ y.2) l).Pairwise
        (fun x y => x.2 > y.2 ∨ (x.2 = y.2 ∧ idx x.1 < idx y.1)) := by
  intro l
  induction l with
  | nil => intro _; simp
  | cons a l ih =>
    intro h
    rw [List.pairwise_cons] at h
    rw [List.insertionSort]
    apply ranked_orderedInsert idx a _ (ih h.2)
    intro x hx
    exact h.1 x ((List.mem_insertionSort _).mp hx)

theorem top_ranked (dict : Dict (List Str)) (hnd : dict.keys.Nodup) (f : List Str → Nat)
    (n : Nat) :
    (top (dict.map (fun p => (p.1, f p.2))) n).Pairwise (RankedBefore dict) := by
  unfold top RankedBefore
  apply List.Pairwise.sublist (List.take_sublist _ _)
  apply ranked_insertionSort (labelIndex dict)
  rw [List.pairwise_map]
  have hk : dict.keys.Pairwise (fun a b => labelIndex dict a < labelIndex dict b) := by
    unfold labelIndex
    generalize dict.keys = ks at hnd
    induction ks with
    | nil => simp
    | cons a ks ih =>
      rw [List.nodup_cons] at hnd
      rw [List.pairwise_cons]
      constructor
      · intro b hb
        have hab : ¬ a = b := fun e => hnd.1 (e ▸ hb)
        simp [List.findIdx_cons, hab]
      · apply List.Pairwise.imp_of_mem _ (ih hnd.2)
        intro x y hx hy hxy
        have hax : ¬ a = x := fun e => hnd.1 (e ▸ hx)
        have hay : ¬ a = y := fun e => hnd.1 (e ▸ hy)
        simp only [List.findIdx_cons, hax, hay, decide_False, cond_false]
        omega
  unfold Dict.keys at hk
  rw [List.pairwise_map] at hk
  exact hk

/-- C6. `countThemes` reports `reviewCountUsed` = the number of reviews passed in; the count
of every praise and complaint label is the number of reviews whose normalized text contains
at least one word of the label (a review counts once per label); `fixedMentions` is the
number of reviews whose normalized text contains a word of `FIXED_WORDS`; so every count is
at most `reviewCountUsed`. -/
theorem countThemes_counts (reviews : List Review) :
    (countThemes reviews).reviewCountUsed = reviews.length ∧
    (countThemes reviews).topPraises.Perm (themeCounts PRAISE reviews) ∧
    (countThemes reviews).topComplaints.Perm (themeCounts COMPLAINT reviews) ∧
    (countThemes reviews).fixedMentions = reviews.countP (hitsWords FIXED_WORDS) ∧
    (countThemes reviews).fixedMentions ≤ (countThemes reviews).reviewCountUsed ∧
    ∀ e ∈ (countThemes reviews).topPraises ++ (countThemes reviews).topComplaints,
      e.2 ≤ (countThemes reviews).reviewCountUsed := by
  obtain ⟨h1, h2, h3⟩ := themeLoop_counts reviews
  have hp : (countThemes reviews).topPraises.Perm (themeCounts PRAISE reviews) := by
    show (top (themeLoop reviews).praiseCounts 10).Perm _
    rw [h1]
    exact top_perm _ _ (by simp [themeCounts]; decide)
  have hc : (countThemes reviews).topComplaints.Perm (themeCounts COMPLAINT reviews) := by
    show (top (themeLoop reviews).complaintCounts 10).Perm _
    rw [h2]
    exact top_perm _ _ (by simp [themeCounts]; decide)
  refine ⟨rfl, hp, hc, h3, ?_, ?_⟩
  · show (themeLoop reviews).fixedMentions ≤ reviews.length
    rw [h3]; exact List.countP_le_length _
  · intro e he
    show e.2 ≤ reviews.length
    rcases List.mem_append.mp he with h | h
    · have := hp.subset h
      simp only [themeCounts, List.mem_map] at this
      obtain ⟨p, _, rfl⟩ := this
      exact List.countP_le_length _
    · have := hc.subset h
      simp only [themeCounts, List.mem_map] at this
      obtain ⟨p, _, rfl⟩ := this
      exact List.countP_le_length _

/-- C7. `topPraises` and `topComplaints` are in non-increasing order of count, and labels with
equal counts keep the order in which `PRAISE` and `COMPLAINT` declare them. -/
theorem countThemes_ranking (reviews : List Review) :
    (countThemes reviews).topPraises.Sorted (fun a b => a.2 ≥ b.2) ∧
    (countThemes reviews).topPraises.Pairwise (RankedBefore PRAISE) ∧
    (countThemes reviews).topComplaints.Sorted (fun a b => a.2 ≥ b.2) ∧
    (countThemes reviews).topComplaints.Pairwise (RankedBefore COMPLAINT) := by
  obtain ⟨h1, h2, _⟩ := themeLoop_counts reviews
  refine ⟨top_sorted _ _, ?_, top_sorted _ _, ?_⟩
  · show (top (themeLoop reviews).praiseCounts 10).Pairwise _
    rw [h1]
    exact top_ranked PRAISE PRAISE_keys_nodup (fun w => reviews.countP (hitsWords w)) 10
  · show (top (themeLoop reviews).complaintCounts 10).Pairwise _
    rw [h2]
    exact top_ranked COMPLAINT COMPLAINT_keys_nodup (fun w => reviews.countP (hitsWords w)) 10

/-- C9. Every label of `PRAISE` occurs exactly once in `topPraises` and every label of
`COMPLAINT` exactly once in `topComplaints`, for every review list: the cut to ten entries
drops none, a label that no review hit is listed with count 0, and for the empty review list
every label is listed with count 0. -/
theorem countThemes_all_labels (reviews : List Review) :
    ((countThemes reviews).topPraises.map Prod.fst).Perm PRAISE.keys ∧
    ((countThemes reviews).topComplaints.map Prod.fst).Perm COMPLAINT.keys ∧
    PRAISE.keys.Nodup ∧ COMPLAINT.keys.Nodup ∧
    (∀ p ∈ PRAISE, (∀ r ∈ reviews, hitsWords p.2 r = false) →
      (p.1, 0) ∈ (countThemes reviews).topPraises) ∧
    (∀ p ∈ COMPLAINT, (∀ r ∈ reviews, hitsWords p.2 r = false) →
      (p.1, 0) ∈ (countThemes reviews).topComplaints) ∧
    (countThemes []).topPraises = PRAISE.map (fun p => (p.1, 0)) ∧
    (countThemes []).topComplaints = COMPLAINT.map (fun p => (p.1, 0)) := by
  obtain ⟨h1, h2, _⟩ := themeLoop_counts reviews
  have hp : (countThemes reviews).topPraises.Perm (themeCounts PRAISE reviews) := by
    show (top (themeLoop reviews).praiseCounts 10).Perm _
    rw [h1]
    exact top_perm _ _ (by simp [themeCounts]; decide)
  have hc : (countThemes reviews).topComplaints.Perm (themeCounts COMPLAINT reviews) := by
    show (top (themeLoop reviews).complaintCounts 10).Perm _
    rw [h2]
    exact top_perm _ _ (by simp [themeCounts]; decide)
  refine ⟨?_, ?_, PRAISE_keys_nodup, COMPLAINT_keys_nodup, ?_, ?_, by decide, by decide⟩
  · have := hp.map Prod.fst
    rwa [show (themeCounts PRAISE reviews).map Prod.fst = PRAISE.keys from
      Dict.keys_map_snd PRAISE (fun w => reviews.countP (hitsWords w))] at this
  · have := hc.map Prod.fst
    rwa [show (themeCounts COMPLAINT reviews).map Prod.fst = COMPLAINT.keys from
      Dict.keys_map_snd COMPLAINT (fun w => reviews.countP (hitsWords w))] at this
  · intro p hpm hno
    apply hp.symm.subset
    simp only [themeCounts, List.mem_map]
    refine ⟨p, hpm, ?_⟩
    have : reviews.countP (hitsWords p.2) = 0 := by
      rw [List.countP_eq_zero]
      intro r hr
      simp [hno r hr]
    rw [this]
  · intro p hpm hno
    apply hc.symm.subset
    simp only [themeCounts, List.mem_map]
    refine ⟨p, hpm, ?_⟩
    have : reviews.countP (hitsWords p.2) = 0 := by
      rw [List.countP_eq_zero]
      intro r hr
      simp [hno r hr]
    rw [this]
/-! ## Example lists: from the `examples` object to the list of one key -/

theorem Dict.mem_of_get {α : Type} (d : Dict α) (k : Str) (v : α) (h : d.get k = some v) :
    (k, v) ∈ d := by
  induction d with
  | nil => simp [Dict.get_nil] at h
  | cons p d ih =>
    obtain ⟨a, b⟩ := p
    rw [Dict.get_cons] at h
    by_cases hk : k = a
    · rw [if_pos hk] at h
      cases h
      subst hk
      exact List.mem_cons_self _ _
    · rw [if_neg hk] at h
      exact List.mem_cons_of_mem _ (ih h)

theorem Dict.get_of_mem {α : Type} (d : Dict α) (k : Str) (v : α) (hnd : d.keys.Nodup)
    (h : (k, v) ∈ d) : d.get k = some v := by
  induction d with
  | nil => simp at h
  | cons p d ih =>
    obtain ⟨a, b⟩ := p
    rw [Dict.keys_cons, List.nodup_cons] at hnd
    rw [Dict.get_cons]
    rcases List.mem_cons.mp h with h1 | h1
    · cases h1; rw [if_pos rfl]
    · have hk : k ∈ Dict.keys d := List.mem_map.mpr ⟨(k, v), h1, rfl⟩
      have : ¬ k = a := fun e => hnd.1 (e ▸ hk)
      rw [if_neg this]
      exact ih hnd.2 h1

theorem pushExample_get (ex : Dict (List Example)) (key text : Str) (score : Nat) (k : Str) :
    (pushExample ex key text score).get k =
      if k = key then some (pushList ((ex.get key).getD []) text score) else ex.get k := by
  have hcur : ∀ k2, Dict.get (if ex.has key then ex else ex.set key []) k2 =
      if k2 = key then some ((ex.get key).getD []) else ex.get k2 := by
    intro k2
    cases hhas : ex.has key with
    | true =>
      simp only [if_true]
      by_cases hk : k2 = key
      · subst hk
        have hne : Dict.get ex k2 ≠ none := by
          rw [Ne, Dict.get_eq_none_iff, not_not, ← Dict.has_iff_mem_keys]; exact hhas
        cases hg : Dict.get ex k2 with
        | none => exact absurd hg hne
        | some l => simp
      · rw [if_neg hk]
    | false =>
      simp only [Bool.false_eq_true, if_false]
      rw [Dict.get_set]
      by_cases hk : k2 = key
      · subst hk
        have hnone : Dict.get ex k2 = none := by
          rw [Dict.get_eq_none_iff, ← Dict.has_iff_mem_keys, hhas]; simp
        simp [hnone]
      · rw [if_neg hk, if_neg hk]
  unfold pushExample pushList
  simp only
  by_cases hshort : text.length < CONFIG.minReviewLength
  · rw [if_pos hshort, if_pos hshort]
    exact hcur k
  · rw [if_neg hshort, if_neg hshort]
    rw [hcur key, if_pos rfl]
    simp only [Option.getD_some]
    by_cases hroom : ((ex.get key).getD []).length < CONFIG.examplesPerCategory
    · rw [if_pos hroom, if_pos hroom, Dict.get_set]
      by_cases hk : k = key
      · rw [if_pos hk, if_pos hk]
      · rw [if_neg hk, if_neg hk, hcur k, if_neg hk]
    · rw [if_neg hroom, if_neg hroom]
      cases hlast : ((ex.get key).getD []).getLast? with
      | none =>
        simp only
        rw [hcur k]
      | some shortest =>
        simp only
        by_cases hgt : text.length > shortest.length
        · rw [if_pos hgt, if_pos hgt, Dict.get_set]
          by_cases hk : k = key
          · rw [if_pos hk, if_pos hk]
          · rw [if_neg hk, if_neg hk, hcur k, if_neg hk]
        · rw [if_neg hgt, if_neg hgt]
          exact hcur k

theorem pushExample_keys_nodup (ex : Dict (List Example)) (key text : Str) (score : Nat)
    (h : ex.keys.Nodup) : (pushExample ex key text score).keys.Nodup := by
  have h1 : (if ex.has key then ex else ex.set key []).keys.Nodup := by
    split
    · exact h
    · exact Dict.nodup_keys_set _ _ _ h
  unfold pushExample
  simp only
  generalize (if ex.has key then ex else ex.set key []) = ex2 at h1
  split
  · exact h1
  · split
    · exact Dict.nodup_keys_set _ _ _ h1
    · split
      · split
        · exact Dict.nodup_keys_set _ _ _ h1
        · exact h1
      · exact h1

theorem foldl_pushExample (text : Str) (score : Nat) (keys : List Str) :
    ∀ ex : Dict (List Example), ex.keys.Nodup → keys.Nodup →
      (keys.foldl (fun ex key => pushExample ex key text score) ex).keys.Nodup ∧
      ∀ k, (keys.foldl (fun ex key => pushExample ex key text score) ex).get k =
        if k ∈ keys then some (pushList ((ex.get k).getD []) text score) else ex.get k := by
  induction keys with
  | nil => intro ex h _; exact ⟨h, fun k => by simp⟩
  | cons key keys ih =>
    intro ex h hnd
    rw [List.nodup_cons] at hnd
    obtain ⟨ih1, ih2⟩ := ih (pushExample ex key text score)
      (pushExample_keys_nodup ex key text score h) hnd.2
    rw [List.foldl_cons]
    refine ⟨ih1, ?_⟩
    intro k
    rw [ih2 k, pushExample_get]
    by_cases hk : k = key
    · subst hk
      simp [hnd.1]
    · simp [hk]

theorem exampleSlots_keys_nodup : exampleSlots.keys.Nodup := by decide

theorem pushedKeys_nodup (r : Review) : (pushedKeys r).Nodup := by
  unfold pushedKeys
  exact List.Nodup.sublist (List.Sublist.map _ (List.filter_sublist _)) exampleSlots_keys_nodup

theorem mem_pushedKeys (r : Review) (key : Str) :
    key ∈ pushedKeys r ↔ hitsKey key r = true := by
  unfold pushedKeys hitsKey
  rw [List.mem_map]
  constructor
  · rintro ⟨s, hs, rfl⟩
    rw [List.mem_filter] at hs
    rw [Dict.get_of_mem exampleSlots s.1 s.2 exampleSlots_keys_nodup hs.1]
    exact hs.2
  · intro h
    cases hg : Dict.get exampleSlots key with
    | none => rw [hg] at h; cases h
    | some words =>
      rw [hg] at h
      exact ⟨(key, words), List.mem_filter.mpr ⟨Dict.mem_of_get _ _ _ hg, h⟩, rfl⟩

theorem step_examples (st : ThemeState) (r : Review) :
    (st.step r).examples =
      (pushedKeys r).foldl (fun ex key => pushExample ex key r.body r.stars) st.examples := by
  have hP : ∀ (pre : Str) (dict : Dict (List Str)) (ex : Dict (List Example)),
      ((hitThemes (normalize r.body) dict).filter (fun kv => kv.2 ≠ 0)).foldl
        (fun ex kv => pushExample ex (pre ++ kv.1) r.body r.stars) ex =
      (((dict.map (fun p => (pre ++ p.1, p.2))).filter (fun s => hitsWords s.2 r)).map
        Prod.fst).foldl (fun ex key => pushExample ex key r.body r.stars) ex := by
    intro pre dict ex
    rw [hitThemes_normalize, List.filter_map, List.filter_map, List.map_map, List.foldl_map,
      List.foldl_map]
    have hf : (dict.filter ((fun kv : Str × Nat => decide (kv.2 ≠ 0)) ∘
        fun p => (p.1, if hitsWords p.2 r = true then 1 else 0))) =
        (dict.filter ((fun s : Str × List Str => hitsWords s.2 r) ∘
          fun p => (pre ++ p.1, p.2))) := by
      apply List.filter_congr
      intro p _
      simp only [Function.comp]
      by_cases hh : hitsWords p.2 r = true
      · simp [hh]
      · simp [hh]
    rw [hf]
    rfl
  unfold ThemeState.step
  simp only
  have hfix : (FIXED_WORDS.any fun w => includes (normalize r.body) w) =
      hitsWords FIXED_WORDS r := rfl
  rw [hfix]
  unfold pushedKeys exampleSlots
  rw [List.filter_append, List.filter_append, List.map_append, List.map_append,
    List.foldl_append, List.foldl_append, ← hP, ← hP]
  cases hfw : hitsWords FIXED_WORDS r with
  | true =>
    simp only [if_true, (foldl_complaintStep _ _ _ _).2.2.2, (foldl_praiseStep _ _ _ _).2.2.2]
    simp [List.filter_cons, hfw]
  | false =>
    simp only [Bool.false_eq_true, if_false, (foldl_complaintStep _ _ _ _).2.2.2,
      (foldl_praiseStep _ _ _ _).2.2.2]
    simp [List.filter_cons, hfw]

theorem foldl_step_examples (reviews : List Review) (key : Str) :
    ∀ st : ThemeState, st.examples.keys.Nodup →
      (reviews.foldl ThemeState.step st).examples.keys.Nodup ∧
      ((reviews.foldl ThemeState.step st).examples.get key).getD [] =
        (reviews.filter (hitsKey key)).foldl (fun cur r => pushList cur r.body r.stars)
          ((st.examples.get key).getD []) := by
  induction reviews with
  | nil => intro st h; exact ⟨h, rfl⟩
  | cons r reviews ih =>
    intro st h
    obtain ⟨h1, h2⟩ := foldl_pushExample r.body r.stars (pushedKeys r) st.examples h
      (pushedKeys_nodup r)
    rw [← step_examples] at h1 h2
    obtain ⟨ih1, ih2⟩ := ih (st.step r) h1
    rw [List.foldl_cons]
    refine ⟨ih1, ?_⟩
    rw [ih2, h2 key]
    cases hk : hitsKey key r with
    | true =>
      rw [if_pos ((mem_pushedKeys r key).mpr hk), List.filter_cons, hk]
      simp
    | false =>
      have : key ∉ pushedKeys r := by
        rw [mem_pushedKeys, hk]; simp
      rw [if_neg this, List.filter_cons, hk]
      simp

theorem storedExamples_eq (reviews : List Review) (key : Str) :
    storedExamples reviews key =
      (reviews.filter (hitsKey key)).foldl (fun cur r => pushList cur r.body r.stars) [] :=
  (foldl_step_examples reviews key ThemeState.init (by decide)).2

theorem themeLoop_examples_nodup (reviews : List Review) :
    (themeLoop reviews).examples.keys.Nodup :=
  (foldl_step_examples reviews [] ThemeState.init (by decide)).1
/-! ## Example lists: keeping the longest -/

theorem sortDesc_sorted (l : List Nat) : (sortDesc l).Sorted (fun a b => a ≥ b) :=
  List.sorted_insertionSort _ _

theorem sortDesc_perm (l : List Nat) : (sortDesc l).Perm l := List.perm_insertionSort _ _

theorem sortDesc_concat (l : List Nat) (x : Nat) :
    sortDesc (l ++ [x]) = List.orderedInsert (fun a b => a ≥ b) x (sortDesc l) := by
  apply List.eq_of_perm_of_sorted (r := fun a b : Nat => a ≥ b)
  · calc sortDesc (l ++ [x])
        |>.Perm (l ++ [x]) := sortDesc_perm _
      _ |>.Perm (x :: l) := List.perm_append_singleton x l
      _ |>.Perm (x :: sortDesc l) := List.Perm.cons x (sortDesc_perm l).symm
      _ |>.Perm _ := (List.perm_orderedInsert _ x (sortDesc l)).symm
  · exact sortDesc_sorted _
  · exact List.Sorted.orderedInsert x _ (sortDesc_sorted l)

theorem sortDesc_of_sorted (l : List Nat) (h : l.Sorted (fun a b => a ≥ b)) : sortDesc l = l := by
  unfold sortDesc
  exact List.Sorted.insertionSort_eq h

theorem sortExamples_lengths (l : List Example) :
    (sortExamples l).map (fun e => e.length) = sortDesc (l.map (fun e => e.length)) := by
  unfold sortExamples sortDesc
  exact List.map_insertionSort (fun a b : Example => a.length ≥ b.length)
    (fun a b : Nat => a ≥ b) (fun e => e.length) l (fun _ _ _ _ => Iff.rfl)

theorem take_orderedInsert (x : Nat) :
    ∀ (T : List Nat) (k : Nat),
      (List.orderedInsert (fun a b => a ≥ b) x T).take k =
        (List.orderedInsert (fun a b => a ≥ b) x (T.take k)).take k := by
  intro T
  induction T with
  | nil => intro k; simp
  | cons b T ih =>
    intro k
    cases k with
    | zero => simp
    | succ k =>
      rw [List.take_succ_cons, List.orderedInsert, List.orderedInsert]
      by_cases h : x ≥ b
      · rw [if_pos h, if_pos h, List.take_succ_cons, List.take_succ_cons]
        congr 1
        cases k with
        | zero => simp
        | succ k =>
          rw [List.take_succ_cons, List.take_succ_cons, List.take_take]
          congr 2
          omega
      · rw [if_neg h, if_neg h, List.take_succ_cons, List.take_succ_cons, ih k]

theorem orderedInsert_concat_ge (x l : Nat) (h : x ≥ l) :
    ∀ A : List Nat, List.orderedInsert (fun a b => a ≥ b) x (A ++ [l]) =
      List.orderedInsert (fun a b => a ≥ b) x A ++ [l] := by
  intro A
  induction A with
  | nil => simp [List.orderedInsert, h]
  | cons b A ih =>
    rw [List.cons_append, List.orderedInsert, List.orderedInsert]
    by_cases hb : x ≥ b
    · rw [if_pos hb, if_pos hb]; rfl
    · rw [if_neg hb, if_neg hb, ih]; rfl

theorem take_cons_of_all_eq (x : Nat) :
    ∀ S : List Nat, (∀ y ∈ S, y = x) → (x :: S).take S.length = S := by
  intro S
  induction S with
  | nil => intro _; rfl
  | cons y S ih =>
    intro h
    have hy : y = x := h y (List.mem_cons_self _ _)
    subst hy
    rw [List.length_cons, List.take_succ_cons, ih (fun z hz => h z (List.mem_cons_of_mem _ hz))]

theorem take_orderedInsert_of_le (x : Nat) :
    ∀ S : List Nat, S.Sorted (fun a b => a ≥ b) → (∀ y ∈ S, x ≤ y) →
      (List.orderedInsert (fun a b => a ≥ b) x S).take S.length = S := by
  intro S
  induction S with
  | nil => intro _ _; rfl
  | cons b S ih =>
    intro hs hle
    have hs2 := List.sorted_cons.mp hs
    rw [List.orderedInsert]
    by_cases hb : x ≥ b
    · have hbx : b = x := Nat.le_antisymm hb (hle b (List.mem_cons_self _ _))
      subst hbx
      rw [if_pos hb, List.length_cons, List.take_succ_cons]
      congr 1
      have hall : ∀ y ∈ S, y = b := fun y hy =>
        Nat.le_antisymm (hs2.1 y hy) (hle y (List.mem_cons_of_mem _ hy))
      have := take_cons_of_all_eq b (b :: S) (by
        intro y hy
        rcases List.mem_cons.mp hy with h | h
        · exact h
        · exact hall y h)
      rw [List.length_cons, List.take_succ_cons] at this
      exact List.cons.inj this |>.2
    · rw [if_neg hb, List.length_cons, List.take_succ_cons,
        ih hs2.2 (fun y hy => hle y (List.mem_cons_of_mem _ hy))]

theorem pushList_short (cur : List Example) (text : Str) (score : Nat)
    (h : text.length < CONFIG.minReviewLength) : pushList cur text score = cur := by
  unfold pushList
  rw [if_pos h]

theorem pushList_lengths (cur : List Example) (text : Str) (score : Nat) (L0 : List Nat)
    (hS : cur.map (fun e => e.length) = (sortDesc L0).take CONFIG.examplesPerCategory)
    (hx : CONFIG.minReviewLength ≤ text.length) :
    (pushList cur text score).map (fun e => e.length) =
      (sortDesc (L0 ++ [text.length])).take CONFIG.examplesPerCategory := by
  have hsorted : (cur.map (fun e => e.length)).Sorted (fun a b => a ≥ b) := by
    rw [hS]
    exact List.Pairwise.sublist (List.take_sublist _ _) (sortDesc_sorted L0)
  have hlen : cur.length ≤ CONFIG.examplesPerCategory := by
    have := congrArg List.length hS
    rw [List.length_map, List.length_take] at this
    omega
  have htarget : (sortDesc (L0 ++ [text.length])).take CONFIG.examplesPerCategory =
      (List.orderedInsert (fun a b => a ≥ b) text.length
        (cur.map (fun e => e.length))).take CONFIG.examplesPerCategory := by
    rw [sortDesc_concat, take_orderedInsert, ← hS]
  rw [htarget]
  unfold pushList
  rw [if_neg (by omega)]
  by_cases hroom : cur.length < CONFIG.examplesPerCategory
  · rw [if_pos hroom, sortExamples_lengths, List.map_append, List.map_singleton,
      sortDesc_concat, sortDesc_of_sorted _ hsorted]
    dsimp only
    rw [List.take_of_length_le]
    rw [List.orderedInsert_length, List.length_map]
    omega
  · rw [if_neg hroom]
    have hfull : cur.length = CONFIG.examplesPerCategory := by omega
    cases hlast : cur.getLast? with
    | none =>
      rw [List.getLast?_eq_none_iff] at hlast
      rw [hlast] at hfull
      exact absurd hfull (by decide)
    | some shortest =>
      simp only
      have hcur : cur.dropLast ++ [shortest] = cur :=
        List.dropLast_append_getLast? shortest (by rw [hlast]; rfl)
      have hmap : cur.map (fun e => e.length) =
          cur.dropLast.map (fun e => e.length) ++ [shortest.length] := by
        conv_lhs => rw [← hcur]
        rw [List.map_append, List.map_singleton]
      have hdl : (cur.dropLast.map (fun e => e.length)).length + 1 =
          CONFIG.examplesPerCategory := by
        have := congrArg List.length hmap
        rw [List.length_append, List.length_singleton, List.length_map] at this
        omega
      have hsA : (cur.dropLast.map (fun e => e.length)).Sorted (fun a b => a ≥ b) := by
        rw [hmap] at hsorted
        exact List.Pairwise.sublist (List.sublist_append_left _ _) hsorted
      by_cases hgt : text.length > shortest.length
      · rw [if_pos hgt, sortExamples_lengths, List.map_append, List.map_singleton,
          sortDesc_concat, sortDesc_of_sorted _ hsA, hmap]
        dsimp only
        rw [orderedInsert_concat_ge _ _ (Nat.le_of_lt hgt), List.take_left']
        rw [List.orderedInsert_length]
        exact hdl
      · rw [if_neg hgt]
        have hall : ∀ y ∈ cur.map (fun e => e.length), text.length ≤ y := by
          intro y hy
          rw [hmap] at hy hsorted
          rcases List.mem_append.mp hy with h | h
          · have := (List.pairwise_append.mp hsorted).2.2 y h shortest.length (by simp)
            omega
          · simp only [List.mem_singleton] at h
            omega
        have := take_orderedInsert_of_le text.length _ hsorted hall
        rw [List.length_map, hfull] at this
        exact this.symm

theorem foldl_pushList_lengths (R : List Review) :
    ∀ (cur : List Example) (L0 : List Nat),
      cur.map (fun e => e.length) = (sortDesc L0).take CONFIG.examplesPerCategory →
      (R.foldl (fun cur r => pushList cur r.body r.stars) cur).map (fun e => e.length) =
        (sortDesc (L0 ++ ((R.filter (fun r =>
          decide (CONFIG.minReviewLength ≤ r.body.length))).map
            (fun r => r.body.length)))).take CONFIG.examplesPerCategory := by
  induction R with
  | nil => intro cur L0 h; simpa using h
  | cons r R ih =>
    intro cur L0 h
    rw [List.foldl_cons, List.filter_cons]
    by_cases hr : CONFIG.minReviewLength ≤ r.body.length
    · rw [ih _ (L0 ++ [r.body.length]) (pushList_lengths cur r.body r.stars L0 h hr)]
      simp [hr]
    · rw [pushList_short cur r.body r.stars (by omega), ih cur L0 h]
      simp [hr]

theorem eligible_eq (key : Str) (reviews : List Review) :
    eligible key reviews = (reviews.filter (hitsKey key)).filter
      (fun r => decide (CONFIG.minReviewLength ≤ r.body.length)) := by
  unfold eligible
  rw [List.filter_filter]
  apply List.filter_congr
  intro r _
  rw [Bool.and_comm]

theorem storedExamples_lengths (reviews : List Review) (key : Str) :
    (storedExamples reviews key).map (fun e => e.length) =
      (sortDesc ((eligible key reviews).map (fun r => r.body.length))).take
        CONFIG.examplesPerCategory := by
  rw [storedExamples_eq, eligible_eq]
  have := foldl_pushList_lengths (reviews.filter (hitsKey key)) [] [] (by simp [sortDesc])
  simpa using this

/-! ## Example lists: which reviews are kept -/

theorem sortExamples_entries (l : List Review) :
    sortExamples (l.map entryOf) =
      (l.insertionSort (fun a b => a.body.length ≥ b.body.length)).map entryOf := by
  unfold sortExamples
  exact (List.map_insertionSort (fun a b : Review => a.body.length ≥ b.body.length)
    (fun a b : Example => a.length ≥ b.length) entryOf l (fun _ _ _ _ => Iff.rfl)).symm

theorem sortReviews_lengths (l : List Review) :
    (l.insertionSort (fun a b => a.body.length ≥ b.body.length)).map (fun r => r.body.length) =
      sortDesc (l.map (fun r => r.body.length)) := by
  unfold sortDesc
  exact List.map_insertionSort (fun a b : Review => a.body.length ≥ b.body.length)
    (fun a b : Nat => a ≥ b) (fun r => r.body.length) l (fun _ _ _ _ => Iff.rfl)

theorem pushList_kept (kept rest E : List Review) (r : Review)
    (hperm : (kept ++ rest).Perm E)
    (hsorted : (kept.map (fun r => r.body.length)).Sorted (fun a b => a ≥ b))
    (hcross : ∀ a ∈ kept, ∀ b ∈ rest, b.body.length ≤ a.body.length)
    (hroom : kept.length < CONFIG.examplesPerCategory → rest = [])
    (hx : CONFIG.minReviewLength ≤ r.body.length) :
    ∃ kept2 rest2 : List Review,
      pushList (kept.map entryOf) r.body r.stars = kept2.map entryOf ∧
      (kept2 ++ rest2).Perm (E ++ [r]) ∧
      (kept2.map (fun r => r.body.length)).Sorted (fun a b => a ≥ b) ∧
      (∀ a ∈ kept2, ∀ b ∈ rest2, b.body.length ≤ a.body.length) ∧
      (kept2.length < CONFIG.examplesPerCategory → rest2 = []) := by
  have hentry : ({ text := r.body.take 500, length := r.body.length, score := r.stars } :
      Example) = entryOf r := rfl
  unfold pushList
  rw [if_neg (by omega), hentry]
  by_cases hlt : (kept.map entryOf).length < CONFIG.examplesPerCategory
  · rw [if_pos hlt]
    have hrest : rest = [] := hroom (by rwa [List.length_map] at hlt)
    subst hrest
    refine ⟨(kept ++ [r]).insertionSort (fun a b => a.body.length ≥ b.body.length), [],
      ?_, ?_, ?_, ?_, ?_⟩
    · rw [← sortExamples_entries, List.map_append, List.map_singleton]
    · rw [List.append_nil] at hperm ⊢
      exact (List.perm_insertionSort _ _).trans (List.Perm.append_right [r] hperm)
    · rw [sortReviews_lengths]
      exact sortDesc_sorted _
    · intro a _ b hb
      cases hb
    · intro _
      rfl
  · rw [if_neg hlt]
    have hfull : CONFIG.examplesPerCategory ≤ kept.length := by
      rw [List.length_map] at hlt
      omega
    rcases List.eq_nil_or_concat kept with h | ⟨kd, last, h⟩
    · rw [h] at hfull
      exact absurd hfull (by decide)
    · rw [List.concat_eq_append] at h
      subst h
      have hgl : ((kd ++ [last]).map entryOf).getLast? = some (entryOf last) := by simp
      have hdl : ((kd ++ [last]).map entryOf).dropLast = kd.map entryOf := by simp
      have hlen : (kd ++ [last]).length = kd.length + 1 := by simp
      have hkd : ∀ a ∈ kd, last.body.length ≤ a.body.length := by
        intro a ha
        rw [List.map_append, List.map_singleton] at hsorted
        exact (List.pairwise_append.mp hsorted).2.2 a.body.length
          (List.mem_map.mpr ⟨a, ha, rfl⟩) last.body.length (by simp)
      have hall : ∀ a ∈ kd ++ [last], last.body.length ≤ a.body.length := by
        intro a ha
        rcases List.mem_append.mp ha with h1 | h1
        · exact hkd a h1
        · rw [List.mem_singleton] at h1
          rw [h1]
      rw [hgl, hdl]
      simp only
      by_cases hgt : r.body.length > (entryOf last).length
      · rw [if_pos hgt]
        have hgt2 : last.body.length < r.body.length := hgt
        refine ⟨(kd ++ [r]).insertionSort (fun a b => a.body.length ≥ b.body.length),
          last :: rest, ?_, ?_, ?_, ?_, ?_⟩
        · rw [← sortExamples_entries, List.map_append, List.map_singleton]
        · have h1 : ((kd ++ [r]) ++ (last :: rest)).Perm (((kd ++ [last]) ++ rest) ++ [r]) := by
            have h2 := List.Perm.append_left kd (@List.perm_append_comm _ [r] (last :: rest))
            simpa using h2
          exact ((List.Perm.append_right (last :: rest) (List.perm_insertionSort _ _)).trans
            h1).trans (List.Perm.append_right [r] hperm)
        · rw [sortReviews_lengths]
          exact sortDesc_sorted _
        · intro a ha b hb
          rw [List.mem_insertionSort, List.mem_append, List.mem_singleton] at ha
          rcases List.mem_cons.mp hb with hb1 | hb1
          · rcases ha with ha1 | ha1
            · rw [hb1]
              exact hkd a ha1
            · rw [hb1, ha1]
              omega
          · have hbl : b.body.length ≤ last.body.length :=
              hcross last (by simp) b hb1
            rcases ha with ha1 | ha1
            · exact Nat.le_trans hbl (hkd a ha1)
            · rw [ha1]
              omega
        · intro hc
          rw [List.length_insertionSort, List.length_append, List.length_singleton] at hc
          omega
      · rw [if_neg hgt]
        have hgt2 : r.body.length ≤ last.body.length := Nat.le_of_not_lt hgt
        refine ⟨kd ++ [last], rest ++ [r], rfl, ?_, hsorted, ?_, ?_⟩
        · rw [← List.append_assoc]
          exact List.Perm.append_right [r] hperm
        · intro a ha b hb
          rcases List.mem_append.mp hb with hb1 | hb1
          · exact hcross a ha b hb1
          · rw [List.mem_singleton] at hb1
            rw [hb1]
            exact Nat.le_trans hgt2 (hall a ha)
        · intro hc
          omega

theorem foldl_pushList_kept (R : List Review) :
    ∀ kept rest E : List Review,
      (kept ++ rest).Perm E →
      (kept.map (fun r => r.body.length)).Sorted (fun a b => a ≥ b) →
      (∀ a ∈ kept, ∀ b ∈ rest, b.body.length ≤ a.body.length) →
      (kept.length < CONFIG.examplesPerCategory → rest = []) →
      ∃ kept2 rest2 : List Review,
        R.foldl (fun cur r => pushList cur r.body r.stars) (kept.map entryOf) =
          kept2.map entryOf ∧
        (kept2 ++ rest2).Perm
          (E ++ R.filter (fun r => decide (CONFIG.minReviewLength ≤ r.body.length))) ∧
        ∀ a ∈ kept2, ∀ b ∈ rest2, b.body.length ≤ a.body.length := by
  induction R with
  | nil =>
    intro kept rest E hperm _ hcross _
    exact ⟨kept, rest, rfl, by simpa using hperm, hcross⟩
  | cons r R ih =>
    intro kept rest E hperm hsorted hcross hroom
    rw [List.foldl_cons, List.filter_cons]
    by_cases hr : CONFIG.minReviewLength ≤ r.body.length
    · obtain ⟨k1, r1, h1, h2, h3, h4, h5⟩ :=
        pushList_kept kept rest E r hperm hsorted hcross hroom hr
      obtain ⟨k2, r2, g1, g2, g3⟩ := ih k1 r1 (E ++ [r]) h2 h3 h4 h5
      refine ⟨k2, r2, ?_, ?_, g3⟩
      · rw [h1, g1]
      · simpa [hr] using g2
    · obtain ⟨k2, r2, g1, g2, g3⟩ := ih kept rest E hperm hsorted hcross hroom
      refine ⟨k2, r2, ?_, ?_, g3⟩
      · rw [pushList_short _ r.body r.stars (by omega), g1]
      · simpa [hr] using g2

theorem storedExamples_kept (reviews : List Review) (key : Str) :
    ∃ kept rest : List Review,
      storedExamples reviews key = kept.map entryOf ∧
      (kept ++ rest).Perm (eligible key reviews) ∧
      ∀ a ∈ kept, ∀ b ∈ rest, b.body.length ≤ a.body.length := by
  obtain ⟨kept, rest, h1, h2, h3⟩ := foldl_pushList_kept (reviews.filter (hitsKey key)) [] [] []
    (List.Perm.refl _) (by simp) (by simp) (fun _ => rfl)
  refine ⟨kept, rest, ?_, ?_, h3⟩
  · rw [storedExamples_eq]
    exact h1
  · rw [eligible_eq]
    simpa using h2

/-- C5. For every review list and every example key, let `E` be the reviews that hit the key
and whose original text has at least `minReviewLength` = 100 code units.  There are
`min(15, |E|)` entries stored for the key, in non-increasing order of original length.  The
stored entries are made from reviews of `E`, entry by entry from different reviews (each holds
the first 500 code units of the text of its review and the length of that text), and every
review of `E` that has no stored entry is at most as long as every review that has one: the
stored entries are those of the longest reviews of `E`. -/
theorem examples_keep_longest (reviews : List Review) (key : Str) :
    (storedExamples reviews key).length =
      min CONFIG.examplesPerCategory (eligible key reviews).length ∧
    ((storedExamples reviews key).map (fun e => e.length)).Sorted (fun a b => a ≥ b) ∧
    (∃ lengths : List Nat,
      ((storedExamples reviews key).map (fun e => e.length) ++ lengths).Perm
        ((eligible key reviews).map (fun r => r.body.length)) ∧
      ((storedExamples reviews key).map (fun e => e.length) ++ lengths).Sorted
        (fun a b => a ≥ b)) ∧
    ∃ kept rest : List Review,
      (kept ++ rest).Perm (eligible key reviews) ∧
      List.Forall₂ MadeFrom (storedExamples reviews key) kept ∧
      ∀ a ∈ kept, ∀ b ∈ rest, b.body.length ≤ a.body.length := by
  have h := storedExamples_lengths reviews key
  refine ⟨?_, ?_, ?_, ?_⟩
  · have := congrArg List.length h
    rw [List.length_map, List.length_take] at this
    rw [this]
    unfold sortDesc
    rw [List.length_insertionSort, List.length_map]
  · rw [h]
    exact List.Pairwise.sublist (List.take_sublist _ _) (sortDesc_sorted _)
  · refine ⟨(sortDesc ((eligible key reviews).map (fun r => r.body.length))).drop
      CONFIG.examplesPerCategory, ?_, ?_⟩
    · rw [h, List.take_append_drop]
      exact sortDesc_perm _
    · rw [h, List.take_append_drop]
      exact sortDesc_sorted _
  · obtain ⟨kept, rest, h1, h2, h3⟩ := storedExamples_kept reviews key
    refine ⟨kept, rest, h2, ?_, h3⟩
    rw [h1, List.forall₂_map_left_iff]
    exact List.forall₂_same.mpr (fun r _ => ⟨rfl, rfl⟩)
/-! ## Example lists: shape -/

theorem pushList_inv (P : Example → Prop) (cur : List Example) (text : Str) (score : Nat)
    (hlen : cur.length ≤ CONFIG.examplesPerCategory) (hP : ∀ e ∈ cur, P e)
    (hnew : CONFIG.minReviewLength ≤ text.length →
      P { text := text.take 500, length := text.length, score := score }) :
    (pushList cur text score).length ≤ CONFIG.examplesPerCategory ∧
    ∀ e ∈ pushList cur text score, P e := by
  unfold pushList
  split
  · exact ⟨hlen, hP⟩
  · rename_i hx
    have hentry := hnew (by omega)
    split
    · rename_i hroom
      unfold sortExamples
      constructor
      · rw [List.length_insertionSort, List.length_append, List.length_singleton]; omega
      · intro e he
        rw [List.mem_insertionSort, List.mem_append, List.mem_singleton] at he
        rcases he with h | h
        · exact hP e h
        · rw [h]; exact hentry
    · split
      · split
        · unfold sortExamples
          constructor
          · rw [List.length_insertionSort, List.length_append, List.length_singleton,
              List.length_dropLast]
            have h15 : CONFIG.examplesPerCategory = 15 := rfl
            omega
          · intro e he
            rw [List.mem_insertionSort, List.mem_append, List.mem_singleton] at he
            rcases he with h | h
            · exact hP e (List.dropLast_subset _ h)
            · rw [h]; exact hentry
        · exact ⟨hlen, hP⟩
      · exact ⟨hlen, hP⟩

theorem foldl_pushList_inv (P : Example → Prop) (R : List Review)
    (hR : ∀ r ∈ R, CONFIG.minReviewLength ≤ r.body.length →
      P { text := r.body.take 500, length := r.body.length, score := r.stars }) :
    ∀ cur : List Example, cur.length ≤ CONFIG.examplesPerCategory → (∀ e ∈ cur, P e) →
      (R.foldl (fun cur r => pushList cur r.body r.stars) cur).length ≤
        CONFIG.examplesPerCategory ∧
      ∀ e ∈ R.foldl (fun cur r => pushList cur r.body r.stars) cur, P e := by
  induction R with
  | nil => intro cur h1 h2; exact ⟨h1, h2⟩
  | cons r R ih =>
    intro cur h1 h2
    obtain ⟨h3, h4⟩ := pushList_inv P cur r.body r.stars h1 h2 (hR r (List.mem_cons_self _ _))
    exact ih (fun r2 hr2 => hR r2 (List.mem_cons_of_mem _ hr2)) _ h3 h4

theorem storedExamples_shape (reviews : List Review) (key : Str) :
    (storedExamples reviews key).length ≤ CONFIG.examplesPerCategory ∧
    ∀ e ∈ storedExamples reviews key, ∃ r ∈ reviews,
      hitsKey key r = true ∧ CONFIG.minReviewLength ≤ r.body.length ∧ MadeFrom e r := by
  rw [storedExamples_eq]
  apply foldl_pushList_inv
    (fun e => ∃ r ∈ reviews,
      hitsKey key r = true ∧ CONFIG.minReviewLength ≤ r.body.length ∧ MadeFrom e r)
  · intro r hr hlen
    rw [List.mem_filter] at hr
    exact ⟨r, hr.1, hr.2, hlen, rfl, rfl⟩
  · simp
  · simp

/-- C8. For every key of the `examples` object that `countThemes` returns, the list holds at
most `examplesPerCategory` = 15 excerpts, and every excerpt is the first 500 code units of the
original text of an input review that hit the key and whose original text has at least
`minReviewLength` = 100 code units; so an excerpt has between 100 and 500 code units. -/
theorem examples_shape (reviews : List Review) (key : Str) (texts : List Str)
    (h : (key, texts) ∈ (countThemes reviews).examples) :
    texts.length ≤ 15 ∧
    ∀ x ∈ texts, (∃ r ∈ reviews,
      hitsKey key r = true ∧ 100 ≤ r.body.length ∧ x = r.body.take 500) ∧
      100 ≤ x.length ∧ x.length ≤ 500 := by
  have hmem : (key, texts) ∈
      (themeLoop reviews).examples.map (fun p => (p.1, p.2.map (fun e => e.text))) := h
  rw [List.mem_map] at hmem
  obtain ⟨⟨k, entries⟩, hin, heq⟩ := hmem
  simp only [Prod.mk.injEq] at heq
  obtain ⟨hk, ht⟩ := heq
  subst hk
  have hget := Dict.get_of_mem _ _ _ (themeLoop_examples_nodup reviews) hin
  have hstored : storedExamples reviews k = entries := by
    unfold storedExamples
    rw [hget]; rfl
  obtain ⟨h1, h2⟩ := storedExamples_shape reviews k
  rw [hstored] at h1 h2
  subst ht
  constructor
  · rw [List.length_map]; exact h1
  · intro x hx
    rw [List.mem_map] at hx
    obtain ⟨e, he, rfl⟩ := hx
    obtain ⟨r, hr, hhit, hlen, htext, _⟩ := h2 e he
    have hlen2 : 100 ≤ r.body.length := hlen
    refine ⟨⟨r, hr, hhit, hlen2, htext⟩, ?_, ?_⟩
    · rw [htext, List.length_take]; omega
    · rw [htext, List.length_take]; omega
/-! ## Fetch phase: failure isolation and output order -/

theorem entityTask_record_appId (appData : Entity) (details : Option AppDetails)
    (src : ReviewSource) (r : AppRecord)
    (h : entityTask appData details src = TaskResult.record r) : r.appId = appData.appId := by
  unfold entityTask at h
  split at h
  · cases h
  · split at h
    · cases h
    · split at h
      · cases h
      · split at h
        · cases h
        · cases h; rfl

theorem runTask_cases (found : Dict Entity) (io : Services) (appsOutput : List AppRecord)
    (appId : Str) :
    runTask found io appsOutput appId = appsOutput ∨
      ∃ r, r.appId = appId ∧ runTask found io appsOutput appId = appsOutput ++ [r] := by
  unfold runTask
  split
  · exact Or.inl rfl
  · split
    · rename_i r hr
      split
      · exact Or.inr ⟨r, entityTask_record_appId _ _ _ r hr, rfl⟩
      · exact Or.inl rfl
    · exact Or.inl rfl

theorem runTask_failed (found : Dict Entity) (io : Services) (appsOutput : List AppRecord)
    (appId : Str) (h : io.fetchAppDetails appId = none ∨ io.writesOk appId = false) :
    runTask found io appsOutput appId = appsOutput := by
  unfold runTask
  split
  · rfl
  · rcases h with h | h
    · rw [h]
      rfl
    · rw [h]
      split <;> rfl

theorem fetchPhase_count (found : Dict Entity) (io : Services) (id : Str) (order : List Str) :
    ∀ out : List AppRecord,
      (order.foldl (runTask found io) out).countP (fun r => decide (r.appId = id)) ≤
        out.countP (fun r => decide (r.appId = id)) + order.count id := by
  induction order with
  | nil => intro out; simp
  | cons a order ih =>
    intro out
    rw [List.foldl_cons]
    refine Nat.le_trans (ih _) ?_
    rcases runTask_cases found io out a with h | ⟨r, hr, h⟩
    · rw [h, List.count_cons]
      omega
    · rw [h, List.countP_append, List.count_cons, List.countP_singleton]
      by_cases hid : a = id
      · subst hid
        simp [hr]
        omega
      · have : ¬ r.appId = id := by rw [hr]; exact hid
        simp [this]

/-- C11. The task of an entity always ends without raising.  When its metadata fetch throws,
or a later step of the task throws, it appends nothing: the records of the other entities are
what they are without that task.  A task appends at most one record, after the records that
are already there, and the result collection holds at most as many records of an identifier
as there are tasks for it. -/
theorem task_failure_isolated (found : Dict Entity) (io : Services) (appId : Str) :
    (∀ appsOutput, io.fetchAppDetails appId = none ∨ io.writesOk appId = false →
      runTask found io appsOutput appId = appsOutput) ∧
    (∀ pre post, io.fetchAppDetails appId = none ∨ io.writesOk appId = false →
      fetchPhase found io (pre ++ appId :: post) = fetchPhase found io (pre ++ post)) ∧
    (∀ appsOutput, runTask found io appsOutput appId = appsOutput ∨
      ∃ r, r.appId = appId ∧ runTask found io appsOutput appId = appsOutput ++ [r]) ∧
    (∀ order, (fetchPhase found io order).countP (fun r => decide (r.appId = appId)) ≤
      order.count appId) := by
  refine ⟨fun out h => runTask_failed found io out appId h, ?_,
    fun out => runTask_cases found io out appId, ?_⟩
  · intro pre post h
    unfold fetchPhase
    rw [List.foldl_append, List.foldl_append, List.foldl_cons, runTask_failed found io _ appId h]
  · intro order
    have := fetchPhase_count found io appId order []
    simpa [fetchPhase] using this

/-- C18. The sequence handed to the serializers is a permutation of the collected records, in
which the total review count (a missing one counted as 0) never increases from one record to
the next. -/
theorem sortOutput_ordered (appsOutput : List AppRecord) :
    (sortOutput appsOutput).Perm appsOutput ∧
    (sortOutput appsOutput).Sorted
      (fun a b => numOr a.reviewsTotal 0 ≥ numOr b.reviewsTotal 0) := by
  unfold sortOutput
  refine ⟨List.perm_insertionSort _ _, ?_⟩
  haveI : IsTotal AppRecord (fun a b => numOr a.reviewsTotal 0 ≥ numOr b.reviewsTotal 0) :=
    ⟨fun a b => Nat.le_total _ _⟩
  haveI : IsTrans AppRecord (fun a b => numOr a.reviewsTotal 0 ≥ numOr b.reviewsTotal 0) :=
    ⟨fun _ _ _ hab hbc => Nat.le_trans hbc hab⟩
  exact List.sorted_insertionSort _ _
/-! ## Discovery merge: the entity of an identifier -/

theorem extend_nil (o : Option Entity) (id : Str) : extend o id [] = o := by
  cases o with
  | none => rfl
  | some e => simp [extend]

theorem extend_extend (o : Option Entity) (id : Str) (t1 t2 : List Str) :
    extend (extend o id t1) id t2 = extend o id (t1 ++ t2) := by
  cases o with
  | some e => simp [extend, List.append_assoc]
  | none =>
    by_cases h1 : t1 = []
    · subst h1; simp [extend]
    · simp [extend, h1]

theorem mergeResults_nil (tag : Str) (found : Dict Entity) : mergeResults tag found [] = found :=
  rfl

theorem mergeResults_cons (tag : Str) (found : Dict Entity) (item : Item)
    (results : List Item) :
    mergeResults tag found (item :: results) =
      mergeResults tag
        (match item.appId with
          | none => found
          | some id =>
            if id = [] then found
            else pushFrom (if found.has id then found
              else found.set id { appId := id, from_ := [], verified := false }) id tag)
        results := by
  unfold mergeResults
  rw [List.foldl_cons]

theorem mergeItem_get (tag : Str) (found : Dict Entity) (k id : Str) :
    (pushFrom (if found.has k then found
        else found.set k { appId := k, from_ := [], verified := false }) k tag).get id =
      extend (found.get id) id (if id = k then [tag] else []) := by
  rw [pushFrom_eq_update, Dict.get_update]
  by_cases hid : id = k
  · subst hid
    simp only [if_true]
    cases hhas : found.has id with
    | true =>
      simp only [if_true]
      have hne : Dict.get found id ≠ none := by
        rw [Ne, Dict.get_eq_none_iff, not_not, ← Dict.has_iff_mem_keys]; exact hhas
      cases hg : Dict.get found id with
      | none => exact absurd hg hne
      | some e => simp [extend]
    | false =>
      have hnone : Dict.get found id = none := by
        rw [Dict.get_eq_none_iff, ← Dict.has_iff_mem_keys, hhas]; simp
      simp [Dict.get_set, hnone, extend]
  · simp only [hid, if_false]
    rw [extend_nil]
    split
    · rfl
    · rw [Dict.get_set, if_neg hid]

theorem mergeResults_get (tag : Str) (id : Str) (results : List Item) :
    ∀ found : Dict Entity,
      (mergeResults tag found results).get id =
        extend (found.get id) id (List.replicate (sightings id results) tag) := by
  induction results with
  | nil => intro found; simp [mergeResults_nil, sightings, extend_nil]
  | cons item results ih =>
    intro found
    rw [mergeResults_cons, ih, sightings_cons]
    cases hitem : item.appId with
    | none => simp
    | some k =>
      simp only
      by_cases hk : k = []
      · subst hk
        simp only [if_true]
        by_cases hid : id = []
        · simp [hid]
        · have : ¬ ([] : Str) = id := fun e => hid e.symm
          simp [this]
      · simp only [hk, if_false]
        rw [mergeItem_get, extend_extend]
        by_cases hid : id = k
        · subst hid
          simp only [hk, if_true, and_self, not_false_eq_true, ne_eq]
          rw [Nat.add_comm 1, List.replicate_succ]
          rfl
        · have : ¬ k = id := fun e => hid e.symm
          simp [hid, this]

theorem phase_get {β : Type} (id : Str) (tag : β → Str) (res : β → List Item) (steps : List β) :
    ∀ found : Dict Entity,
      (steps.foldl (fun found s => mergeResults (tag s) found (res s)) found).get id =
        extend (found.get id) id
          (steps.flatMap (fun s => List.replicate (sightings id (res s)) (tag s))) := by
  induction steps with
  | nil => intro found; simp [extend_nil]
  | cons s steps ih =>
    intro found
    rw [List.foldl_cons, ih, mergeResults_get, extend_extend, List.flatMap_cons]

theorem seeds_get (id : Str) (seeds : List Str) :
    ∀ found : Dict Entity,
      (seeds.foldl (fun found appId =>
        found.set appId { appId := appId, from_ := [lit "seeded_competitor"], verified := true })
        found).get id =
      if id ∈ seeds then
        some { appId := id, from_ := [lit "seeded_competitor"], verified := true }
      else found.get id := by
  induction seeds with
  | nil => intro found; simp
  | cons s seeds ih =>
    intro found
    rw [List.foldl_cons, ih, Dict.get_set]
    by_cases h1 : id ∈ seeds
    · simp [h1]
    · by_cases h2 : id = s
      · subst h2; simp
      · simp [h1, h2]

theorem discover_get (seeds keywords : List Str) (search similar : Nat → Str → List Item)
    (id : Str) :
    (discover seeds keywords search similar).get id =
      extend (if id ∈ seeds then
          some { appId := id, from_ := [lit "seeded_competitor"], verified := true }
        else none) id
        (keywordTags id keywords search ++ similarTags id seeds similar) := by
  unfold discover
  simp only
  rw [phase_get id (fun app : Nat × Str => lit "similar:" ++ lastSegment app.2)
      (fun app => (similar app.1 app.2).take CONFIG.similarAppsPerApp),
    phase_get id (fun kw : Nat × Str => lit "kw:" ++ kw.2) (fun kw => search kw.1 kw.2),
    seeds_get, extend_extend]
  rfl
/-! ## Discovery merge: flags, provenance, re-merging, bounds -/

theorem extend_isSome (o : Option Entity) (id : Str) (tags : List Str) (h : tags ≠ []) :
    extend o id tags ≠ none := by
  cases o with
  | some e => simp [extend]
  | none => simp [extend, h]

theorem mem_keys_mergeResults (tag : Str) (found : Dict Entity) (results : List Item) (k : Str)
    (h : 0 < sightings k results) : k ∈ (mergeResults tag found results).keys := by
  by_contra hk
  have hnone := (Dict.get_eq_none_iff _ k).mpr hk
  rw [mergeResults_get] at hnone
  refine extend_isSome _ _ _ ?_ hnone
  intro e
  have := congrArg List.length e
  rw [List.length_replicate] at this
  simp at this
  omega

theorem mergeResults_keys_of_present (tag : Str) (results : List Item) :
    ∀ found : Dict Entity, (∀ k, 0 < sightings k results → k ∈ found.keys) →
      (mergeResults tag found results).keys = found.keys := by
  induction results with
  | nil => intro found _; rfl
  | cons item results ih =>
    intro found h
    rw [mergeResults_cons]
    cases hitem : item.appId with
    | none =>
      simp only
      apply ih
      intro k hk
      apply h k
      rw [sightings_cons]; omega
    | some k =>
      simp only
      by_cases hk : k = []
      · simp only [hk, if_true]
        apply ih
        intro k2 hk2
        apply h k2
        rw [sightings_cons]; omega
      · simp only [hk, if_false]
        have hmem : k ∈ found.keys := by
          apply h k
          rw [sightings_cons, hitem]
          simp [hk]
        have hhas : found.has k = true := (Dict.has_iff_mem_keys found k).mpr hmem
        rw [hhas]
        simp only [if_true]
        have hkeys : (pushFrom found k tag).keys = found.keys := by
          rw [pushFrom_eq_update, Dict.keys_update]
        rw [ih, hkeys]
        intro k2 hk2
        rw [hkeys]
        apply h k2
        rw [sightings_cons]; omega

theorem Dict.update_of_not_mem {α : Type} (d : Dict α) (k : Str) (f : α → α)
    (h : k ∉ d.keys) : d.update k f = d := by
  induction d with
  | nil => rfl
  | cons p d ih =>
    obtain ⟨a, b⟩ := p
    rw [Dict.keys_cons, List.mem_cons, not_or] at h
    rw [Dict.update_cons, if_neg (fun e => h.1 e.symm), ih h.2]

theorem tagTotal_cons (a : Str) (e : Entity) (d : Dict Entity) :
    tagTotal ((a, e) :: d) = e.from_.length + tagTotal d := by
  simp [tagTotal]

theorem tagTotal_pushFrom (tag k : Str) (d : Dict Entity) (hnd : d.keys.Nodup)
    (hk : k ∈ d.keys) : tagTotal (pushFrom d k tag) = tagTotal d + 1 := by
  rw [pushFrom_eq_update]
  induction d with
  | nil => simp [Dict.keys] at hk
  | cons p d ih =>
    obtain ⟨a, e⟩ := p
    rw [Dict.keys_cons, List.nodup_cons] at hnd
    rw [Dict.update_cons]
    by_cases ha : a = k
    · subst ha
      rw [if_pos rfl, Dict.update_of_not_mem d a _ hnd.1, tagTotal_cons, tagTotal_cons]
      simp only [List.length_append, List.length_singleton]
      omega
    · rw [if_neg ha, tagTotal_cons, tagTotal_cons]
      rw [Dict.keys_cons, List.mem_cons] at hk
      rcases hk with hk | hk
      · exact absurd hk.symm ha
      · rw [ih hnd.2 hk]; omega

theorem tagTotal_mergeResults (tag : Str) (results : List Item) :
    ∀ found : Dict Entity, found.keys.Nodup →
      tagTotal (mergeResults tag found results) = tagTotal found + results.countP mergeable := by
  induction results with
  | nil => intro found _; simp [mergeResults_nil]
  | cons item results ih =>
    intro found hnd
    rw [mergeResults_cons, List.countP_cons]
    cases hitem : item.appId with
    | none =>
      simp only
      rw [ih found hnd]
      simp [mergeable, hitem]
    | some k =>
      simp only
      by_cases hk : k = []
      · simp only [hk, if_true]
        rw [ih found hnd]
        simp [mergeable, hitem, hk]
      · simp only [hk, if_false]
        have hm : mergeable item = true := by simp [mergeable, hitem, hk]
        have hnd2 : (if found.has k then found
            else found.set k { appId := k, from_ := [], verified := false }).keys.Nodup := by
          split
          · exact hnd
          · exact Dict.nodup_keys_set _ _ _ hnd
        have hmem : k ∈ (if found.has k then found
            else found.set k { appId := k, from_ := [], verified := false }).keys := by
          cases hhas : found.has k with
          | true => simpa using (Dict.has_iff_mem_keys found k).mp hhas
          | false =>
            simp only [Bool.false_eq_true, if_false]
            rw [Dict.keys_set]
            split
            · assumption
            · simp
        have htot : tagTotal (if found.has k then found
            else found.set k { appId := k, from_ := [], verified := false }) = tagTotal found := by
          cases hhas : found.has k with
          | true => simp
          | false =>
            simp only [Bool.false_eq_true, if_false]
            rw [Dict.set_eq_append _ _ _ hhas]
            simp [tagTotal]
        have hnd3 : (pushFrom (if found.has k then found
            else found.set k { appId := k, from_ := [], verified := false }) k tag).keys.Nodup := by
          rw [pushFrom_eq_update, Dict.keys_update]; exact hnd2
        rw [ih _ hnd3, tagTotal_pushFrom tag k _ hnd2 hmem, htot, hm]
        simp only [if_true]
        omega

/-- C12. In the map that the discovery phases build, the entity of an identifier has
`verified = true` exactly when the identifier is in the seed list; merging a result list
never changes the flag of an entity that is already in the map. -/
theorem discover_verified (seededAppIds keywords : List Str)
    (searchAppsByKeyword fetchSimilarApps : Nat → Str → List Item) (id : Str) :
    (∀ e, (discover seededAppIds keywords searchAppsByKeyword fetchSimilarApps).get id = some e →
      (e.verified = true ↔ id ∈ seededAppIds)) ∧
    (∀ tag found results e, Dict.get found id = some e →
      ((mergeResults tag found results).get id).map (fun e => e.verified) =
        some e.verified) := by
  constructor
  · intro e he
    rw [discover_get] at he
    by_cases hs : id ∈ seededAppIds
    · simp only [hs, if_true, extend, Option.some.injEq] at he
      rw [← he]; simp [hs]
    · simp only [hs, if_false, extend] at he
      split at he
      · cases he
      · cases he; simp [hs]
  · intro tag found results e he
    rw [mergeResults_get, he]
    rfl

/-- C13 (as amended). The provenance list of an identifier holds its tags in channel
processing order: the tag `seeded_competitor` first when the identifier is seeded, then
`kw:<keyword>` once per keyword sighting in keyword order, then
`similar:<last segment of the seed id>` once per similar-apps sighting in seed order; an
identifier without a tag has no entity.  When the searches for `k1` and then `k2` both surface
the non-seeded `com.x.y`, its entity has the provenance `["kw:k1", "kw:k2"]` and
`verified = false`. -/
theorem discover_sources (seededAppIds keywords : List Str)
    (searchAppsByKeyword fetchSimilarApps : Nat → Str → List Item) (id : Str) :
    (((discover seededAppIds keywords searchAppsByKeyword fetchSimilarApps).get id).map
        (fun e => e.from_) =
      if expectedSources id seededAppIds keywords searchAppsByKeyword fetchSimilarApps = []
      then none
      else some
        (expectedSources id seededAppIds keywords searchAppsByKeyword fetchSimilarApps)) ∧
    (discover [] [lit "k1", lit "k2"] (fun _ _ => [⟨some (lit "com.x.y")⟩])
        (fun _ _ => [])).get (lit "com.x.y") =
      some ⟨lit "com.x.y", [lit "kw:k1", lit "kw:k2"], false⟩ := by
  refine ⟨?_, by decide⟩
  rw [discover_get]
  unfold expectedSources
  by_cases hs : id ∈ seededAppIds
  · simp [hs, extend]
  · simp only [hs, if_false, extend, List.nil_append]
    split
    · rename_i h; simp [h]
    · rename_i h; simp [h]

/-- C13, the claim as stated fails: the tags of the source are `seeded_competitor` and
`kw:<keyword>`, not `seeded` and `keyword:<keyword>`. -/
theorem discover_sources_counterexample :
    ((discover [] [lit "k1", lit "k2"] (fun _ _ => [⟨some (lit "com.x.y")⟩])
        (fun _ _ => [])).get (lit "com.x.y")).map (fun e => e.from_) ≠
      some [lit "keyword:k1", lit "keyword:k2"] ∧
    ((discover [lit "com.x.y"] [] (fun _ _ => []) (fun _ _ => [])).get (lit "com.x.y")).map
        (fun e => e.from_) ≠ some [lit "seeded"] := by
  decide

/-- C14. Merging a keyword result list into a map that already holds it creates no entity
(the identifiers stay the same) and changes no `verified` flag; it appends to the provenance
list of every identifier one tag per occurrence of the identifier in the list.  An identifier
that the list surfaces has an entity after the first merge, and the second merge makes the
provenance list of that entity longer by its number of occurrences, so the map after the
second merge differs from the map after the first. -/
theorem remerge_appends (tag : Str) (found : Dict Entity) (results : List Item) (id : Str) :
    (mergeResults tag (mergeResults tag found results) results).keys =
      (mergeResults tag found results).keys ∧
    (mergeResults tag (mergeResults tag found results) results).get id =
      ((mergeResults tag found results).get id).map
        (fun e => { e with from_ := e.from_ ++ List.replicate (sightings id results) tag }) ∧
    (0 < sightings id results →
      ∃ e, (mergeResults tag found results).get id = some e ∧
        (mergeResults tag (mergeResults tag found results) results).get id =
          some { appId := e.appId,
                 from_ := e.from_ ++ List.replicate (sightings id results) tag,
                 verified := e.verified } ∧
        e.from_.length < (e.from_ ++ List.replicate (sightings id results) tag).length ∧
        (mergeResults tag (mergeResults tag found results) results).get id ≠
          (mergeResults tag found results).get id) := by
  have hsecond : (mergeResults tag (mergeResults tag found results) results).get id =
      ((mergeResults tag found results).get id).map
        (fun e => { e with from_ := e.from_ ++ List.replicate (sightings id results) tag }) := by
    rw [mergeResults_get tag id results (mergeResults tag found results)]
    cases hg : (mergeResults tag found results).get id with
    | some e => rfl
    | none =>
      have hz : sightings id results = 0 := by
        by_contra hne
        have := mem_keys_mergeResults tag found results id (by omega)
        exact (Dict.get_eq_none_iff _ id).mp hg this
      simp [hz, extend]
  refine ⟨?_, hsecond, ?_⟩
  · apply mergeResults_keys_of_present
    intro k hk
    exact mem_keys_mergeResults tag found results k hk
  · intro hpos
    cases hg : (mergeResults tag found results).get id with
    | none =>
      exact absurd (mem_keys_mergeResults tag found results id hpos)
        ((Dict.get_eq_none_iff _ id).mp hg)
    | some e =>
      have hlen : e.from_.length <
          (e.from_ ++ List.replicate (sightings id results) tag).length := by
        rw [List.length_append, List.length_replicate]
        omega
      refine ⟨e, rfl, ?_, hlen, ?_⟩
      · rw [hsecond, hg]
        rfl
      · rw [hsecond, hg]
        intro heq
        have h2 := congrArg (fun o : Option Entity => o.map (fun x => x.from_.length)) heq
        simp only [Option.map_some'] at h2
        have h3 := Option.some.inj h2
        simp only [List.length_append, List.length_replicate] at h3
        omega

/-- C19 (as amended). The merge loop of a keyword takes every item of the returned list that
carries an `appId`: the list is not cut to `appsPerKeyword`, which is only passed to the
search as its `num` option.  So the loop appends as many tags as the list has such items, and
at most `appsPerKeyword` = 20 when the search returns at most 20 items. -/
theorem keyword_merge_bound (tag : Str) (found : Dict Entity) (results : List Item)
    (h : found.keys.Nodup) :
    tagTotal (mergeResults tag found results) = tagTotal found + results.countP mergeable ∧
    (results.length ≤ CONFIG.appsPerKeyword →
      tagTotal (mergeResults tag found results) ≤ tagTotal found + CONFIG.appsPerKeyword) := by
  have h1 := tagTotal_mergeResults tag results found h
  refine ⟨h1, ?_⟩
  intro hlen
  rw [h1]
  have := List.countP_le_length mergeable (l := results)
  omega

/-- C19, the claim as stated fails: when the search for a keyword returns 21 items, all 21
are merged. -/
theorem keyword_merge_bound_counterexample :
    CONFIG.appsPerKeyword <
      tagTotal (discover [] [lit "k"] (fun _ _ => List.replicate 21 ⟨some (lit "a")⟩)
        (fun _ _ => [])) ∧
    entriesFor (discover [] [lit "k"] (fun _ _ => List.replicate 21 ⟨some (lit "a")⟩)
        (fun _ _ => [])) (lit "a") = [(lit "a", 21)] := by
  decide
/-! ## Normalization: structure -/

theorem toLowerCase_append (a b : Str) : toLowerCase (a ++ b) = toLowerCase a ++ toLowerCase b := by
  unfold toLowerCase; rw [List.map_append]

theorem replaceWhiteSpace_cons (f : Bool) (c : Nat) (cs : Str) :
    replaceWhiteSpace f (c :: cs) =
      if isWhiteSpace c then
        if f then replaceWhiteSpace true cs else 32 :: replaceWhiteSpace true cs
      else c :: replaceWhiteSpace false cs := by
  rw [replaceWhiteSpace]

theorem wsEnd_cons (f : Bool) (c : Nat) (cs : Str) :
    wsEnd f (c :: cs) = wsEnd (isWhiteSpace c) cs := rfl

theorem replaceWhiteSpace_append (a b : Str) :
    ∀ f : Bool, replaceWhiteSpace f (a ++ b) =
      replaceWhiteSpace f a ++ replaceWhiteSpace (wsEnd f a) b := by
  induction a with
  | nil => intro f; rfl
  | cons c cs ih =>
    intro f
    rw [List.cons_append, replaceWhiteSpace_cons, replaceWhiteSpace_cons, wsEnd_cons]
    by_cases hc : isWhiteSpace c = true
    · rw [if_pos hc, if_pos hc, ih true, hc]
      cases f <;> simp
    · rw [if_neg hc, if_neg hc, ih false]
      have : isWhiteSpace c = false := by simpa using hc
      rw [this]; rfl

theorem wsEnd_concat (a : Str) (c : Nat) : ∀ f : Bool, wsEnd f (a ++ [c]) = isWhiteSpace c := by
  induction a with
  | nil => intro f; rfl
  | cons x xs ih => intro f; exact ih (isWhiteSpace x)

theorem replaceWhiteSpace_allWhite (w : Str) (hw : AllWhite w) (hne : w ≠ []) :
    ∀ g : Bool, replaceWhiteSpace g w = (if g then [] else [32]) ∧ wsEnd g w = true := by
  induction w with
  | nil => exact absurd rfl hne
  | cons c cs ih =>
    intro g
    have hc : isWhiteSpace c = true := hw c (List.mem_cons_self _ _)
    rw [replaceWhiteSpace_cons, wsEnd_cons, if_pos hc, hc]
    cases cs with
    | nil => cases g <;> simp [replaceWhiteSpace, wsEnd]
    | cons d ds =>
      obtain ⟨h1, h2⟩ := ih (fun x hx => hw x (List.mem_cons_of_mem _ hx)) (by simp) true
      rw [h1, h2]
      cases g <;> simp

theorem toLowerCase_allWhite (w : Str) (hw : AllWhite w) : toLowerCase w = w := by
  unfold toLowerCase
  conv_rhs => rw [← List.map_id w]
  apply List.map_congr_left
  intro c hc
  have h := hw c hc
  have hnot : ¬ (65 ≤ c ∧ c ≤ 90) := by
    intro hr
    have hf : isWhiteSpace c = false := by
      unfold isWhiteSpace
      simp only [Bool.or_eq_false_iff, Bool.and_eq_false_iff, decide_eq_false_iff_not,
        beq_eq_false_iff_ne]
      omega
    rw [hf] at h; cases h
  rw [if_neg hnot]; rfl

theorem caseVariant_lower (c d : Nat) (h : caseVariant c d) :
    (if 65 ≤ c ∧ c ≤ 90 then c + 32 else c) = (if 65 ≤ d ∧ d ≤ 90 then d + 32 else d) := by
  rcases h with h | ⟨h1, h2, h3⟩ | ⟨h1, h2, h3⟩
  · rw [h]
  · rw [if_pos ⟨h1, h2⟩, if_neg (by omega), h3]
  · rw [if_neg (by omega), if_pos ⟨h1, h2⟩, h3]

theorem respelled_key (t u : Str) (h : Respelled t u) :
    ∀ f : Bool, replaceWhiteSpace f (toLowerCase t) = replaceWhiteSpace f (toLowerCase u) := by
  induction h with
  | same t => intro f; rfl
  | letter a b c d hcd =>
    intro f
    rw [toLowerCase_append, toLowerCase_append, toLowerCase_cons, toLowerCase_cons,
      caseVariant_lower c d hcd]
  | space a w v b hw hv hwn hvn =>
    intro f
    rw [toLowerCase_append, toLowerCase_append, toLowerCase_append, toLowerCase_append,
      toLowerCase_allWhite w hw, toLowerCase_allWhite v hv, List.append_assoc, List.append_assoc,
      replaceWhiteSpace_append, replaceWhiteSpace_append (toLowerCase a),
      replaceWhiteSpace_append w, replaceWhiteSpace_append v]
    obtain ⟨h1, h2⟩ := replaceWhiteSpace_allWhite w hw hwn (wsEnd f (toLowerCase a))
    obtain ⟨h3, h4⟩ := replaceWhiteSpace_allWhite v hv hvn (wsEnd f (toLowerCase a))
    rw [h1, h2, h3, h4]
  | step _ _ ih1 ih2 => intro f; rw [ih1 f, ih2 f]

theorem respelled_normalize (t u : Str) (h : Respelled t u) : normalize u = normalize t := by
  unfold normalize
  rw [respelled_key t u h false]

theorem respelled_context (x y : Str) (t u : Str) (h : Respelled t u) :
    Respelled (x ++ t ++ y) (x ++ u ++ y) := by
  induction h with
  | same t => exact Respelled.same _
  | letter a b c d hcd =>
    have e1 : x ++ (a ++ c :: b) ++ y = (x ++ a) ++ c :: (b ++ y) := by simp
    have e2 : x ++ (a ++ d :: b) ++ y = (x ++ a) ++ d :: (b ++ y) := by simp
    rw [e1, e2]
    exact Respelled.letter _ _ c d hcd
  | space a w v b hw hv hwn hvn =>
    have e1 : x ++ (a ++ w ++ b) ++ y = (x ++ a) ++ w ++ (b ++ y) := by simp
    have e2 : x ++ (a ++ v ++ b) ++ y = (x ++ a) ++ v ++ (b ++ y) := by simp
    rw [e1, e2]
    exact Respelled.space _ w v _ hw hv hwn hvn
  | step _ _ ih1 ih2 => exact Respelled.step ih1 ih2

theorem respelled_relevanceText (title title2 description description2 : Str)
    (h1 : Respelled title title2) (h2 : Respelled description description2) :
    relevanceText title2 description2 = relevanceText title description := by
  unfold relevanceText
  apply respelled_normalize
  have s1 := respelled_context [] (lit " " ++ description) title title2 h1
  have s2 := respelled_context (title2 ++ lit " ") [] description description2 h2
  simp only [List.nil_append, List.append_nil, List.append_assoc] at s1 s2 ⊢
  exact Respelled.step s1 s2

/-! ## Normalization: appended text -/

theorem rdropWhile_append_left (p : Nat → Bool) (D : Str) :
    ∀ Y : Str, List.rdropWhile p D <+: List.rdropWhile p (D ++ Y) := by
  intro Y
  induction Y using List.reverseRecOn with
  | nil => rw [List.append_nil]
  | append_singleton Y y ih =>
    rw [← List.append_assoc]
    by_cases hy : p y = true
    · rw [List.rdropWhile_concat_pos _ _ _ hy]; exact ih
    · rw [List.rdropWhile_concat_neg _ _ _ hy, List.append_assoc]
      exact List.IsPrefix.trans ( List.rdropWhile_prefix p D) (List.prefix_append _ _)

theorem trim_append_left (R Y : Str) : trim R <+: trim (R ++ Y) := by
  unfold trim
  rw [List.dropWhile_append]
  split
  · rename_i h
    have : List.dropWhile isWhiteSpace R = [] := by simpa using h
    rw [this]
    simp [List.rdropWhile_nil]
  · exact rdropWhile_append_left _ _ _

theorem normalize_append_left (t x : Str) : normalize t <+: normalize (t ++ x) := by
  unfold normalize
  rw [toLowerCase_append, replaceWhiteSpace_append]
  exact trim_append_left _ _

/-- C15. When `isRelevantApp(id, title, description)` is true, appending an entry of
`POSITIVE_KEYWORDS` to the description leaves it true; indeed appending any text does, since
the normalized old text is the start of the normalized new one. -/
theorem isRelevantApp_append (appId title description : Str)
    (h : isRelevantApp appId title description = true) :
    (∀ p ∈ POSITIVE_KEYWORDS, isRelevantApp appId title (description ++ p) = true) ∧
    (∀ x : Str, isRelevantApp appId title (description ++ x) = true) := by
  have hall : ∀ x : Str, isRelevantApp appId title (description ++ x) = true := by
    intro x
    rw [isRelevantApp_eq] at h ⊢
    simp only [Bool.and_eq_true, Bool.not_eq_true', decide_eq_true_eq] at h ⊢
    refine ⟨h.1, Nat.le_trans h.2 ?_⟩
    unfold positiveHits
    apply List.countP_mono_left
    intro pos _ hpos
    simp only [decide_eq_true_eq] at hpos ⊢
    have hpre : relevanceText title description <+: relevanceText title (description ++ x) := by
      unfold relevanceText
      have := normalize_append_left (title ++ lit " " ++ description) x
      simpa [List.append_assoc] using this
    exact hpos.trans hpre.isInfix
  exact ⟨fun p _ => hall p, hall⟩
set_option maxRecDepth 100000 in
theorem matchWords_normal :
    ∀ w ∈ matchWords, normalize w = w ∧ includes (normalize w) w = true := by
  decide

/-- C20. Matching ignores case and spacing: `normalize` is idempotent; when a text is
respelled by changing the case of ASCII letters and by replacing runs of white space with
other non-empty runs, every matching word of the source occurs in the normalized respelling
exactly when it occurs in the normalized original, so the `isRelevantApp` result (for a
respelled title and description), the `hitThemes` vectors over `PRAISE` and over `COMPLAINT`
and the fixed-word test stay the same; and every keyword and theme word of the source is a
fixed point of `normalize` that matches itself. -/
theorem matching_normalized :
    (∀ s, normalize (normalize s) = normalize s) ∧
    (∀ t u, Respelled t u →
      ∀ w ∈ matchWords, includes (normalize u) w = includes (normalize t) w) ∧
    (∀ appId title title2 description description2,
      Respelled title title2 → Respelled description description2 →
      isRelevantApp appId title2 description2 = isRelevantApp appId title description) ∧
    (∀ t u, Respelled t u →
      hitThemes u PRAISE = hitThemes t PRAISE ∧
      hitThemes u COMPLAINT = hitThemes t COMPLAINT ∧
      FIXED_WORDS.any (fun w => includes (normalize u) w) =
        FIXED_WORDS.any (fun w => includes (normalize t) w)) ∧
    (∀ w ∈ matchWords, normalize w = w ∧ includes (normalize w) w = true) := by
  refine ⟨normalize_idem, ?_, ?_, ?_, matchWords_normal⟩
  · intro t u h w _
    rw [respelled_normalize t u h]
  · intro appId title title2 description description2 h1 h2
    rw [isRelevantApp_eq, isRelevantApp_eq,
      respelled_relevanceText title title2 description description2 h1 h2]
  · intro t u h
    refine ⟨?_, ?_, ?_⟩
    · unfold hitThemes
      rw [respelled_normalize t u h]
    · unfold hitThemes
      rw [respelled_normalize t u h]
    · rw [respelled_normalize t u h]

/-! ## Normalization keeps the words it can match -/

theorem trim_head_not_white (x : Str) (c : Nat) (cs : Str) (h : trim x = c :: cs) :
    isWhiteSpace c = false := by
  unfold trim at h
  obtain ⟨t, ht⟩ := List.rdropWhile_prefix isWhiteSpace (List.dropWhile isWhiteSpace x)
  rw [h] at ht
  by_contra hc
  have hc2 : isWhiteSpace c = true := by simpa using hc
  have hd : List.dropWhile isWhiteSpace (List.dropWhile isWhiteSpace x) =
      List.dropWhile isWhiteSpace x := List.dropWhile_idempotent _ _
  rw [← ht, List.cons_append, List.dropWhile_cons, if_pos hc2] at hd
  have hlen := congrArg List.length hd
  have hsuf : (List.dropWhile isWhiteSpace (cs ++ t)).length ≤ (cs ++ t).length :=
    (List.dropWhile_suffix isWhiteSpace).length_le
  simp only [List.length_cons] at hlen
  omega

theorem trim_last_not_white (x : Str) (cs : Str) (c : Nat) (h : trim x = cs ++ [c]) :
    isWhiteSpace c = false := by
  unfold trim at h
  have hne : List.rdropWhile isWhiteSpace (List.dropWhile isWhiteSpace x) ≠ [] := by
    rw [h]; simp
  have := List.rdropWhile_last_not isWhiteSpace (List.dropWhile isWhiteSpace x) hne
  simp only [h, List.getLast_append_singleton] at this
  simpa using this

/-- A word as the source lists them: not empty and a fixed point of `normalize`. -/
theorem word_shape (w : Str) (hn : normalize w = w) (hne : w ≠ []) :
    toLowerCase w = w ∧ (∀ f, replaceWhiteSpace f w = w) ∧
    (∃ c cs, w = c :: cs ∧ isWhiteSpace c = false) ∧
    (∃ cs c, w = cs ++ [c] ∧ isWhiteSpace c = false) := by
  have hlow : toLowerCase w = w := by
    conv_lhs => rw [← hn]
    unfold normalize
    rw [toLowerCase_trim, toLowerCase_replaceWhiteSpace, toLowerCase_idem]
    exact hn
  have hcol : Collapsed w := by
    rw [← hn]
    exact Collapsed.of_contiguous (collapsed_replaceWhiteSpace (toLowerCase w) false).1
      (trim_contiguous _)
  have hhead : ∃ c cs, w = c :: cs ∧ isWhiteSpace c = false := by
    cases hw : w with
    | nil => exact absurd hw hne
    | cons c cs =>
      refine ⟨c, cs, rfl, ?_⟩
      apply trim_head_not_white (replaceWhiteSpace false (toLowerCase w)) c cs
      show normalize w = c :: cs
      rw [hn, hw]
  have hlast : ∃ cs c, w = cs ++ [c] ∧ isWhiteSpace c = false := by
    rcases List.eq_nil_or_concat w with h | ⟨cs, c, h⟩
    · exact absurd h hne
    · rw [List.concat_eq_append] at h
      refine ⟨cs, c, h, ?_⟩
      apply trim_last_not_white (replaceWhiteSpace false (toLowerCase w)) cs c
      show normalize w = cs ++ [c]
      rw [hn, h]
  refine ⟨hlow, ?_, hhead, hlast⟩
  intro f
  obtain ⟨h1, h2⟩ := replaceWhiteSpace_of_collapsed w hcol
  cases f with
  | false => exact h1
  | true =>
    apply h2
    obtain ⟨c, cs, hw, hc⟩ := hhead
    intro y hy
    rw [hw] at hy
    simp only [List.head?_cons, Option.mem_def, Option.some.injEq] at hy
    rw [← hy]; exact hc

theorem dropWhile_append_head (c : Nat) (z : Str) (hc : isWhiteSpace c = false) :
    ∀ P : Str, ∃ P2, List.dropWhile isWhiteSpace (P ++ c :: z) = P2 ++ c :: z := by
  intro P
  induction P with
  | nil => exact ⟨[], by simp [List.dropWhile_cons, hc]⟩
  | cons p P ih =>
    rw [List.cons_append, List.dropWhile_cons]
    by_cases hp : isWhiteSpace p = true
    · rw [if_pos hp]; exact ih
    · rw [if_neg hp]; exact ⟨p :: P, rfl⟩

theorem rdropWhile_append_last (z : Str) (d : Nat) (hd : isWhiteSpace d = false) :
    ∀ Q : Str, ∃ Q2, List.rdropWhile isWhiteSpace (z ++ [d] ++ Q) = z ++ [d] ++ Q2 := by
  intro Q
  induction Q using List.reverseRecOn with
  | nil =>
    refine ⟨[], ?_⟩
    rw [List.append_nil, List.rdropWhile_concat_neg _ _ _ (by simp [hd])]
  | append_singleton Q q ih =>
    rw [← List.append_assoc]
    by_cases hq : isWhiteSpace q = true
    · rw [List.rdropWhile_concat_pos _ _ _ hq]; exact ih
    · rw [List.rdropWhile_concat_neg _ _ _ hq]; exact ⟨Q ++ [q], by simp⟩

theorem trim_keeps_word (w : Str)
    (hhead : ∃ c cs, w = c :: cs ∧ isWhiteSpace c = false)
    (hlast : ∃ cs c, w = cs ++ [c] ∧ isWhiteSpace c = false) (P Q : Str) :
    w <:+: trim (P ++ (w ++ Q)) := by
  obtain ⟨c, cs, hw1, hc⟩ := hhead
  obtain ⟨ds, d, hw2, hd⟩ := hlast
  unfold trim
  obtain ⟨P2, hP2⟩ := dropWhile_append_head c (cs ++ Q) hc P
  have e1 : P ++ (w ++ Q) = P ++ c :: (cs ++ Q) := by rw [hw1]; simp
  rw [e1, hP2]
  have e2 : P2 ++ c :: (cs ++ Q) = (P2 ++ ds) ++ [d] ++ Q := by
    have : c :: cs = ds ++ [d] := by rw [← hw1, hw2]
    calc P2 ++ c :: (cs ++ Q) = P2 ++ ((c :: cs) ++ Q) := by simp
      _ = P2 ++ ((ds ++ [d]) ++ Q) := by rw [this]
      _ = (P2 ++ ds) ++ [d] ++ Q := by simp
  rw [e2]
  obtain ⟨Q2, hQ2⟩ := rdropWhile_append_last (P2 ++ ds) d hd Q
  rw [hQ2]
  refine ⟨P2, Q2, ?_⟩
  rw [hw2]; simp

theorem normalize_keeps_word (w t : Str) (hn : normalize w = w) (hne : w ≠ [])
    (h : w <:+: t) : w <:+: normalize t := by
  obtain ⟨hlow, hrep, hhead, hlast⟩ := word_shape w hn hne
  obtain ⟨a, b, hab⟩ := h
  rw [← hab]
  unfold normalize
  rw [List.append_assoc, toLowerCase_append, toLowerCase_append, hlow, replaceWhiteSpace_append,
    replaceWhiteSpace_append w, hrep]
  exact trim_keeps_word w hhead hlast _ _
/-! ## The aggregation scenario -/

theorem countThemes_examples_get (reviews : List Review) (key : Str) :
    Dict.get (countThemes reviews).examples key =
      ((themeLoop reviews).examples.get key).map (fun l => l.map (fun e => e.text)) := by
  show Dict.get ((themeLoop reviews).examples.map
    (fun p => (p.1, p.2.map (fun e => e.text)))) key = _
  exact Dict.get_map_snd (themeLoop reviews).examples
    (fun l : List Example => l.map (fun e => e.text)) key

theorem countThemes_examples_mem (reviews : List Review) (key : Str) (texts : List Str)
    (h : (key, texts) ∈ (countThemes reviews).examples) :
    texts = (storedExamples reviews key).map (fun e => e.text) := by
  have hmem : (key, texts) ∈
      (themeLoop reviews).examples.map (fun p => (p.1, p.2.map (fun e => e.text))) := h
  rw [List.mem_map] at hmem
  obtain ⟨⟨k, entries⟩, hin, heq⟩ := hmem
  simp only [Prod.mk.injEq] at heq
  obtain ⟨hk, ht⟩ := heq
  subst hk
  have hget := Dict.get_of_mem _ _ _ (themeLoop_examples_nodup reviews) hin
  unfold storedExamples
  rw [hget, ← ht]
  rfl

theorem top_keys_nodup (dict : Dict (List Str)) (hnd : dict.keys.Nodup) (f : List Str → Nat)
    (n : Nat) (hlen : dict.length ≤ n) :
    Dict.keys (top (dict.map (fun p => (p.1, f p.2))) n) |>.Nodup := by
  have hp := top_perm (dict.map (fun p => (p.1, f p.2))) n (by simpa using hlen)
  have hk := hp.map Prod.fst
  have e : (dict.map (fun p => (p.1, f p.2))).map Prod.fst = dict.keys :=
    Dict.keys_map_snd dict f
  rw [e] at hk
  exact (hk.nodup_iff).mpr hnd

/-- C17. For reviews `[r1, r2]` where the text of `r1` has 100 to 500 code units and contains
"withdrawal failed" and the text of `r2` is "ok", `countThemes` reports
`reviewCountUsed = 2`, the count 1 for the complaint label `withdrawal_issues`, the one-element
example list holding the text of `r1` unchanged under `complaint:withdrawal_issues`, and "ok"
in no example list. -/
theorem scenario_withdrawal (r1 r2 : Review) (t : Str)
    (h1 : r1.text = some t) (hmin : 100 ≤ t.length) (hmax : t.length ≤ 500)
    (hw : lit "withdrawal failed" <:+: t) (h2 : r2.text = some (lit "ok")) :
    (countThemes [r1, r2]).reviewCountUsed = 2 ∧
    Dict.get (countThemes [r1, r2]).topComplaints (lit "withdrawal_issues") = some 1 ∧
    Dict.get (countThemes [r1, r2]).examples (lit "complaint:withdrawal_issues") = some [t] ∧
    ∀ key texts, (key, texts) ∈ (countThemes [r1, r2]).examples → lit "ok" ∉ texts := by
  have htne : t ≠ [] := by
    intro e; rw [e] at hmin; simp at hmin
  have body1 : r1.body = t := by
    unfold Review.body strOr
    rw [h1]; simp [htne]
  have body2 : r2.body = lit "ok" := by
    unfold Review.body
    rw [h2]
    have : (lit "ok" = []) = False := by decide
    simp [strOr, this]
  have hinc : includes (normalize t) (lit "withdrawal failed") = true := by
    rw [includes_iff_substring]
    exact normalize_keeps_word _ _ (by decide) (by decide) hw
  have hits1 : hitsWords withdrawalWords r1 = true := by
    unfold hitsWords
    rw [body1, List.any_eq_true]
    exact ⟨lit "withdrawal failed", by decide, hinc⟩
  have hits2 : hitsWords withdrawalWords r2 = false := by
    unfold hitsWords
    rw [body2]
    decide
  have hcount : [r1, r2].countP (hitsWords withdrawalWords) = 1 := by
    simp [List.countP_cons, hits1, hits2]
  obtain ⟨-, hcc, -⟩ := themeLoop_counts [r1, r2]
  have hkey1 : hitsKey (lit "complaint:withdrawal_issues") r1 = true := by
    unfold hitsKey
    have : Dict.get exampleSlots (lit "complaint:withdrawal_issues") = some withdrawalWords := by
      decide
    rw [this]; exact hits1
  have hkey2 : hitsKey (lit "complaint:withdrawal_issues") r2 = false := by
    unfold hitsKey
    have : Dict.get exampleSlots (lit "complaint:withdrawal_issues") = some withdrawalWords := by
      decide
    rw [this]; exact hits2
  have hstored : storedExamples [r1, r2] (lit "complaint:withdrawal_issues") =
      [{ text := t, length := t.length, score := r1.stars }] := by
    rw [storedExamples_eq]
    simp only [List.filter_cons, hkey1, hkey2, if_true, Bool.false_eq_true, if_false,
      List.filter_nil, List.foldl_cons, List.foldl_nil]
    rw [body1]
    unfold pushList
    have h100 : CONFIG.minReviewLength = 100 := rfl
    have h15 : CONFIG.examplesPerCategory = 15 := rfl
    rw [if_neg (by omega), if_pos (by rw [h15]; simp), List.take_of_length_le hmax]
    rfl
  refine ⟨rfl, ?_, ?_, ?_⟩
  · have hmem : (lit "withdrawal_issues", 1) ∈ (countThemes [r1, r2]).topComplaints := by
      show (lit "withdrawal_issues", 1) ∈ top (themeLoop [r1, r2]).complaintCounts 10
      rw [hcc]
      apply (top_perm _ _ (by simp [themeCounts]; decide)).symm.subset
      simp only [themeCounts, List.mem_map]
      refine ⟨(lit "withdrawal_issues", withdrawalWords), by decide, ?_⟩
      simp only [hcount]
    apply Dict.get_of_mem _ _ _ _ hmem
    show Dict.keys (top (themeLoop [r1, r2]).complaintCounts 10) |>.Nodup
    rw [hcc]
    exact top_keys_nodup COMPLAINT COMPLAINT_keys_nodup
      (fun w => [r1, r2].countP (hitsWords w)) 10 (by decide)
  · rw [countThemes_examples_get]
    have hget : (themeLoop [r1, r2]).examples.get (lit "complaint:withdrawal_issues") =
        some [{ text := t, length := t.length, score := r1.stars }] := by
      unfold storedExamples at hstored
      cases hg : (themeLoop [r1, r2]).examples.get (lit "complaint:withdrawal_issues") with
      | none => rw [hg] at hstored; cases hstored
      | some l => rw [hg] at hstored; simpa using hstored
    rw [hget]
    rfl
  · intro key texts hmem hok
    rw [countThemes_examples_mem _ _ _ hmem, List.mem_map] at hok
    obtain ⟨e, he, hte⟩ := hok
    obtain ⟨r, -, -, hlen, hmade, -⟩ := (storedExamples_shape [r1, r2] key).2 e he
    have hlen2 : 100 ≤ r.body.length := hlen
    have : (lit "ok").length = 2 := by decide
    rw [← hte, hmade, List.length_take] at this
    omega
/-! ## Appending a negative keyword as a separate word -/

theorem infix_append_cases (p X Y : Str) (h : p <:+: X ++ Y) :
    p <:+: X ∨ p <:+: Y ∨
      ∃ u v, u ≠ [] ∧ v ≠ [] ∧ p = u ++ v ∧ u <:+ X ∧ v <+: Y := by
  obtain ⟨a, b, hab⟩ := h
  rw [List.append_assoc] at hab
  rcases List.append_eq_append_iff.mp hab with ⟨a2, hX, hpb⟩ | ⟨c2, _, hY⟩
  · rcases List.append_eq_append_iff.mp hpb with ⟨d, ha2, _⟩ | ⟨d, hp, hY⟩
    · left
      exact ⟨a, d, by rw [hX, ha2]; simp⟩
    · by_cases hd : d = []
      · subst hd
        rw [List.append_nil] at hp
        left
        exact ⟨a, [], by rw [hX, hp]; simp⟩
      · by_cases ha2 : a2 = []
        · subst ha2
          right; left
          rw [List.nil_append] at hp
          exact ⟨[], b, by rw [hp, hY]; simp⟩
        · right; right
          exact ⟨a2, d, ha2, hd, hp, ⟨a, hX.symm⟩, ⟨b, hY.symm⟩⟩
  · right; left
    exact ⟨c2, b, by rw [hY]; simp⟩

theorem infix_rdropWhile (ps : Str) (d : Nat) (hd : isWhiteSpace d = false) :
    ∀ D : Str, ps ++ [d] <:+: D → ps ++ [d] <:+: List.rdropWhile isWhiteSpace D := by
  intro D
  induction D using List.reverseRecOn with
  | nil => intro h; simp at h
  | append_singleton D x ih =>
    intro h
    by_cases hx : isWhiteSpace x = true
    · rw [List.rdropWhile_concat_pos _ _ _ hx]
      rcases List.infix_concat_iff.mp h with hs | hi
      · obtain ⟨s, hs⟩ := hs
        have h1 := congrArg List.getLast? hs
        rw [← List.append_assoc, List.getLast?_concat, List.getLast?_concat] at h1
        cases h1
        rw [hx] at hd; cases hd
      · exact ih hi
    · rw [List.rdropWhile_concat_neg _ _ _ hx]; exact h

theorem dropWhile_append_word (c : Nat) (z : Str) (hc : isWhiteSpace c = false) :
    ∀ P : Str, List.dropWhile isWhiteSpace (P ++ c :: z) =
      List.dropWhile isWhiteSpace P ++ c :: z := by
  intro P
  induction P with
  | nil => simp [List.dropWhile_cons, hc]
  | cons p P ih =>
    rw [List.cons_append, List.dropWhile_cons, List.dropWhile_cons]
    by_cases hp : isWhiteSpace p = true
    · rw [if_pos hp, if_pos hp]; exact ih
    · rw [if_neg hp, if_neg hp]; rfl

theorem replaceWhiteSpace_ends (A : Str) :
    wsEnd false A = true → ∃ R, replaceWhiteSpace false A = R ++ [32] := by
  induction A using List.reverseRecOn with
  | nil => intro h; cases h
  | append_singleton A x ih =>
    intro h
    rw [wsEnd_concat] at h
    rw [replaceWhiteSpace_append]
    have hx : AllWhite [x] := by
      intro y hy
      rw [List.mem_singleton] at hy
      rw [hy]; exact h
    obtain ⟨h1, _⟩ := replaceWhiteSpace_allWhite [x] hx (by simp) (wsEnd false A)
    rw [h1]
    cases hg : wsEnd false A with
    | true =>
      obtain ⟨R, hR⟩ := ih hg
      exact ⟨R, by rw [hR]; simp⟩
    | false => exact ⟨replaceWhiteSpace false A, by simp⟩

/-- The normal form of a text that ends in white space, followed by a word: the old normal
form, white space, and the word. -/
theorem normalize_append_word (T0 : Str) (c : Nat) (n : Str) (hc : isWhiteSpace c = true)
    (hn : normalize n = n) (hne : n ≠ []) :
    ∃ D, normalize (T0 ++ [c] ++ n) = D ++ n ∧
      normalize (T0 ++ [c]) = List.rdropWhile isWhiteSpace D ∧
      ∀ u, u ≠ [] → u <:+ D → ∃ u2 x, u = u2 ++ [x] ∧ isWhiteSpace x = true := by
  obtain ⟨hlow, hrep, ⟨c1, cs, hn1, hc1⟩, ⟨ds, d, hn2, hd⟩⟩ := word_shape n hn hne
  refine ⟨List.dropWhile isWhiteSpace (replaceWhiteSpace false (toLowerCase (T0 ++ [c]))),
    ?_, rfl, ?_⟩
  · unfold normalize trim
    rw [toLowerCase_append, hlow, replaceWhiteSpace_append, hrep]
    have e1 : replaceWhiteSpace false (toLowerCase (T0 ++ [c])) ++ n =
        replaceWhiteSpace false (toLowerCase (T0 ++ [c])) ++ c1 :: cs := by rw [hn1]
    rw [e1, dropWhile_append_word c1 cs hc1, ← hn1]
    have e2 : List.dropWhile isWhiteSpace (replaceWhiteSpace false (toLowerCase (T0 ++ [c]))) ++ n =
        (List.dropWhile isWhiteSpace (replaceWhiteSpace false (toLowerCase (T0 ++ [c]))) ++ ds)
          ++ [d] := by rw [hn2]; simp
    rw [e2, List.rdropWhile_concat_neg _ _ _ (by simp [hd])]
  · intro u hu hsuf
    have hend : wsEnd false (toLowerCase (T0 ++ [c])) = true := by
      rw [toLowerCase_append]
      show wsEnd false (toLowerCase T0 ++ [if 65 ≤ c ∧ c ≤ 90 then c + 32 else c]) = true
      rw [wsEnd_concat, isWhiteSpace_lower]; exact hc
    obtain ⟨R, hR⟩ := replaceWhiteSpace_ends _ hend
    have hsufR : u <:+ R ++ [32] := by
      rw [← hR]
      exact hsuf.trans (List.dropWhile_suffix isWhiteSpace)
    rcases List.eq_nil_or_concat u with h0 | ⟨u2, x, hux⟩
    · exact absurd h0 hu
    · rw [List.concat_eq_append] at hux
      refine ⟨u2, x, hux, ?_⟩
      obtain ⟨s, hs⟩ := hsufR
      have h1 := congrArg List.getLast? hs
      rw [hux, ← List.append_assoc, List.getLast?_concat, List.getLast?_concat] at h1
      cases h1
      decide

theorem straddles_of_split (u2 v n : Str) (x : Nat) (hx : isWhiteSpace x = true) (hv : v ≠ [])
    (hpre : v <+: n) : straddles (u2 ++ [x] ++ v) n = true := by
  unfold straddles
  rw [List.any_eq_true]
  refine ⟨u2.length, ?_, ?_⟩
  · rw [List.mem_range]; simp
  · have hget : (u2 ++ [x] ++ v).getD u2.length 0 = x := by
      rw [List.append_assoc, List.getD_eq_getElem?_getD,
        List.getElem?_append_right (Nat.le_refl _)]
      simp
    have hdrop : (u2 ++ [x] ++ v).drop (u2.length + 1) = v := by
      have : (u2 ++ [x]).length = u2.length + 1 := by simp
      rw [← this, List.drop_left]
    rw [hget, hdrop, hx]
    simp [hv, List.isPrefixOf_iff_prefix.mpr hpre]

set_option maxRecDepth 100000 in
theorem negative_words_checked :
    (∀ n ∈ NEGATIVE_KEYWORDS, normalize n = n ∧ n ≠ [] ∧
      POSITIVE_KEYWORDS.countP (fun p => decide (p <:+: n)) ≤ 1) ∧
    (∀ p ∈ POSITIVE_KEYWORDS, normalize p = p ∧ p ≠ []) := by
  decide

set_option maxRecDepth 100000 in
theorem no_straddling :
    ∀ p ∈ POSITIVE_KEYWORDS, ∀ n ∈ NEGATIVE_KEYWORDS, straddles p n = false := by
  decide

theorem positiveHits_append_negative (T0 : Str) (c : Nat) (n : Str)
    (hc : isWhiteSpace c = true) (hn : n ∈ NEGATIVE_KEYWORDS)
    (hpos : positiveHits (normalize (T0 ++ [c])) = 0) :
    positiveHits (normalize (T0 ++ [c] ++ n)) ≤ 1 := by
  obtain ⟨hnn, hne, hcount⟩ := negative_words_checked.1 n hn
  obtain ⟨D, hnew, hold, hlast⟩ := normalize_append_word T0 c n hc hnn hne
  refine Nat.le_trans ?_ hcount
  unfold positiveHits
  apply List.countP_mono_left
  intro p hp hin
  simp only [decide_eq_true_eq] at hin ⊢
  obtain ⟨hpn, hpne⟩ := negative_words_checked.2 p hp
  obtain ⟨-, -, -, ⟨ps, d, hpd, hd⟩⟩ := word_shape p hpn hpne
  have hnot : ¬ p <:+: normalize (T0 ++ [c]) := by
    intro hc2
    unfold positiveHits at hpos
    rw [List.countP_eq_zero] at hpos
    exact hpos p hp (by simpa using hc2)
  rw [hnew] at hin
  rcases infix_append_cases p D n hin with h | h | ⟨u, v, hu, hv, hpuv, hsuf, hpre⟩
  · exfalso
    apply hnot
    rw [hold, hpd]
    exact infix_rdropWhile ps d hd D (hpd ▸ h)
  · exact h
  · exfalso
    obtain ⟨u2, x, hux, hx⟩ := hlast u hu hsuf
    have hs := straddles_of_split u2 v n x hx hv hpre
    rw [← hux, ← hpuv, no_straddling p hp n hn] at hs
    cases hs

/-- C16 (as amended). When the normalized text contains no entry of `POSITIVE_KEYWORDS` and
the description is empty or ends in white space, appending an entry of `NEGATIVE_KEYWORDS` to
the description never makes the app relevant. -/
theorem isRelevantApp_append_negative (appId title description n : Str)
    (hpos : positiveHits (relevanceText title description) = 0)
    (hn : n ∈ NEGATIVE_KEYWORDS)
    (hend : description = [] ∨ ∃ d c, description = d ++ [c] ∧ isWhiteSpace c = true) :
    isRelevantApp appId title (description ++ n) = false := by
  have key : positiveHits (relevanceText title (description ++ n)) ≤ 1 := by
    unfold relevanceText at hpos ⊢
    rcases hend with h | ⟨d, c, h, hc⟩
    · subst h
      have e1 : title ++ lit " " ++ ([] ++ n) = title ++ [32] ++ n := by
        have : lit " " = [32] := by decide
        rw [this]; simp
      have e2 : title ++ lit " " ++ [] = title ++ [32] := by
        have : lit " " = [32] := by decide
        rw [this]; simp
      rw [e1]
      rw [e2] at hpos
      exact positiveHits_append_negative title 32 n (by decide) hn hpos
    · subst h
      have e1 : title ++ lit " " ++ (d ++ [c] ++ n) = (title ++ lit " " ++ d) ++ [c] ++ n := by
        simp
      have e2 : title ++ lit " " ++ (d ++ [c]) = (title ++ lit " " ++ d) ++ [c] := by simp
      rw [e1]
      rw [e2] at hpos
      exact positiveHits_append_negative _ c n hc hn hpos
  rw [isRelevantApp_eq]
  have : decide (2 ≤ positiveHits (relevanceText title (description ++ n))) = false := by
    simp only [decide_eq_false_iff_not]; omega
  rw [this]; simp

/-- C16, the claim as stated fails: the text "paypa" contains no positive keyword, and with
the negative keyword "language learning" appended it reads "paypalanguage learning", which
contains "paypal" and "earn". -/
theorem isRelevantApp_append_negative_counterexample :
    positiveHits (relevanceText [] (lit "paypa")) = 0 ∧
    lit "language learning" ∈ NEGATIVE_KEYWORDS ∧
    isRelevantApp (lit "com.x.app") [] (lit "paypa" ++ lit "language learning") = true := by
  decide
/-! ## Pagination: number of requests and size of the result -/

theorem fetchLoop_requests (src : ReviewSource) (max : Nat) :
    ∀ (fuel : Nat) (all : List Review) (tok : Option Str) (made : List ReviewsRequest),
      max - all.length ≤ fuel →
      ∃ out reqs, fetchLoop src max fuel all tok made = some (out, reqs) ∧
        reqs.length ≤ made.length + (max - all.length) ∧
        reqs.length + all.length ≤ made.length + out.length + 1 := by
  intro fuel
  induction fuel with
  | zero =>
    intro all tok made h
    have hlt : ¬ all.length < max := by omega
    refine ⟨all, made, by simp [fetchLoop, hlt], by omega, by omega⟩
  | succ fuel ih =>
    intro all tok made h
    unfold fetchLoop
    by_cases hlt : all.length < max
    · simp only [hlt, if_true]
      cases hsrc : src made { num := min 200 (max - all.length), nextPaginationToken := tok } with
      | none =>
        refine ⟨all, _, rfl, ?_, ?_⟩
        · rw [List.length_append, List.length_singleton]; omega
        · rw [List.length_append, List.length_singleton]; omega
      | some res =>
        simp only
        split
        · refine ⟨_, _, rfl, ?_, ?_⟩
          · rw [List.length_append, List.length_singleton]; omega
          · rw [List.length_append, List.length_singleton, List.length_append]; omega
        · rename_i hcont
          simp only [Bool.or_eq_true, Bool.not_eq_true', beq_iff_eq, not_or] at hcont
          have hdata := hcont.2
          obtain ⟨out, reqs, hrun, h1, h2⟩ := ih (all ++ res.data.getD [])
            res.nextPaginationToken
            (made ++ [{ num := min 200 (max - all.length), nextPaginationToken := tok }])
            (by rw [List.length_append]; omega)
          refine ⟨out, reqs, hrun, ?_, ?_⟩
          · simp only [List.length_append, List.length_singleton] at h1
            omega
          · simp only [List.length_append, List.length_singleton] at h2
            omega
    · simp only [hlt, if_false]
      exact ⟨all, made, rfl, by omega, by omega⟩

/-- C21. Whatever the source does (any pages, any tokens, any errors), `fetchReviews` returns,
and it does so after at most `max` page requests: every request but the last one adds at
least one item, so the number of requests is also at most the number of returned items plus
one. -/
theorem fetchReviews_terminates (src : ReviewSource) (max : Nat) :
    ∃ out reqs, fetchReviewsRun src max = some (out, reqs) ∧
      fetchReviews src max = some out ∧
      reqs.length ≤ max ∧ reqs.length ≤ out.length + 1 := by
  obtain ⟨out, reqs, hrun, h1, h2⟩ := fetchLoop_requests src max max [] none [] (by simp)
  have hrun2 : fetchReviewsRun src max = some (out, reqs) := hrun
  refine ⟨out, reqs, hrun2, by simp [fetchReviews, hrun2], ?_, ?_⟩
  · simpa using h1
  · simpa using h2

theorem fetchLoop_capacity (src : ReviewSource) (max : Nat) (h : HonoursNum src) :
    ∀ (fuel : Nat) (all : List Review) (tok : Option Str) (made : List ReviewsRequest),
      all.length ≤ max → max - all.length ≤ fuel →
      ∃ out reqs, fetchLoop src max fuel all tok made = some (out, reqs) ∧ out.length ≤ max := by
  intro fuel
  induction fuel with
  | zero =>
    intro all tok made hle hfuel
    have hlt : ¬ all.length < max := by omega
    exact ⟨all, made, by simp [fetchLoop, hlt], hle⟩
  | succ fuel ih =>
    intro all tok made hle hfuel
    unfold fetchLoop
    by_cases hlt : all.length < max
    · simp only [hlt, if_true]
      cases hsrc : src made { num := min 200 (max - all.length), nextPaginationToken := tok } with
      | none => exact ⟨all, _, rfl, hle⟩
      | some res =>
        have hnum := h made _ res hsrc
        simp only at hnum
        have hfit : (all ++ res.data.getD []).length ≤ max := by
          rw [List.length_append]; omega
        simp only
        split
        · exact ⟨_, _, rfl, hfit⟩
        · rename_i hcont
          simp only [Bool.or_eq_true, Bool.not_eq_true', beq_iff_eq, not_or] at hcont
          have hdata := hcont.2
          exact ih _ _ _ hfit (by rw [List.length_append]; omega)
    · simp only [hlt, if_false]
      exact ⟨all, made, rfl, hle⟩

theorem listSource_honoursNum (L : List Review) : HonoursNum (listSource L) := by
  intro made req res hres
  unfold listSource at hres
  simp only [Option.some.injEq] at hres
  rw [← hres]
  simp only [Option.getD_some, List.length_take]
  omega

/-- C22 (as amended). When no page carries more items than the `num` requested, the list that
`fetchReviews` returns has at most `max` items. -/
theorem fetchReviews_capacity (src : ReviewSource) (max : Nat) (h : HonoursNum src) :
    ∃ out, fetchReviews src max = some out ∧ out.length ≤ max := by
  obtain ⟨out, reqs, hrun, hlen⟩ :=
    fetchLoop_capacity src max h max [] none [] (by simp) (by simp)
  have hrun2 : fetchReviewsRun src max = some (out, reqs) := hrun
  exact ⟨out, by simp [fetchReviews, hrun2], hlen⟩

/-- C22, the claim as stated fails: with `max = 1`, a source that answers the request for one
item with a page of two items makes `fetchReviews` return two items. -/
theorem fetchReviews_capacity_counterexample :
    fetchReviews greedySource 1 =
      some [⟨some (lit "nice"), none, some 5, none⟩, ⟨some (lit "great"), none, some 4, none⟩] ∧
    ¬ (∃ out, fetchReviews greedySource 1 = some out ∧ out.length ≤ 1) := by
  constructor
  · decide
  · rintro ⟨out, hout, hlen⟩
    have h : fetchReviews greedySource 1 =
        some [⟨some (lit "nice"), none, some 5, none⟩,
          ⟨some (lit "great"), none, some 4, none⟩] := by decide
    rw [h] at hout
    cases hout
    simp at hlen

theorem fetchReviews_capacity_witness :
    ∃ out, fetchReviews
      (listSource [⟨some (lit "a"), none, none, none⟩, ⟨some (lit "b"), none, none, none⟩]) 1 =
        some out ∧ out.length ≤ 1 :=
  fetchReviews_capacity _ 1 (listSource_honoursNum _)

/-! ## Overlapping words -/

theorem overlapPhrases_checked :
    ∀ ph ∈ overlapPhrases, ph ∈ withdrawalWords ∧ ∃ w ∈ paysWords, w <:+: ph := by
  decide

theorem overlap_hits (r : Review) (h : hasOverlapPhrase r = true) :
    hitsWords withdrawalWords r = true ∧ hitsWords paysWords r = true := by
  unfold hasOverlapPhrase at h
  rw [List.any_eq_true] at h
  obtain ⟨ph, hph, hinc⟩ := h
  obtain ⟨hw, w, hwp, hsub⟩ := overlapPhrases_checked ph hph
  unfold hitsWords
  constructor
  · rw [List.any_eq_true]; exact ⟨ph, hw, hinc⟩
  · rw [List.any_eq_true]
    refine ⟨w, hwp, ?_⟩
    rw [includes_iff_substring] at hinc ⊢
    exact hsub.trans hinc

/-- C24. A review whose normalized text contains "withdrawal failed", "can't withdraw",
"can't redeem" or "waiting for payment" hits the complaint label `withdrawal_issues` and
also the praise label `pays_reliably`; so in every review list both reported counts are at
least the number of such reviews. -/
theorem overlap_counted_twice (reviews : List Review) :
    (∀ r, hasOverlapPhrase r = true →
      hitsWords withdrawalWords r = true ∧ hitsWords paysWords r = true) ∧
    (∃ c, (lit "withdrawal_issues", c) ∈ (countThemes reviews).topComplaints ∧
      c = reviews.countP (hitsWords withdrawalWords) ∧ reviews.countP hasOverlapPhrase ≤ c) ∧
    (∃ c, (lit "pays_reliably", c) ∈ (countThemes reviews).topPraises ∧
      c = reviews.countP (hitsWords paysWords) ∧ reviews.countP hasOverlapPhrase ≤ c) := by
  obtain ⟨hpc, hcc, -⟩ := themeLoop_counts reviews
  refine ⟨overlap_hits, ?_, ?_⟩
  · refine ⟨_, ?_, rfl, ?_⟩
    · show _ ∈ top (themeLoop reviews).complaintCounts 10
      rw [hcc]
      apply (top_perm _ _ (by simp [themeCounts]; decide)).symm.subset
      simp only [themeCounts, List.mem_map]
      exact ⟨(lit "withdrawal_issues", withdrawalWords), by decide, rfl⟩
    · exact List.countP_mono_left (fun r _ hr => (overlap_hits r hr).1)
  · refine ⟨_, ?_, rfl, ?_⟩
    · show _ ∈ top (themeLoop reviews).praiseCounts 10
      rw [hpc]
      apply (top_perm _ _ (by simp [themeCounts]; decide)).symm.subset
      simp only [themeCounts, List.mem_map]
      exact ⟨(lit "pays_reliably", paysWords), by decide, rfl⟩
    · exact List.countP_mono_left (fun r _ hr => (overlap_hits r hr).2)

theorem two_hits {α : Type} [DecidableEq α] (l : List α) (p : α → Bool) (a b : α)
    (ha : a ∈ l) (hb : b ∈ l) (hab : a ≠ b) (hpa : p a = true) (hpb : p b = true) :
    2 ≤ l.countP p := by
  rw [List.countP_eq_length_filter]
  have hnd : [a, b].Nodup := by simp [hab]
  have hsub : [a, b] ⊆ l.filter p := by
    intro x hx
    simp only [List.mem_cons, List.mem_singleton, List.not_mem_nil, or_false] at hx
    rcases hx with h | h
    · rw [h]; exact List.mem_filter.mpr ⟨ha, hpa⟩
    · rw [h]; exact List.mem_filter.mpr ⟨hb, hpb⟩
  exact (List.subperm_of_subset hnd hsub).length_le

/-- C25. For an id outside `EXCLUDED_APP_IDS`, a text whose normal form contains "cashback",
"make money" or "shopping rewards" is classified relevant even when nothing else in it
matches: the phrase is a positive keyword and contains another one ("cash", "money",
"reward"), so the score is at least 2. -/
theorem overlap_relevant (appId title description : Str) (hid : appId ∉ EXCLUDED_APP_IDS)
    (h : lit "cashback" <:+: relevanceText title description ∨
      lit "make money" <:+: relevanceText title description ∨
      lit "shopping rewards" <:+: relevanceText title description) :
    isRelevantApp appId title description = true := by
  have key : 2 ≤ positiveHits (relevanceText title description) := by
    unfold positiveHits
    rcases h with h | h | h
    · exact two_hits _ _ (lit "cashback") (lit "cash") (by decide) (by decide) (by decide)
        (by simpa using h)
        (by simpa using (show lit "cash" <:+: lit "cashback" from by decide).trans h)
    · exact two_hits _ _ (lit "make money") (lit "money") (by decide) (by decide) (by decide)
        (by simpa using h)
        (by simpa using (show lit "money" <:+: lit "make money" from by decide).trans h)
    · exact two_hits _ _ (lit "shopping rewards") (lit "reward") (by decide) (by decide)
        (by decide) (by simpa using h)
        (by simpa using (show lit "reward" <:+: lit "shopping rewards" from by decide).trans h)
  rw [isRelevantApp_eq]
  simp [hid, key]

set_option maxRecDepth 100000 in
theorem overlap_counted_twice_witness :
    hitsWords withdrawalWords sampleComplaint = true ∧
    hitsWords paysWords sampleComplaint = true :=
  (overlap_counted_twice [sampleComplaint]).1 sampleComplaint (by decide)

theorem overlap_relevant_witness :
    isRelevantApp (lit "com.x.app") (lit "Cashback") [] = true :=
  overlap_relevant (lit "com.x.app") (lit "Cashback") [] (by decide) (Or.inl (by decide))
/-! ## The theorems at concrete inputs -/

theorem entityTask_gate_witness :
    entityTask ⟨lit "com.whatsapp", [lit "seeded_competitor"], true⟩
      (some ⟨some (lit "WhatsApp Messenger"), some (lit "Simple. Reliable. Private."), some 1000⟩)
      (fun _ _ => none) ≠ TaskResult.filtered ∧
    ∀ r, entityTask ⟨lit "com.x.vpn", [lit "kw:vpn-blocker"], false⟩
      (some ⟨some (lit "VPN Booster Cleaner"), some (lit "Fast and secure."), some 900000⟩)
      (fun _ _ => none) ≠ TaskResult.record r :=
  ⟨(entityTask_gate ⟨lit "com.whatsapp", [lit "seeded_competitor"], true⟩
      ⟨some (lit "WhatsApp Messenger"), some (lit "Simple. Reliable. Private."), some 1000⟩
      (fun _ _ => none)).2.1 rfl,
   (entityTask_gate ⟨lit "com.x.vpn", [lit "kw:vpn-blocker"], false⟩
      ⟨some (lit "VPN Booster Cleaner"), some (lit "Fast and secure."), some 900000⟩
      (fun _ _ => none)).2.2 rfl rfl (by decide)⟩

theorem fetchReviews_keeps_pages_witness :
    fetchReviews flakySource 5 = some [⟨some (lit "nice"), none, some 5, none⟩] :=
  (fetchReviews_keeps_pages flakySource 5
    [{ data := some [⟨some (lit "nice"), none, some 5, none⟩],
       nextPaginationToken := some (lit "t") }]
    (by decide) (by decide) (by decide) (by decide)).1

theorem countThemes_counts_witness :
    (lit "withdrawal_issues", 1) ∈ (countThemes [sampleComplaint, sampleShort]).topPraises ++
      (countThemes [sampleComplaint, sampleShort]).topComplaints ∧
    1 ≤ (countThemes [sampleComplaint, sampleShort]).reviewCountUsed :=
  ⟨by decide, (countThemes_counts [sampleComplaint, sampleShort]).2.2.2.2.2
    (lit "withdrawal_issues", 1) (by decide)⟩

set_option maxRecDepth 100000 in
theorem examples_shape_witness :
    [sampleComplaint.body].length ≤ 15 ∧
    ∀ x ∈ [sampleComplaint.body], (∃ r ∈ [sampleComplaint, sampleShort],
      hitsKey (lit "complaint:withdrawal_issues") r = true ∧ 100 ≤ r.body.length ∧
        x = r.body.take 500) ∧ 100 ≤ x.length ∧ x.length ≤ 500 :=
  examples_shape [sampleComplaint, sampleShort] (lit "complaint:withdrawal_issues")
    [sampleComplaint.body] (by decide)

theorem countThemes_all_labels_witness :
    (lit "easy_to_use", 0) ∈ (countThemes [sampleComplaint, sampleShort]).topPraises :=
  (countThemes_all_labels [sampleComplaint, sampleShort]).2.2.2.2.1
    (lit "easy_to_use", [lit "easy", lit "simple", lit "straightforward", lit "intuitive",
      lit "user friendly", lit "clean interface"]) (by decide) (by decide)
theorem task_failure_isolated_witness :
    fetchPhase sampleFound (sampleServices (lit "a")) ([] ++ lit "a" :: [lit "b"]) =
      fetchPhase sampleFound (sampleServices (lit "a")) ([] ++ [lit "b"]) :=
  (task_failure_isolated sampleFound (sampleServices (lit "a")) (lit "a")).2.1 [] [lit "b"]
    (Or.inl (by decide))

theorem discover_verified_witness :
    ((true = true ↔ lit "a" ∈ [lit "a"]) ∧
    ((mergeResults (lit "kw:k") sampleFound [⟨some (lit "a")⟩]).get (lit "a")).map
      (fun e => e.verified) = some true) :=
  ⟨(discover_verified [lit "a"] [] (fun _ _ => []) (fun _ _ => []) (lit "a")).1
      ⟨lit "a", [lit "seeded_competitor"], true⟩ (by decide),
   (discover_verified [] [] (fun _ _ => []) (fun _ _ => []) (lit "a")).2 (lit "kw:k")
      sampleFound [⟨some (lit "a")⟩] ⟨lit "a", [lit "seeded_competitor"], true⟩ (by decide)⟩

theorem keyword_merge_bound_witness :
    tagTotal (mergeResults (lit "kw:k") sampleFound [⟨some (lit "a")⟩, ⟨none⟩]) ≤
      tagTotal sampleFound + CONFIG.appsPerKeyword :=
  (keyword_merge_bound (lit "kw:k") sampleFound [⟨some (lit "a")⟩, ⟨none⟩] (by decide)).2
    (by decide)

set_option maxRecDepth 100000 in
theorem scenario_withdrawal_witness :
    Dict.get (countThemes [sampleComplaint, sampleShort]).examples
      (lit "complaint:withdrawal_issues") =
      some [lit "withdrawal failed " ++ List.replicate 102 120] :=
  (scenario_withdrawal sampleComplaint sampleShort
    (lit "withdrawal failed " ++ List.replicate 102 120) rfl (by decide) (by decide)
    (by decide) rfl).2.2.1

theorem isRelevantApp_append_witness :
    isRelevantApp (lit "com.x.app") (lit "Earn cash") (lit "daily" ++ lit "bonus") = true :=
  (isRelevantApp_append (lit "com.x.app") (lit "Earn cash") (lit "daily") (by decide)).1
    (lit "bonus") (by decide)

theorem matching_normalized_witness :
    isRelevantApp (lit "com.x.app") ([] ++ 101 :: lit "arn  Cash")
        (lit "get" ++ [9, 32, 10] ++ lit "rewards") =
      isRelevantApp (lit "com.x.app") ([] ++ 69 :: lit "arn  Cash")
        (lit "get" ++ [32] ++ lit "rewards") :=
  matching_normalized.2.2.1 (lit "com.x.app") _ _ _ _
    (Respelled.letter [] (lit "arn  Cash") 69 101 (Or.inr (Or.inl ⟨by decide, by decide, rfl⟩)))
    (Respelled.space (lit "get") [32] [9, 32, 10] (lit "rewards")
      (by unfold AllWhite; decide) (by unfold AllWhite; decide) (by decide) (by decide))

theorem remerge_appends_witness :
    0 < sightings (lit "a") [⟨some (lit "a")⟩] ∧
    ∃ e, (mergeResults (lit "kw:k") sampleFound [⟨some (lit "a")⟩]).get (lit "a") = some e ∧
      (mergeResults (lit "kw:k") (mergeResults (lit "kw:k") sampleFound [⟨some (lit "a")⟩])
          [⟨some (lit "a")⟩]).get (lit "a") =
        some { appId := e.appId,
               from_ := e.from_ ++
                 List.replicate (sightings (lit "a") [⟨some (lit "a")⟩]) (lit "kw:k"),
               verified := e.verified } ∧
      e.from_.length <
        (e.from_ ++ List.replicate (sightings (lit "a") [⟨some (lit "a")⟩]) (lit "kw:k")).length ∧
      (mergeResults (lit "kw:k") (mergeResults (lit "kw:k") sampleFound [⟨some (lit "a")⟩])
          [⟨some (lit "a")⟩]).get (lit "a") ≠
        (mergeResults (lit "kw:k") sampleFound [⟨some (lit "a")⟩]).get (lit "a") :=
  ⟨by decide,
   (remerge_appends (lit "kw:k") sampleFound [⟨some (lit "a")⟩] (lit "a")).2.2 (by decide)⟩

theorem isRelevantApp_append_negative_witness :
    isRelevantApp (lit "com.x.app") (lit "Tools") (lit "fast" ++ [32] ++ lit "vpn") = false :=
  isRelevantApp_append_negative (lit "com.x.app") (lit "Tools") (lit "fast" ++ [32]) (lit "vpn")
    (by decide) (by decide) (Or.inr ⟨lit "fast", 32, rfl, by decide⟩)

set_option maxRecDepth 100000 in
theorem examples_keep_longest_witness :
    eligible (lit "complaint:withdrawal_issues") [sampleComplaint, sampleShort] =
      [sampleComplaint] ∧
    ∃ kept rest : List Review,
      (kept ++ rest).Perm
        (eligible (lit "complaint:withdrawal_issues") [sampleComplaint, sampleShort]) ∧
      List.Forall₂ MadeFrom
        (storedExamples [sampleComplaint, sampleShort] (lit "complaint:withdrawal_issues"))
        kept ∧
      ∀ a ∈ kept, ∀ b ∈ rest, b.body.length ≤ a.body.length :=
  ⟨by decide,
   (examples_keep_longest [sampleComplaint, sampleShort]
      (lit "complaint:withdrawal_issues")).2.2.2⟩


end Offerwall
